import Mathlib

/-!
Verification of the Neutron language front-end: tokenizer, error-recovering
recursive-descent parser, and type checker.

The JavaScript sources are embedded shallowly:

* `tokenize` mirrors `NeutronParser.tokenize`.  The scan is a loop that
  advances a cursor through the input; it is embedded as a recursion on the
  remaining character list with an explicit absolute position, driven by a
  fuel argument `input.length + 1` that is always sufficient (every loop
  iteration consumes at least one character).
* The parser methods mutate `this.position` / `this.errors` and signal local
  failures with thrown `Error`s that `parseStatement` catches.  They are
  embedded as functions `PSt → Option (PSt × Except String α)`: the state is
  threaded explicitly (also through thrown errors, since JavaScript mutations
  survive a `throw`), `Except.error` models a thrown `Error` carrying its
  message, and the outer `Option` is a fuel guard — `none` means the fuel ran
  out, so `∃ fuel, … = some r` expresses that the JavaScript call returns.
  The mutually recursive parse methods (and their internal `while` loops)
  become the call tags `ExpCall` / `StCall` of the two step functions
  `expStep` and `stStep`, each structurally recursive on its fuel.
* Numbers: the checker consults `typeof value === 'number'` and
  `Number.isInteger(value)`; the latter is only reached when the raw text has
  no `'.'`, in which case it is `true` for every digit string, so the numeric
  value is represented by that Boolean (`LitVal.num`).
* JavaScript quirks are modelled faithfully: `&&`/`||` short-circuit
  truthiness (the empty string is falsy), and sites that evaluate
  `this.currentToken().start` after `this.currentToken()` was `null` throw a
  `TypeError` whose message is recorded like any other caught error.
* The whitespace class `\s` is modelled by its ASCII part (space, tab, LF,
  CR, VT, FF); all concrete inputs considered here are ASCII.

Field naming: the JavaScript property `end` is called `stop` here (`end` is a
Lean keyword).
-/

/-- Quote characters used in source text and in error messages, written via
code points to keep the embedding free of quote-escaping noise. -/
def sqChar : Char := Char.ofNat 39

/-- Single-quote as a string, for interpolated error messages. -/
def sqStr : String := String.mk [sqChar]

/-- Double-quote character. -/
def dqChar : Char := Char.ofNat 34

/-- Token kinds produced by `NeutronParser.tokenize` (the JS `type` strings). -/
inductive TokType where
  | NUMBER | STRING | IDENTIFIER | KEYWORD | OPERATOR | SYMBOL
deriving DecidableEq, Repr

/-- A token: `{ type, value, start, end }` from `tokenize`. -/
structure Token where
  type : TokType
  value : String
  start : Nat
  stop : Nat
deriving DecidableEq, Repr

/-- The ASCII part of the JS whitespace class `\s`. -/
def isWsChar (c : Char) : Bool :=
  c = ' ' || c = Char.ofNat 9 || c = Char.ofNat 10 || c = Char.ofNat 13 ||
  c = Char.ofNat 11 || c = Char.ofNat 12

/-- JS `/[0-9]/`. -/
def isDigitChar (c : Char) : Bool := '0' ≤ c && c ≤ '9'

/-- JS `/[0-9.]/`, the lenient numeric-literal class. -/
def isNumChar (c : Char) : Bool := isDigitChar c || c = '.'

/-- JS `/[a-zA-Z_$]/`. -/
def isIdentStartChar (c : Char) : Bool :=
  ('a' ≤ c && c ≤ 'z') || ('A' ≤ c && c ≤ 'Z') || c = '_' || c = '$'

/-- JS `/[a-zA-Z0-9_$]/`. -/
def isIdentChar (c : Char) : Bool := isIdentStartChar c || isDigitChar c

/-- `NeutronParser.isKeyword`: the fixed reserved-word list. -/
def isKeyword (value : String) : Bool :=
  ["var", "int", "float", "string", "bool", "array", "object", "any",
   "if", "elif", "else", "while", "for", "return", "break", "continue",
   "class", "fun", "this", "and", "or", "not", "in", "new", "match",
   "case", "default", "use", "using", "true", "false", "nil"].contains value

/-- Scan of a string literal body after the opening quote (the inner `while`
of the string branch of `tokenize`).  Returns the content characters consumed
and the characters after the closing quote, or `none` when the string never
closes before end of input (`current >= input.length` in the JS source).  A
backslash consumes two characters without interpreting the escape. -/
def scanString (quote : Char) : List Char → Option (List Char × List Char)
  | [] => none
  | c :: cs =>
    if c = quote then some ([], cs)
    else if c = '\\' then
      match cs with
      | [] => none
      | d :: cs2 =>
        match scanString quote cs2 with
        | none => none
        | some (content, rest) => some (c :: d :: content, rest)
    else
      match scanString quote cs with
      | none => none
      | some (content, rest) => some (c :: content, rest)

/-- The inner `while` of the block-comment branch: stops on `*/` or when at
most one character is left, then skips two characters.  Returns the new
absolute position (clamped to the input length — the JS cursor may step past
the end, which is observationally identical since the scan loop then exits)
and the remaining characters. -/
def skipBlockComment : List Char → Nat → Nat × List Char
  | [], pos => (pos, [])
  | [_], pos => (pos + 1, [])
  | a :: b :: rest, pos =>
    if a = '*' && b = '/' then (pos + 2, rest)
    else skipBlockComment (b :: rest) (pos + 1)

/-- Prepend a token to a tokenizer result. -/
def consTok (t : Token) : Option (Except String (List Token)) →
    Option (Except String (List Token))
  | none => none
  | some (.error e) => some (.error e)
  | some (.ok ts) => some (.ok (t :: ts))

/-- One pass of `NeutronParser.tokenize`, on the remaining characters `rest`
whose first character sits at absolute position `pos`.  Branches appear in
the priority order of the source: whitespace, `//`, `/*`, quoted strings,
numbers, identifiers/keywords, the five two-character operators, then a
single-character `SYMBOL`. -/
def tokenizeAux : Nat → List Char → Nat → Option (Except String (List Token))
  | 0, _, _ => none
  | _ + 1, [], _ => some (.ok [])
  | fuel + 1, c :: cs, pos =>
    if isWsChar c then tokenizeAux fuel cs (pos + 1)
    else if c = '/' && cs.head? = some '/' then
      let seen := (c :: cs).takeWhile (fun ch => ch ≠ Char.ofNat 10)
      let rest := (c :: cs).dropWhile (fun ch => ch ≠ Char.ofNat 10)
      tokenizeAux fuel rest (pos + seen.length)
    else if c = '/' && cs.head? = some '*' then
      let pr := skipBlockComment (cs.drop 1) (pos + 2)
      tokenizeAux fuel pr.2 pr.1
    else if c = dqChar || c = sqChar then
      match scanString c cs with
      | none => some (.error s!"Unterminated string at position {pos}")
      | some (content, rest) =>
        consTok ⟨.STRING, String.mk (c :: content ++ [c]), pos,
                 pos + content.length + 2⟩
          (tokenizeAux fuel rest (pos + content.length + 2))
    else if isDigitChar c then
      let ds := (c :: cs).takeWhile isNumChar
      let rest := (c :: cs).dropWhile isNumChar
      consTok ⟨.NUMBER, String.mk ds, pos, pos + ds.length⟩
        (tokenizeAux fuel rest (pos + ds.length))
    else if isIdentStartChar c then
      let ds := (c :: cs).takeWhile isIdentChar
      let rest := (c :: cs).dropWhile isIdentChar
      let v := String.mk ds
      consTok ⟨if isKeyword v then .KEYWORD else .IDENTIFIER, v, pos,
               pos + ds.length⟩
        (tokenizeAux fuel rest (pos + ds.length))
    else if c = '=' && cs.head? = some '=' then
      consTok ⟨.OPERATOR, "==", pos, pos + 2⟩
        (tokenizeAux fuel (cs.drop 1) (pos + 2))
    else if c = '!' && cs.head? = some '=' then
      consTok ⟨.OPERATOR, "!=", pos, pos + 2⟩
        (tokenizeAux fuel (cs.drop 1) (pos + 2))
    else if c = '>' && cs.head? = some '=' then
      consTok ⟨.OPERATOR, ">=", pos, pos + 2⟩
        (tokenizeAux fuel (cs.drop 1) (pos + 2))
    else if c = '<' && cs.head? = some '=' then
      consTok ⟨.OPERATOR, "<=", pos, pos + 2⟩
        (tokenizeAux fuel (cs.drop 1) (pos + 2))
    else if c = '&' && cs.head? = some '&' then
      consTok ⟨.OPERATOR, "and", pos, pos + 2⟩
        (tokenizeAux fuel (cs.drop 1) (pos + 2))
    else if c = '|' && cs.head? = some '|' then
      consTok ⟨.OPERATOR, "or", pos, pos + 2⟩
        (tokenizeAux fuel (cs.drop 1) (pos + 2))
    else
      consTok ⟨.SYMBOL, String.mk [c], pos, pos + 1⟩
        (tokenizeAux fuel cs (pos + 1))

/-- `NeutronParser.tokenize`.  The fuel `input.length + 1` always suffices
because every iteration of the scan consumes at least one character. -/
def tokenize (input : List Char) : Option (Except String (List Token)) :=
  tokenizeAux (input.length + 1) input 0

/-- Literal values as stored in `Literal` nodes.  A JS number is represented
by the one property the checker ever consults, `Number.isInteger(value)`
(that test is only reached when the raw text has no `'.'`, where it is `true`
for every digit string). -/
inductive LitVal where
  | num (isInteger : Bool)
  | str (s : String)
  | bool (b : Bool)
  | nil
deriving DecidableEq, Repr

/-- AST nodes, one constructor per `type` tag the parser produces.  Each
constructor carries exactly the fields the source sets — in particular
`block` (`BlockStatement`) carries no `start`/`stop` offsets, and its body
may contain `null` entries (the single-statement branch of `parseBlock`
pushes the statement unconditionally). -/
inductive Node where
  | varDecl (declaredType : Option String) (name : String) (init : Option Node)
      (start stop : Nat)
  | ifStmt (test : Node) (consequent : Node) (alternate : Option Node)
      (start stop : Nat)
  | whileStmt (test : Node) (body : Node) (start stop : Nat)
  | forStmt (init : Option Node) (test : Option Node) (update : Option Node)
      (body : Node) (start stop : Nat)
  | block (body : List (Option Node))
  | funDecl (id : Node) (params : List String) (body : Node) (start stop : Nat)
  | classDecl (id : Node) (body : Node) (start stop : Nat)
  | returnStmt (argument : Option Node) (start stop : Nat)
  | exprStmt (expression : Node) (start stop : Nat)
  | assign (left : Node) (right : Node) (start stop : Nat)
  | binary (op : String) (left : Node) (right : Node) (start stop : Nat)
  | logical (op : String) (left : Node) (right : Node) (start stop : Nat)
  | unary (op : String) (argument : Node) (start stop : Nat)
  | ident (name : String) (start stop : Nat)
  | lit (value : LitVal) (raw : String) (start stop : Nat)
  | call (callee : Node) (args : List Node) (start stop : Nat)
  | member (obj : Node) (property : Node) (start stop : Nat)
  | arrayLit (elements : List Node) (start stop : Nat)
  | objectLit (properties : List Node) (start stop : Nat)
  | property (key : Token) (value : Node) (start stop : Nat)
deriving Repr

/-- The `start` offset a node carries, when it carries one (`BlockStatement`
nodes do not). -/
def nodeStart : Node → Option Nat
  | .varDecl _ _ _ s _ => some s
  | .ifStmt _ _ _ s _ => some s
  | .whileStmt _ _ s _ => some s
  | .forStmt _ _ _ _ s _ => some s
  | .block _ => none
  | .funDecl _ _ _ s _ => some s
  | .classDecl _ _ s _ => some s
  | .returnStmt _ s _ => some s
  | .exprStmt _ s _ => some s
  | .assign _ _ s _ => some s
  | .binary _ _ _ s _ => some s
  | .logical _ _ _ s _ => some s
  | .unary _ _ s _ => some s
  | .ident _ s _ => some s
  | .lit _ _ s _ => some s
  | .call _ _ s _ => some s
  | .member _ _ s _ => some s
  | .arrayLit _ s _ => some s
  | .objectLit _ s _ => some s
  | .property _ _ s _ => some s

/-- The `end` offset a node carries, when it carries one. -/
def nodeStop : Node → Option Nat
  | .varDecl _ _ _ _ e => some e
  | .ifStmt _ _ _ _ e => some e
  | .whileStmt _ _ _ e => some e
  | .forStmt _ _ _ _ _ e => some e
  | .block _ => none
  | .funDecl _ _ _ _ e => some e
  | .classDecl _ _ _ e => some e
  | .returnStmt _ _ e => some e
  | .exprStmt _ _ e => some e
  | .assign _ _ _ e => some e
  | .binary _ _ _ _ e => some e
  | .logical _ _ _ _ e => some e
  | .unary _ _ _ e => some e
  | .ident _ _ e => some e
  | .lit _ _ _ e => some e
  | .call _ _ _ e => some e
  | .member _ _ _ e => some e
  | .arrayLit _ _ e => some e
  | .objectLit _ _ e => some e
  | .property _ _ _ e => some e

/-- Reading `.start` off a node, as the parser does (the parser only ever
reads offsets of expression nodes, which always carry them). -/
def startOf (n : Node) : Nat := (nodeStart n).getD 0

/-- Reading `.end` off a node, as the parser does. -/
def stopOf (n : Node) : Nat := (nodeStop n).getD 0

/-- Whether a node is an `Identifier` (the parser's
`expr.type === 'Identifier'` test). -/
def isIdentNode : Node → Bool
  | .ident _ _ _ => true
  | _ => false

/-- A recorded (non-fatal) syntax error: `{ message, start, end }`. -/
structure SErr where
  message : String
  start : Nat
  stop : Nat
deriving DecidableEq, Repr

/-- The parse result: `{ type: 'Program', body, errors }`.  The early return
for empty/whitespace-only input builds a Program object with no `errors`
property at all, hence the `Option`. -/
structure Program where
  body : List Node
  errors : Option (List SErr)
deriving Repr

/-- Parser state: the fields of the `NeutronParser` object that the parse
pass reads and writes (`input`, `tokens`, `position`, `errors`). -/
structure PSt where
  input : List Char
  tokens : List Token
  position : Nat
  errors : List SErr
deriving DecidableEq, Repr

/-- `NeutronParser.currentToken`. -/
def currentToken (st : PSt) : Option Token := st.tokens.get? st.position

/-- `NeutronParser.nextToken` (its state effect). -/
def nextTokSt (st : PSt) : PSt :=
  if st.position < st.tokens.length then { st with position := st.position + 1 }
  else st

/-- `NeutronParser.addError`. -/
def addErrorSt (st : PSt) (message : String) (start stop : Nat) : PSt :=
  { st with errors := st.errors ++ [⟨message, start, stop⟩] }

/-- The scan loop of `NeutronParser.findEndOfLine`, fuel-driven (the fuel
`input.length + 1` always suffices). -/
def findEndOfLineAux : Nat → List Char → Nat → Nat
  | 0, input, _ => input.length
  | fuel + 1, input, i =>
    match input.get? i with
    | none => input.length
    | some c =>
      if c = Char.ofNat 10 || c = Char.ofNat 13 then i
      else findEndOfLineAux fuel input (i + 1)

/-- `NeutronParser.findEndOfLine`: the index of the next `\n`/`\r` at or
after `pos`, or the input length. -/
def findEndOfLine (input : List Char) (pos : Nat) : Nat :=
  findEndOfLineAux (input.length + 1) input pos

/-- The reserved words `NeutronParser.isStatementStart` recognizes. -/
def statementStarters : List String :=
  ["var", "if", "while", "for", "fun", "class", "return"]

/-- `NeutronParser.isStatementStart`. -/
def isStatementStart (t : Token) : Bool :=
  statementStarters.contains t.value || t.type = .IDENTIFIER

/-- The loop of `NeutronParser.skipToNextStatement`, fuel-driven (each
iteration that does not return consumes one token, so
`tokens.length + 1` fuel always suffices). -/
def skipToNextStatementAux : Nat → PSt → PSt
  | 0, st => st
  | fuel + 1, st =>
    match currentToken st with
    | none => st
    | some t =>
      if t.value = ";" then nextTokSt st
      else if t.value = "\x7d" || t.value = "\x7b" then st
      else if isStatementStart t then st
      else skipToNextStatementAux fuel (nextTokSt st)

/-- `NeutronParser.skipToNextStatement`: skip forward to a `;` (consumed), a
block delimiter (left in place), the start of a recognizable statement, or
the end of the tokens. -/
def skipToNextStatement (st : PSt) : PSt :=
  skipToNextStatementAux (st.tokens.length + 1) st

/-- `NeutronParser.isTypeKeyword`. -/
def isTypeKeyword (value : String) : Bool :=
  ["int", "float", "string", "bool", "array", "object", "any"].contains value

/-- The parsing monad: explicit `NeutronParser` state, `Except.error` for a
thrown `Error` (state mutations survive a JS `throw`, so the state is
returned alongside), and `none` for fuel exhaustion. -/
def M (α : Type) : Type := PSt → Option (PSt × Except String α)

instance : Monad M where
  pure a := fun st => some (st, .ok a)
  bind x f := fun st =>
    match x st with
    | none => none
    | some (st1, .error e) => some (st1, .error e)
    | some (st1, .ok a) => f a st1

/-- Read `this.currentToken()`. -/
def peekTok : M (Option Token) := fun st => some (st, .ok (currentToken st))

/-- Run `this.nextToken()` for its effect. -/
def advanceTok : M Unit := fun st => some (nextTokSt st, .ok ())

/-- `throw new Error(msg)`. -/
def throwErr {α : Type} (msg : String) : M α := fun st => some (st, .error msg)

/-- `this.addError(message, start, end)`. -/
def recordErr (message : String) (start stop : Nat) : M Unit :=
  fun st => some (addErrorSt st message start stop, .ok ())

/-- `this.skipToNextStatement()`. -/
def doSkip : M Unit := fun st => some (skipToNextStatement st, .ok ())

/-- Read `this.input`. -/
def getInputM : M (List Char) := fun st => some (st, .ok st.input)

/-- `this.position < this.tokens.length`. -/
def hasMore : M Bool :=
  fun st => some (st, .ok (decide (st.position < st.tokens.length)))

/-- Message of the JS `TypeError` raised by evaluating
`this.currentToken().start` when `currentToken()` is `null` (several throw
sites interpolate it into their message after a short-circuiting guard). -/
def nullStartMsg : String :=
  s!"Cannot read properties of null (reading {sqStr}start{sqStr})"

/-- Message of the JS `TypeError` raised by evaluating
`this.currentToken().value` when `currentToken()` is `null`
(`parseForStatement` dereferences the current token unguarded). -/
def nullValueMsg : String :=
  s!"Cannot read properties of null (reading {sqStr}value{sqStr})"

/-- An unguarded `this.currentToken()` whose `.value`/`.start` the source
dereferences immediately: yields the token, or throws the `TypeError`. -/
def currentTokOrValueThrow : M Token := fun st =>
  match currentToken st with
  | none => some (st, .error nullValueMsg)
  | some t => some (st, .ok t)

/-- The recurring guard pattern
`if (!this.currentToken() || !p(this.currentToken())) throw new Error(mk(this.currentToken().start))`:
when the current token fails `p` the thrown message interpolates the current
token's `start`; when there is no current token that interpolation itself
raises the `TypeError`.  On success the current token is returned. -/
def expectOrThrow (p : Token → Bool) (mk : Nat → String) : M Token := fun st =>
  match currentToken st with
  | none => some (st, .error nullStartMsg)
  | some t => if p t then some (st, .ok t) else some (st, .error (mk t.start))

/-- Message of `parsePrimary` at end of input. -/
def msgUnexpectedEnd : String := "Unexpected end of input"

/-- Message of `parsePrimary` on an unusable token. -/
def msgUnexpectedToken (v : String) (p : Nat) : String :=
  s!"Unexpected token {sqStr}{v}{sqStr} at position {p}"

/-- Message of the parenthesized-expression close check. -/
def msgParenClose (p : Nat) : String :=
  s!"Expected {sqStr}){sqStr} at position {p}"

/-- Message of the `parseCallExpression` open check. -/
def msgCallOpen (p : Nat) : String :=
  s!"Expected {sqStr}({sqStr} for function call at position {p}"

/-- Message of the `parseCallExpression` close check. -/
def msgCallClose (p : Nat) : String :=
  s!"Expected {sqStr}){sqStr} to close function call at position {p}"

/-- Message of the `parseMemberExpression` dot check. -/
def msgMemberDot (p : Nat) : String :=
  s!"Expected {sqStr}.{sqStr} for member access at position {p}"

/-- Message of the `parseMemberExpression` property check. -/
def msgMemberIdent (p : Nat) : String :=
  s!"Expected identifier after {sqStr}.{sqStr} at position {p}"

/-- Message of the `parseArrayExpression` close check. -/
def msgArrayClose (p : Nat) : String :=
  s!"Expected {sqStr}]{sqStr} to close array at position {p}"

/-- Message of the `parseObjectExpression` close check. -/
def msgObjectClose (p : Nat) : String :=
  s!"Expected {sqStr}\x7d{sqStr} to close object at position {p}"

/-- Message of the `parseObjectProperty` key check. -/
def msgPropKey (p : Nat) : String :=
  s!"Expected string key for object property at position {p}"

/-- Message of the `parseObjectProperty` colon check. -/
def msgPropColon (p : Nat) : String :=
  s!"Expected {sqStr}:{sqStr} after object property key at position {p}"

/-- Message of the `parseVariableDeclaration` identifier check. -/
def msgVarIdent (p : Nat) : String := s!"Expected identifier at position {p}"

/-- Message of the `parseIfStatement` open check. -/
def msgIfOpen (p : Nat) : String :=
  s!"Expected {sqStr}({sqStr} after {sqStr}if{sqStr} at position {p}"

/-- Message of the `parseIfStatement` close check. -/
def msgIfClose (p : Nat) : String :=
  s!"Expected {sqStr}){sqStr} after if condition at position {p}"

/-- Message of the `parseWhileStatement` open check. -/
def msgWhileOpen (p : Nat) : String :=
  s!"Expected {sqStr}({sqStr} after {sqStr}while{sqStr} at position {p}"

/-- Message of the `parseWhileStatement` close check. -/
def msgWhileClose (p : Nat) : String :=
  s!"Expected {sqStr}){sqStr} after while condition at position {p}"

/-- Message of the `parseForStatement` open check. -/
def msgForOpen (p : Nat) : String :=
  s!"Expected {sqStr}({sqStr} after {sqStr}for{sqStr} at position {p}"

/-- Message of the `parseForStatement` init-separator check. -/
def msgForInit (p : Nat) : String :=
  s!"Expected {sqStr};{sqStr} after for init at position {p}"

/-- Message of the `parseForStatement` test-separator check. -/
def msgForTest (p : Nat) : String :=
  s!"Expected {sqStr};{sqStr} after for test at position {p}"

/-- Message of the `parseForStatement` update check. -/
def msgForUpdate (p : Nat) : String :=
  s!"Expected {sqStr}){sqStr} after for update at position {p}"

/-- Message of the `parseFunctionDeclaration` name check. -/
def msgFunName (p : Nat) : String :=
  s!"Expected function name after {sqStr}fun{sqStr} at position {p}"

/-- Message of the `parseFunctionDeclaration` open check. -/
def msgFunOpen (p : Nat) : String :=
  s!"Expected {sqStr}({sqStr} after function name at position {p}"

/-- Message of the `parseFunctionDeclaration` close check. -/
def msgFunClose (p : Nat) : String :=
  s!"Expected {sqStr}){sqStr} after function parameters at position {p}"

/-- Message of the `parseClassDeclaration` name check. -/
def msgClassName (p : Nat) : String :=
  s!"Expected class name after {sqStr}class{sqStr} at position {p}"

/-- Message of the `parseClassDeclaration` body check. -/
def msgClassOpen (p : Nat) : String :=
  s!"Expected {sqStr}\x7b{sqStr} to start class body at position {p}"

/-- Message of the `parseAssignmentExpression` equals check. -/
def msgAssignEq (p : Nat) : String :=
  s!"Expected {sqStr}={sqStr} in assignment at position {p}"

/-- Missing-semicolon message of `parseVariableDeclaration`. -/
def msgMissingSemiVar : String :=
  "Missing semicolon at end of variable declaration"

/-- Missing-semicolon message of `parseExpressionStatement`. -/
def msgMissingSemiStmt : String := "Missing semicolon at end of statement"

/-- Missing-semicolon message of `parseAssignmentExpression`. -/
def msgMissingSemiAssign : String := "Missing semicolon at end of assignment"

/-- `Number.isInteger(Number(raw))` for a raw numeric-token text.  The
checker only consults this when `raw` contains no `'.'`, and a dot-free
digit string always parses to an integer, so the flag is stored as exactly
that test. -/
def jsNumberIsInteger (raw : String) : Bool := !(raw.data.contains '.')

/-- Call tags for the mutually recursive expression-parsing methods
(`parseExpression` down to `parseObjectProperty`).  Each `while` loop of the
source becomes a `…Loop`/`…Elems`/`…Props`/`…Args` tag carrying the
accumulated value, and each loop's shared exit code a `…Finish` tag. -/
inductive ExpCall where
  | logicalOr
  | orLoop (e : Node)
  | logicalAnd
  | andLoop (e : Node)
  | equality
  | eqLoop (e : Node)
  | relational
  | relLoop (e : Node)
  | additive
  | addLoop (e : Node)
  | multiplicative
  | mulLoop (e : Node)
  | unaryExp
  | primary
  | callExpr (callee : Node)
  | callArgs (callee : Node) (args : List Node)
  | callFinish (callee : Node) (args : List Node)
  | memberExpr (obj : Node)
  | arrayExpr (startTok : Token)
  | arrayElems (startTok : Token) (elems : List Node)
  | arrayFinish (startTok : Token) (elems : List Node)
  | objectExpr (startTok : Token)
  | objectProps (startTok : Token) (props : List Node)
  | objectFinish (startTok : Token) (props : List Node)
  | objectProp

/-- The expression parser: one fuel-indexed step function over the call tags
of `ExpCall`, mirroring `parseLogicalOr` … `parseObjectProperty` of the
source.  `none` means the fuel ran out. -/
def expStep : Nat → ExpCall → M Node
  | 0, _ => fun _ => none
  | n + 1, c =>
    match c with
    | .logicalOr => do
        let e ← expStep n .logicalAnd
        expStep n (.orLoop e)
    | .orLoop e => do
        match ← peekTok with
        | some t =>
          if t.value = "or" then do
            advanceTok
            let right ← expStep n .logicalAnd
            expStep n (.orLoop (.logical "or" e right (startOf e) (stopOf right)))
          else pure e
        | none => pure e
    | .logicalAnd => do
        let e ← expStep n .equality
        expStep n (.andLoop e)
    | .andLoop e => do
        match ← peekTok with
        | some t =>
          if t.value = "and" then do
            advanceTok
            let right ← expStep n .equality
            expStep n (.andLoop (.logical "and" e right (startOf e) (stopOf right)))
          else pure e
        | none => pure e
    | .equality => do
        let e ← expStep n .relational
        expStep n (.eqLoop e)
    | .eqLoop e => do
        match ← peekTok with
        | some t =>
          if t.value = "==" || t.value = "!=" then do
            advanceTok
            let right ← expStep n .relational
            expStep n (.eqLoop (.binary t.value e right (startOf e) (stopOf right)))
          else pure e
        | none => pure e
    | .relational => do
        let e ← expStep n .additive
        expStep n (.relLoop e)
    | .relLoop e => do
        match ← peekTok with
        | some t =>
          if ["<", "<=", ">", ">="].contains t.value then do
            advanceTok
            let right ← expStep n .additive
            expStep n (.relLoop (.binary t.value e right (startOf e) (stopOf right)))
          else pure e
        | none => pure e
    | .additive => do
        let e ← expStep n .multiplicative
        expStep n (.addLoop e)
    | .addLoop e => do
        match ← peekTok with
        | some t =>
          if t.value = "+" || t.value = "-" then do
            advanceTok
            let right ← expStep n .multiplicative
            expStep n (.addLoop (.binary t.value e right (startOf e) (stopOf right)))
          else pure e
        | none => pure e
    | .multiplicative => do
        let e ← expStep n .unaryExp
        expStep n (.mulLoop e)
    | .mulLoop e => do
        match ← peekTok with
        | some t =>
          if ["*", "/", "%"].contains t.value then do
            advanceTok
            let right ← expStep n .unaryExp
            expStep n (.mulLoop (.binary t.value e right (startOf e) (stopOf right)))
          else pure e
        | none => pure e
    | .unaryExp => do
        match ← peekTok with
        | some t =>
          if t.value = "not" then do
            advanceTok
            let argument ← expStep n .unaryExp
            pure (.unary "not" argument t.start (stopOf argument))
          else expStep n .primary
        | none => expStep n .primary
    | .primary => do
        match ← peekTok with
        | none => throwErr msgUnexpectedEnd
        | some token =>
          if token.type = .NUMBER then do
            advanceTok
            pure (.lit (.num (jsNumberIsInteger token.value)) token.value
              token.start token.stop)
          else if token.type = .STRING then do
            advanceTok
            pure (.lit (.str token.value) token.value token.start token.stop)
          else if token.value = "true" || token.value = "false" then do
            advanceTok
            pure (.lit (.bool (token.value = "true")) token.value
              token.start token.stop)
          else if token.value = "nil" then do
            advanceTok
            pure (.lit .nil token.value token.start token.stop)
          else if token.type = .IDENTIFIER then do
            advanceTok
            match ← peekTok with
            | some t2 =>
              if t2.value = "(" then
                expStep n (.callExpr (.ident token.value token.start token.stop))
              else if t2.value = "." then
                expStep n (.memberExpr (.ident token.value token.start token.stop))
              else pure (.ident token.value token.start token.stop)
            | none => pure (.ident token.value token.start token.stop)
          else if token.value = "(" then do
            advanceTok
            let e ← expStep n .logicalOr
            _ ← expectOrThrow (fun t => t.value = ")") msgParenClose
            advanceTok
            pure e
          else if token.value = "[" then expStep n (.arrayExpr token)
          else if token.value = "\x7b" then expStep n (.objectExpr token)
          else
            throwErr (msgUnexpectedToken token.value token.start)
    | .callExpr callee => do
        _ ← expectOrThrow (fun t => t.value = "(") msgCallOpen
        advanceTok
        match ← peekTok with
        | some t =>
          if t.value ≠ ")" then do
            let first ← expStep n .logicalOr
            expStep n (.callArgs callee [first])
          else expStep n (.callFinish callee [])
        | none => expStep n (.callFinish callee [])
    | .callArgs callee args => do
        match ← peekTok with
        | some t =>
          if t.value = "," then do
            advanceTok
            let e ← expStep n .logicalOr
            expStep n (.callArgs callee (args ++ [e]))
          else expStep n (.callFinish callee args)
        | none => expStep n (.callFinish callee args)
    | .callFinish callee args => do
        let endToken ← expectOrThrow (fun t => t.value = ")") msgCallClose
        advanceTok
        pure (.call callee args (startOf callee) endToken.stop)
    | .memberExpr obj => do
        _ ← expectOrThrow (fun t => t.value = ".") msgMemberDot
        advanceTok
        let ptok ← expectOrThrow (fun t => t.type = .IDENTIFIER) msgMemberIdent
        advanceTok
        match ← peekTok with
        | some t2 =>
          if t2.value = "(" then
            expStep n (.callExpr (.member obj (.ident ptok.value ptok.start ptok.stop)
              (startOf obj) ptok.stop))
          else
            pure (.member obj (.ident ptok.value ptok.start ptok.stop)
              (startOf obj) ptok.stop)
        | none =>
            pure (.member obj (.ident ptok.value ptok.start ptok.stop)
              (startOf obj) ptok.stop)
    | .arrayExpr startTok => do
        advanceTok
        match ← peekTok with
        | some t =>
          if t.value ≠ "]" then do
            let first ← expStep n .logicalOr
            expStep n (.arrayElems startTok [first])
          else expStep n (.arrayFinish startTok [])
        | none => expStep n (.arrayFinish startTok [])
    | .arrayElems startTok elems => do
        match ← peekTok with
        | some t =>
          if t.value = "," then do
            advanceTok
            let e ← expStep n .logicalOr
            expStep n (.arrayElems startTok (elems ++ [e]))
          else expStep n (.arrayFinish startTok elems)
        | none => expStep n (.arrayFinish startTok elems)
    | .arrayFinish startTok elems => do
        let endToken ← expectOrThrow (fun t => t.value = "]") msgArrayClose
        advanceTok
        pure (.arrayLit elems startTok.start endToken.stop)
    | .objectExpr startTok => do
        advanceTok
        match ← peekTok with
        | some t =>
          if t.value ≠ "\x7d" then do
            let first ← expStep n .objectProp
            expStep n (.objectProps startTok [first])
          else expStep n (.objectFinish startTok [])
        | none => expStep n (.objectFinish startTok [])
    | .objectProps startTok props => do
        match ← peekTok with
        | some t =>
          if t.value = "," then do
            advanceTok
            let p ← expStep n .objectProp
            expStep n (.objectProps startTok (props ++ [p]))
          else expStep n (.objectFinish startTok props)
        | none => expStep n (.objectFinish startTok props)
    | .objectFinish startTok props => do
        let endToken ← expectOrThrow (fun t => t.value = "\x7d") msgObjectClose
        advanceTok
        pure (.objectLit props startTok.start endToken.stop)
    | .objectProp => do
        let key ← expectOrThrow (fun t => t.type = .STRING) msgPropKey
        advanceTok
        _ ← expectOrThrow (fun t => t.value = ":") msgPropColon
        advanceTok
        let value ← expStep n .logicalOr
        pure (.property key value key.start (stopOf value))

/-- Call tags for the statement-level methods (`parse`'s top-level loop,
`parseStatement`, the statement kinds, `parseBlock` and its loop, and
`parseAssignmentExpression`). -/
inductive StCall where
  | program (acc : List Node)
  | statement
  | stmtTry (tok : Token)
  | varDecl
  | ifStmt
  | whileStmt
  | forStmt
  | funDecl
  | classDecl
  | returnStmt
  | blockStmt
  | blockLoop (acc : List Node)
  | exprStmt
  | assignStmt (left : Node)

/-- Results of statement-level calls: a single (possibly `null`) statement,
or the statement list built by a loop tag. -/
inductive StRet where
  | one (s : Option Node)
  | many (l : List Node)

/-- `if (stmt) list.push(stmt)` — what a statement result contributes to a
statement list. -/
def stRetPush : StRet → List Node
  | .one (some s) => [s]
  | _ => []

/-- Project the node out of a call that always yields one
(`parseBlock`, `parseIfStatement`, `parseVariableDeclaration`); the `.block
[]` default is never hit for those calls. -/
def stRetNode : StRet → Node
  | .one (some s) => s
  | _ => .block []

/-- Project the possibly-`null` statement out of a `parseStatement` result. -/
def stRetOpt : StRet → Option Node
  | .one s => s
  | .many _ => none

/-- The parameter-list `while` loop of `parseFunctionDeclaration`: as long as
the current token is a comma, consume it and, when an identifier follows,
collect it. -/
def paramsAux : Nat → List String → M (List String)
  | 0, _ => fun _ => none
  | n + 1, params => do
    match ← peekTok with
    | some t =>
      if t.value = "," then do
        advanceTok
        match ← peekTok with
        | some u =>
          if u.type = .IDENTIFIER then do
            advanceTok
            paramsAux n (params ++ [u.value])
          else paramsAux n params
        | none => paramsAux n params
      else pure params
    | none => pure params

/-- The semicolon check shared by the tail of `parseExpressionStatement`:
consume a present `;` (the node's `end` then reads the *next* token's
`start`), otherwise record the missing-semicolon error spanning to the end
of the source line and still return the node. -/
def exprStmtFinish (expr : Node) : M StRet := do
  match ← peekTok with
  | some t =>
    if t.value = ";" then do
      advanceTok
      let after ← peekTok
      pure (.one (some (.exprStmt expr (startOf expr)
        (match after with | some u => u.start | none => stopOf expr + 1))))
    else do
      let input ← getInputM
      recordErr msgMissingSemiStmt (stopOf expr) (findEndOfLine input (stopOf expr))
      pure (.one (some (.exprStmt expr (startOf expr) (stopOf expr))))
  | none => do
      let input ← getInputM
      recordErr msgMissingSemiStmt (stopOf expr) (findEndOfLine input (stopOf expr))
      pure (.one (some (.exprStmt expr (startOf expr) (stopOf expr))))

/-- The statement parser: one fuel-indexed step function over the call tags
of `StCall`, mirroring `parse`'s statement loop, `parseStatement` (whose
`try`/`catch` wraps the dispatch tag `stmtTry`), the per-kind methods, and
`parseBlock`. -/
def stStep : Nat → StCall → M StRet
  | 0, _ => fun _ => none
  | n + 1, c =>
    match c with
    | .program acc => do
        if ← hasMore then do
          let r ← stStep n .statement
          stStep n (.program (acc ++ stRetPush r))
        else pure (.many acc)
    | .statement => fun st =>
        match currentToken st with
        | none => some (st, .ok (.one none))
        | some tok =>
          match stStep n (.stmtTry tok) st with
          | none => none
          | some (st1, .ok r) => some (st1, .ok r)
          | some (st1, .error e) =>
            some (skipToNextStatement (addErrorSt st1 e tok.start tok.stop),
                  .ok (.one none))
    | .stmtTry tok =>
        if tok.value = "var" then stStep n .varDecl
        else if tok.value = "if" then stStep n .ifStmt
        else if tok.value = "while" then stStep n .whileStmt
        else if tok.value = "for" then stStep n .forStmt
        else if tok.value = "fun" then stStep n .funDecl
        else if tok.value = "class" then stStep n .classDecl
        else if tok.value = "return" then stStep n .returnStmt
        else if tok.type = .IDENTIFIER then stStep n .exprStmt
        else do
          doSkip
          pure (.one none)
    | .varDecl => do
        match ← peekTok with
        | none => throwErr nullStartMsg
        | some startToken => do
          advanceTok
          let dtOpt ← (do
            match ← peekTok with
            | some t =>
              if isTypeKeyword t.value then do
                advanceTok
                pure (some t.value)
              else pure none
            | none => pure none)
          let nameTok ← expectOrThrow (fun t => t.type = .IDENTIFIER) msgVarIdent
          advanceTok
          let init ← (do
            match ← peekTok with
            | some t =>
              if t.value = "=" then do
                advanceTok
                let e ← expStep n .logicalOr
                pure (some e)
              else pure none
            | none => pure none)
          match ← peekTok with
          | some t =>
            if t.value = ";" then do
              advanceTok
              let after ← peekTok
              pure (.one (some (.varDecl dtOpt nameTok.value init startToken.start
                (match after with | some u => u.start | none => nameTok.stop + 1))))
            else do
              let input ← getInputM
              recordErr msgMissingSemiVar nameTok.stop (findEndOfLine input nameTok.stop)
              pure (.one (some (.varDecl dtOpt nameTok.value init startToken.start
                nameTok.stop)))
          | none => do
              let input ← getInputM
              recordErr msgMissingSemiVar nameTok.stop (findEndOfLine input nameTok.stop)
              pure (.one (some (.varDecl dtOpt nameTok.value init startToken.start
                nameTok.stop)))
    | .ifStmt => do
        match ← peekTok with
        | none => throwErr nullStartMsg
        | some startToken => do
          advanceTok
          _ ← expectOrThrow (fun t => t.value = "(") msgIfOpen
          advanceTok
          let test ← expStep n .logicalOr
          _ ← expectOrThrow (fun t => t.value = ")") msgIfClose
          advanceTok
          let consequentR ← stStep n .blockStmt
          let alternate ← (do
            match ← peekTok with
            | some t =>
              if t.value = "else" then do
                advanceTok
                match ← peekTok with
                | some t2 =>
                  if t2.value = "if" then do
                    let a ← stStep n .ifStmt
                    pure (some (stRetNode a))
                  else do
                    let a ← stStep n .blockStmt
                    pure (some (stRetNode a))
                | none => do
                    let a ← stStep n .blockStmt
                    pure (some (stRetNode a))
              else pure none
            | none => pure none)
          let after ← peekTok
          pure (.one (some (.ifStmt test (stRetNode consequentR) alternate
            startToken.start
            (match after with | some u => u.stop | none => startToken.stop))))
    | .whileStmt => do
        match ← peekTok with
        | none => throwErr nullStartMsg
        | some startToken => do
          advanceTok
          _ ← expectOrThrow (fun t => t.value = "(") msgWhileOpen
          advanceTok
          let test ← expStep n .logicalOr
          _ ← expectOrThrow (fun t => t.value = ")") msgWhileClose
          advanceTok
          let bodyR ← stStep n .blockStmt
          let after ← peekTok
          pure (.one (some (.whileStmt test (stRetNode bodyR) startToken.start
            (match after with | some u => u.stop | none => startToken.stop))))
    | .forStmt => do
        match ← peekTok with
        | none => throwErr nullStartMsg
        | some startToken => do
          advanceTok
          _ ← expectOrThrow (fun t => t.value = "(") msgForOpen
          advanceTok
          let t0 ← currentTokOrValueThrow
          let init ← (
            if t0.value ≠ ";" then
              if t0.value = "var" then do
                let r ← stStep n .varDecl
                pure (some (stRetNode r))
              else do
                let e ← expStep n .logicalOr
                pure (some e)
            else pure none)
          _ ← expectOrThrow (fun t => t.value = ";") msgForInit
          advanceTok
          let t1 ← currentTokOrValueThrow
          let test ← (
            if t1.value ≠ ";" then do
              let e ← expStep n .logicalOr
              pure (some e)
            else pure none)
          _ ← expectOrThrow (fun t => t.value = ";") msgForTest
          advanceTok
          let t2 ← currentTokOrValueThrow
          let update ← (
            if t2.value ≠ ")" then do
              let e ← expStep n .logicalOr
              pure (some e)
            else pure none)
          _ ← expectOrThrow (fun t => t.value = ")") msgForUpdate
          advanceTok
          let bodyR ← stStep n .blockStmt
          let after ← peekTok
          pure (.one (some (.forStmt init test update (stRetNode bodyR)
            startToken.start
            (match after with | some u => u.stop | none => startToken.stop))))
    | .funDecl => do
        match ← peekTok with
        | none => throwErr nullStartMsg
        | some startToken => do
          advanceTok
          let nameTok ← expectOrThrow (fun t => t.type = .IDENTIFIER) msgFunName
          advanceTok
          _ ← expectOrThrow (fun t => t.value = "(") msgFunOpen
          advanceTok
          let params ← (do
            match ← peekTok with
            | some t =>
              if t.value ≠ ")" then do
                let p0 ← (
                  if t.type = .IDENTIFIER then do
                    advanceTok
                    pure [t.value]
                  else pure ([] : List String))
                paramsAux n p0
              else pure []
            | none => pure [])
          _ ← expectOrThrow (fun t => t.value = ")") msgFunClose
          advanceTok
          let bodyR ← stStep n .blockStmt
          let after ← peekTok
          pure (.one (some (.funDecl (.ident nameTok.value nameTok.start nameTok.stop)
            params (stRetNode bodyR) startToken.start
            (match after with | some u => u.stop | none => startToken.stop))))
    | .classDecl => do
        match ← peekTok with
        | none => throwErr nullStartMsg
        | some startToken => do
          advanceTok
          let nameTok ← expectOrThrow (fun t => t.type = .IDENTIFIER) msgClassName
          advanceTok
          _ ← expectOrThrow (fun t => t.value = "\x7b") msgClassOpen
          let bodyR ← stStep n .blockStmt
          let after ← peekTok
          pure (.one (some (.classDecl (.ident nameTok.value nameTok.start nameTok.stop)
            (stRetNode bodyR) startToken.start
            (match after with | some u => u.stop | none => startToken.stop))))
    | .returnStmt => do
        match ← peekTok with
        | none => throwErr nullStartMsg
        | some startToken => do
          advanceTok
          let argument ← (do
            match ← peekTok with
            | some t =>
              if t.value ≠ ";" && t.value ≠ "\x7d" &&
                 t.value ≠ String.mk [Char.ofNat 10] then do
                let e ← expStep n .logicalOr
                pure (some e)
              else pure none
            | none => pure none)
          (do
            match ← peekTok with
            | some t => if t.value = ";" then advanceTok else pure ()
            | none => pure ())
          pure (.one (some (.returnStmt argument startToken.start
            (match argument with | some a => stopOf a | none => startToken.stop + 6))))
    | .blockStmt => do
        match ← peekTok with
        | some t =>
          if t.value = "\x7b" then do
            advanceTok
            stStep n (.blockLoop [])
          else do
            let r ← stStep n .statement
            pure (.one (some (.block [stRetOpt r])))
        | none => do
            let r ← stStep n .statement
            pure (.one (some (.block [stRetOpt r])))
    | .blockLoop acc => do
        if ← hasMore then do
          match ← peekTok with
          | some t =>
            if t.value ≠ "\x7d" then do
              let r ← stStep n .statement
              stStep n (.blockLoop (acc ++ stRetPush r))
            else do
              advanceTok
              pure (.one (some (.block (acc.map some))))
          | none => do
              pure (.one (some (.block (acc.map some))))
        else do
          (do
            match ← peekTok with
            | some _ => advanceTok
            | none => pure ())
          pure (.one (some (.block (acc.map some))))
    | .exprStmt => do
        let expr ← expStep n .logicalOr
        match ← peekTok with
        | some t =>
          if isIdentNode expr && t.value = "=" then stStep n (.assignStmt expr)
          else exprStmtFinish expr
        | none => exprStmtFinish expr
    | .assignStmt left => do
        _ ← expectOrThrow (fun t => t.value = "=") msgAssignEq
        advanceTok
        let right ← expStep n .logicalOr
        match ← peekTok with
        | some t =>
          if t.value = ";" then do
            advanceTok
            let after ← peekTok
            pure (.one (some (.assign left right (startOf left)
              (match after with | some u => u.start | none => stopOf right + 1))))
          else do
            let input ← getInputM
            recordErr msgMissingSemiAssign (stopOf right)
              (findEndOfLine input (stopOf right))
            pure (.one (some (.assign left right (startOf left) (stopOf right))))
        | none => do
            let input ← getInputM
            recordErr msgMissingSemiAssign (stopOf right)
              (findEndOfLine input (stopOf right))
            pure (.one (some (.assign left right (startOf left) (stopOf right))))

/-- `!input || input.trim() === ''`: the whole input is whitespace (or
empty). -/
def isBlankInput (input : List Char) : Bool := input.all isWsChar

/-- `NeutronParser.parse`.  Empty/whitespace input short-circuits to a
Program without an `errors` property; otherwise the input is tokenized (an
unterminated string propagates as the thrown error) and the statement loop
runs on a fresh state.  `none` means the fuel ran out, i.e. the JS call has
not returned within `fuel` steps. -/
def parse (fuel : Nat) (input : List Char) : Option (Except String Program) :=
  if isBlankInput input then some (.ok ⟨[], none⟩)
  else
    match tokenize input with
    | none => none
    | some (.error e) => some (.error e)
    | some (.ok toks) =>
      match stStep fuel (.program []) ⟨input, toks, 0, []⟩ with
      | none => none
      | some (_, .error e) => some (.error e)
      | some (st, .ok (.many body)) => some (.ok ⟨body, some st.errors⟩)
      | some (_, .ok (.one _)) => none

/-- `NeutronParser.parseStatement`. -/
def parseStatement (fuel : Nat) : M StRet := stStep fuel .statement

/-- `NeutronParser.parseVariableDeclaration`. -/
def parseVariableDeclaration (fuel : Nat) : M StRet := stStep fuel .varDecl

/-- `NeutronParser.parseExpressionStatement`. -/
def parseExpressionStatement (fuel : Nat) : M StRet := stStep fuel .exprStmt

/-- `NeutronParser.parseAssignmentExpression`. -/
def parseAssignmentExpression (fuel : Nat) (left : Node) : M StRet :=
  stStep fuel (.assignStmt left)

/-- `NeutronParser.parseExpression` (it simply calls `parseLogicalOr`). -/
def parseExpression (fuel : Nat) : M Node := expStep fuel .logicalOr

/-- A line/character position as produced by `getPositionFromIndex`. -/
structure LcPos where
  line : Nat
  character : Nat
deriving DecidableEq, Repr

/-- A diagnostic as pushed by the server layer and by the type checker:
`{ severity, range: { start, end }, message }` (the range is flattened into
`rangeStart`/`rangeEnd`). -/
structure Diag where
  severity : Nat
  rangeStart : LcPos
  rangeEnd : LcPos
  message : String
deriving DecidableEq, Repr

/-- The counting loop of `getPositionFromIndex`: walk `index` characters (or
to the end of the text), bumping `line` at each `\n`. -/
def getPositionFromIndexAux : List Char → Nat → Nat → Nat → LcPos
  | _, 0, line, chr => ⟨line, chr⟩
  | [], _ + 1, line, chr => ⟨line, chr⟩
  | ch :: rest, i + 1, line, chr =>
    if ch = Char.ofNat 10 then getPositionFromIndexAux rest i (line + 1) 0
    else getPositionFromIndexAux rest i line (chr + 1)

/-- `getPositionFromIndex` (identical in `server.js` and `typeChecker.js`):
convert a character offset to a line/character pair by a linear scan. -/
def getPositionFromIndex (input : List Char) (index : Nat) : LcPos :=
  getPositionFromIndexAux input index 0 0

/-- `Map.set` on the symbol table: overwrite an existing entry in place,
else append. -/
def tableSet : List (String × String) → String → String → List (String × String)
  | [], k, v => [(k, v)]
  | (k', v') :: rest, k, v =>
    if k' = k then (k, v) :: rest else (k', v') :: tableSet rest k v

/-- `Map.get` on the symbol table. -/
def tableGet : List (String × String) → String → Option String
  | [], _ => none
  | (k', v') :: rest, k => if k' = k then some v' else tableGet rest k

/-- The `TypeChecker` state: its symbol table and the shared errors array it
appends to. -/
structure TcState where
  symbolTable : List (String × String)
  errors : List Diag
deriving Repr

/-- The variable-declaration mismatch message. -/
def mismatchVarMsg (expected actual name : String) : String :=
  s!"Type mismatch: expected {expected} but got {actual} for variable {sqStr}{name}{sqStr}"

/-- The reassignment mismatch message. -/
def mismatchAssignMsg (expected actual name : String) : String :=
  s!"Type mismatch: expected {expected} but got {actual} when assigning to {sqStr}{name}{sqStr}"

/-- `TypeChecker.inferType`.  The `||`/`&&` truthiness of the source is kept:
an empty string is falsy, so `raw && raw.includes('.')`,
`symbolTable.get(name) || 'any'` and `inferType(…) || 'any'` all test for the
empty string. -/
def inferType (table : List (String × String)) : Node → String
  | .lit v raw _ _ =>
    match v with
    | .num isInteger =>
      if raw ≠ "" && raw.data.contains '.' then "float"
      else if isInteger then "int" else "float"
    | .str _ =>
      if raw ≠ "" && (raw.data.head? = some dqChar || raw.data.head? = some sqChar)
      then "string"
      else "any"
    | .bool _ => "bool"
    | .nil => "any"
  | .arrayLit _ _ _ => "array"
  | .objectLit _ _ _ => "object"
  | .ident name _ _ =>
    match tableGet table name with
    | some v => if v = "" then "any" else v
    | none => "any"
  | .binary op l r _ _ =>
    if ["==", "!=", "<", "<=", ">", ">=", "and", "or"].contains op then "bool"
    else if ["+", "-", "*", "/", "%"].contains op then
      let lt := inferType table l
      let leftType := if lt = "" then "any" else lt
      let rt := inferType table r
      let rightType := if rt = "" then "any" else rt
      if leftType = "int" && rightType = "int" && op ≠ "/" then "int" else "float"
    else "any"
  | .logical op l r _ _ =>
    if ["==", "!=", "<", "<=", ">", ">=", "and", "or"].contains op then "bool"
    else if ["+", "-", "*", "/", "%"].contains op then
      let lt := inferType table l
      let leftType := if lt = "" then "any" else lt
      let rt := inferType table r
      let rightType := if rt = "" then "any" else rt
      if leftType = "int" && rightType = "int" && op ≠ "/" then "int" else "float"
    else "any"
  | .unary op a _ _ =>
    if op = "not" then "bool"
    else
      let t := inferType table a
      if t = "" then "any" else t
  | .call _ _ _ _ => "any"
  | .member _ _ _ _ => "any"
  | _ => "any"

/-- `TypeChecker.isCompatibleType`. -/
def isCompatibleType (expected actual : String) : Bool :=
  if expected = actual then true
  else if expected = "any" || actual = "any" then true
  else if expected = "float" && actual = "int" then true
  else if actual = "nil" then true
  else false

/-! `TypeChecker.checkNode` and its companions.  The source dispatches the
switch cases and otherwise walks every object/array-valued own property via
`checkChildren`; here that reflective walk is expanded per constructor in the
source's property order (a `Property`'s `key` is a token whose traversal
visits no nodes, and `FunctionDeclaration.params` are strings, which
`checkChildren` skips).  `checkVariableDeclaration` and
`checkAssignmentExpression` are inlined into their dispatch arms so that the
mutual recursion stays structural. -/
mutual

def checkNode (input : List Char) (tc : TcState) : Node → TcState
  | .varDecl declaredType name init _ _ =>
    -- TypeChecker.checkVariableDeclaration
    (match declaredType with
     | none =>
       -- `if (node.name)`: the empty string is falsy
       let tc1 :=
         if name ≠ "" then { tc with symbolTable := tableSet tc.symbolTable name "any" }
         else tc
       (match init with
        | some i => checkNode input tc1 i
        | none => tc1)
     | some dt =>
       (match init with
        | some i =>
          let actual := inferType tc.symbolTable i
          if !(isCompatibleType dt actual) then
            { tc with errors := tc.errors ++ [⟨1,
              getPositionFromIndex input (startOf i),
              getPositionFromIndex input (stopOf i),
              mismatchVarMsg dt actual name⟩] }
          else { tc with symbolTable := tableSet tc.symbolTable name dt }
        | none => { tc with symbolTable := tableSet tc.symbolTable name dt }))
  | .assign left right _ _ =>
    -- TypeChecker.checkAssignmentExpression
    (match left with
     | .ident varName _ _ =>
       let tc1 :=
         (match tableGet tc.symbolTable varName with
          | some declaredType =>
            -- `if (declaredType && declaredType !== 'any')`: '' is falsy
            if declaredType ≠ "" && declaredType ≠ "any" then
              let actual := inferType tc.symbolTable right
              if !(isCompatibleType declaredType actual) then
                { tc with errors := tc.errors ++ [⟨1,
                  getPositionFromIndex input (startOf right),
                  getPositionFromIndex input (stopOf right),
                  mismatchAssignMsg declaredType actual varName⟩] }
              else tc
            else tc
          | none => tc)
       checkNode input tc1 right
     | _ => tc)
  | .binary _ l r _ _ => checkNode input (checkNode input tc l) r
  | .ifStmt t c a _ _ =>
    checkNodeOpt input (checkNode input (checkNode input tc t) c) a
  | .whileStmt t b _ _ => checkNode input (checkNode input tc t) b
  | .forStmt i t u b _ _ =>
    checkNode input
      (checkNodeOpt input (checkNodeOpt input (checkNodeOpt input tc i) t) u) b
  | .exprStmt e _ _ => checkNode input tc e
  | .call callee args _ _ => checkNodes input (checkNode input tc callee) args
  | .returnStmt arg _ _ => checkNodeOpt input tc arg
  | .logical _ l r _ _ => checkNode input (checkNode input tc l) r
  | .unary _ a _ _ => checkNode input tc a
  | .member o p _ _ => checkNode input (checkNode input tc o) p
  | .arrayLit els _ _ => checkNodes input tc els
  | .objectLit props _ _ => checkNodes input tc props
  | .property _ v _ _ => checkNode input tc v
  | .block body => checkNodeOpts input tc body
  | .funDecl id _ b _ _ => checkNode input (checkNode input tc id) b
  | .classDecl id b _ _ => checkNode input (checkNode input tc id) b
  | .ident _ _ _ => tc
  | .lit _ _ _ _ => tc

def checkNodeOpt (input : List Char) (tc : TcState) : Option Node → TcState
  | none => tc
  | some n => checkNode input tc n

def checkNodes (input : List Char) (tc : TcState) : List Node → TcState
  | [] => tc
  | n :: ns => checkNodes input (checkNode input tc n) ns

def checkNodeOpts (input : List Char) (tc : TcState) : List (Option Node) → TcState
  | [] => tc
  | n :: ns => checkNodeOpts input (checkNodeOpt input tc n) ns

end

/-- `TypeChecker.check`: reset the symbol table, then walk the Program's
statements appending to the given errors array. -/
def check (input : List Char) (prog : Program) (errors : List Diag) : TcState :=
  checkNodes input ⟨[], errors⟩ prog.body

/-- `analyzeTypeSafety` of `server.js`: parse; convert recorded syntax
errors to diagnostics; run the type checker over the AST appending to the
same list.  A thrown parse failure is caught and yields the empty list
(`none` again means the parse call has not returned within `fuel` steps). -/
def analyzeTypeSafety (fuel : Nat) (input : List Char) : Option (List Diag) :=
  match parse fuel input with
  | none => none
  | some (.error _) => some []
  | some (.ok result) =>
    let errs := (result.errors.getD []).map (fun se =>
      Diag.mk 1 (getPositionFromIndex input se.start)
        (getPositionFromIndex input se.stop) se.message)
    some (check input result errs).errors

/-- Case analysis for a monadic bind in `M`: the whole computation succeeds
either because the first component threw (the error and its state pass
through) or because it returned a value fed to the continuation. -/
theorem M_bind_cases {α β : Type} {x : M α} {f : α → M β} {st : PSt}
    {p : PSt × Except String β} (h : (x >>= f) st = some p) :
    (∃ st1 e, x st = some (st1, .error e) ∧ p = (st1, .error e)) ∨
    (∃ st1 a, x st = some (st1, .ok a) ∧ f a st1 = some p) := by
  simp only [Bind.bind, Monad.toBind] at h
  cases hx : x st with
  | none => rw [hx] at h; exact absurd h (by simp)
  | some q =>
    obtain ⟨st1, r⟩ := q
    cases r with
    | error e => rw [hx] at h; left; refine ⟨st1, e, rfl, ?_⟩
                 simp only at h; exact (Option.some_injective _ h).symm
    | ok a => rw [hx] at h; right; exact ⟨st1, a, rfl, h⟩

/-- Frame property of a parser computation: it can move the cursor forward
but leaves the input, the token list and the recorded errors untouched
(whether it returns or throws).  All expression-parsing code satisfies it. -/
def Pres {α : Type} (x : M α) : Prop :=
  ∀ ⦃st st' : PSt⦄ ⦃r : Except String α⦄, x st = some (st', r) →
    st'.input = st.input ∧ st'.tokens = st.tokens ∧ st'.errors = st.errors ∧
    st.position ≤ st'.position

theorem pres_pure {α : Type} (a : α) : Pres (pure a : M α) := by
  intro st st' r h
  cases h.symm
  exact ⟨rfl, rfl, rfl, le_refl _⟩

theorem pres_bind {α β : Type} {x : M α} {f : α → M β}
    (hx : Pres x) (hf : ∀ a, Pres (f a)) : Pres (x >>= f) := by
  intro st st' r h
  rcases M_bind_cases h with ⟨st1, e, hx1, hp⟩ | ⟨st1, a, hx1, hf1⟩
  · cases hp; exact hx hx1
  · obtain ⟨h1, h2, h3, h4⟩ := hx hx1
    obtain ⟨g1, g2, g3, g4⟩ := hf a hf1
    exact ⟨g1.trans h1, g2.trans h2, g3.trans h3, le_trans h4 g4⟩

theorem pres_peek : Pres peekTok := by
  intro st st' r h; cases h.symm; exact ⟨rfl, rfl, rfl, le_refl _⟩

theorem pres_advance : Pres advanceTok := by
  intro st st' r h
  cases h.symm
  unfold nextTokSt
  split
  · exact ⟨rfl, rfl, rfl, Nat.le_succ _⟩
  · exact ⟨rfl, rfl, rfl, le_refl _⟩

theorem pres_throw {α : Type} (msg : String) : Pres (throwErr msg : M α) := by
  intro st st' r h; cases h.symm; exact ⟨rfl, rfl, rfl, le_refl _⟩

theorem pres_expect (p : Token → Bool) (mk : Nat → String) :
    Pres (expectOrThrow p mk) := by
  intro st st' r h
  unfold expectOrThrow at h
  rcases hc : currentToken st with _ | t <;> rw [hc] at h
  · cases h.symm; exact ⟨rfl, rfl, rfl, le_refl _⟩
  · by_cases hpt : p t = true <;> simp only [hpt, if_true, if_false] at h <;>
      { cases h.symm; exact ⟨rfl, rfl, rfl, le_refl _⟩ }

theorem pres_currentTokOrValueThrow : Pres currentTokOrValueThrow := by
  intro st st' r h
  unfold currentTokOrValueThrow at h
  rcases hc : currentToken st with _ | t <;> rw [hc] at h <;>
    { cases h.symm; exact ⟨rfl, rfl, rfl, le_refl _⟩ }

theorem pres_getInput : Pres getInputM := by
  intro st st' r h; cases h.symm; exact ⟨rfl, rfl, rfl, le_refl _⟩

theorem pres_hasMore : Pres hasMore := by
  intro st st' r h; cases h.symm; exact ⟨rfl, rfl, rfl, le_refl _⟩

/-- The expression parser never records an error, never touches the input or
token list, and only moves the cursor forward. -/
theorem expStep_pres : ∀ (f : Nat) (c : ExpCall), Pres (expStep f c) := by
  intro f
  induction f with
  | zero =>
    intro c st st' r h
    simp only [expStep] at h
    exact Option.noConfusion h
  | succ n ih =>
    intro c
    cases c <;>
      · simp only [expStep]
        repeat
          first
            | with_reducible refine pres_bind ?_ ?_
            | split
            | with_reducible exact pres_peek
            | with_reducible exact pres_advance
            | with_reducible exact pres_currentTokOrValueThrow
            | with_reducible exact pres_getInput
            | with_reducible exact pres_hasMore
            | with_reducible exact pres_pure _
            | with_reducible exact pres_throw _
            | with_reducible exact pres_expect _ _
            | with_reducible exact ih _
            | intro a

theorem paramsAux_pres : ∀ (f : Nat) (acc : List String), Pres (paramsAux f acc) := by
  intro f
  induction f with
  | zero =>
    intro acc st st' r h
    simp only [paramsAux] at h
    exact Option.noConfusion h
  | succ n ih =>
    intro acc
    simp only [paramsAux]
    repeat
      first
        | with_reducible refine pres_bind ?_ ?_
        | split
        | with_reducible exact pres_peek
        | with_reducible exact pres_advance
        | with_reducible exact pres_pure _
        | with_reducible exact ih _
        | intro a

theorem nextTokSt_frame (st : PSt) :
    (nextTokSt st).input = st.input ∧ (nextTokSt st).tokens = st.tokens ∧
    (nextTokSt st).errors = st.errors ∧ st.position ≤ (nextTokSt st).position := by
  unfold nextTokSt
  split
  · exact ⟨rfl, rfl, rfl, Nat.le_succ _⟩
  · exact ⟨rfl, rfl, rfl, le_refl _⟩

theorem skipAux_frame : ∀ (fuel : Nat) (st : PSt),
    (skipToNextStatementAux fuel st).input = st.input ∧
    (skipToNextStatementAux fuel st).tokens = st.tokens ∧
    (skipToNextStatementAux fuel st).errors = st.errors ∧
    st.position ≤ (skipToNextStatementAux fuel st).position := by
  intro fuel
  induction fuel with
  | zero => intro st; exact ⟨rfl, rfl, rfl, le_refl _⟩
  | succ n ih =>
    intro st
    unfold skipToNextStatementAux
    split
    · exact ⟨rfl, rfl, rfl, le_refl _⟩
    · split
      · exact nextTokSt_frame st
      · split
        · exact ⟨rfl, rfl, rfl, le_refl _⟩
        · split
          · exact ⟨rfl, rfl, rfl, le_refl _⟩
          · obtain ⟨n1, n2, n3, n4⟩ := nextTokSt_frame st
            obtain ⟨i1, i2, i3, i4⟩ := ih (nextTokSt st)
            exact ⟨i1.trans n1, i2.trans n2, i3.trans n3, le_trans n4 i4⟩

/-- `skipToNextStatement` leaves input, tokens and errors untouched and only
moves the cursor forward. -/
theorem skip_frame (st : PSt) :
    (skipToNextStatement st).input = st.input ∧
    (skipToNextStatement st).tokens = st.tokens ∧
    (skipToNextStatement st).errors = st.errors ∧
    st.position ≤ (skipToNextStatement st).position :=
  skipAux_frame _ st

/-- Weak frame property: like `Pres` but the computation may append to the
recorded errors.  All statement-parsing code satisfies it. -/
def PresW {α : Type} (x : M α) : Prop :=
  ∀ ⦃st st' : PSt⦄ ⦃r : Except String α⦄, x st = some (st', r) →
    st'.input = st.input ∧ st'.tokens = st.tokens ∧
    st.position ≤ st'.position ∧ ∃ tail, st'.errors = st.errors ++ tail

theorem presW_of_pres {α : Type} {x : M α} (h : Pres x) : PresW x := by
  intro st st' r hx
  obtain ⟨h1, h2, h3, h4⟩ := h hx
  exact ⟨h1, h2, h4, [], by simp [h3]⟩

theorem presW_bind {α β : Type} {x : M α} {f : α → M β}
    (hx : PresW x) (hf : ∀ a, PresW (f a)) : PresW (x >>= f) := by
  intro st st' r h
  rcases M_bind_cases h with ⟨st1, e, hx1, hp⟩ | ⟨st1, a, hx1, hf1⟩
  · cases hp; exact hx hx1
  · obtain ⟨h1, h2, h3, t1, h4⟩ := hx hx1
    obtain ⟨g1, g2, g3, t2, g4⟩ := hf a hf1
    exact ⟨g1.trans h1, g2.trans h2, le_trans h3 g3, t1 ++ t2,
      by rw [g4, h4, List.append_assoc]⟩

theorem presW_record (m : String) (s e : Nat) : PresW (recordErr m s e) := by
  intro st st' r h
  cases h.symm
  exact ⟨rfl, rfl, le_refl _, [⟨m, s, e⟩], rfl⟩

theorem presW_skip : PresW doSkip := by
  intro st st' r h
  cases h.symm
  obtain ⟨h1, h2, h3, h4⟩ := skip_frame st
  exact ⟨h1, h2, h4, [], by simp [h3]⟩

theorem exprStmtFinish_presW (expr : Node) : PresW (exprStmtFinish expr) := by
  simp only [exprStmtFinish]
  repeat
    first
      | with_reducible refine presW_bind ?_ ?_
      | split
      | with_reducible exact presW_of_pres pres_peek
      | with_reducible exact presW_of_pres pres_advance
      | with_reducible exact presW_of_pres pres_getInput
      | with_reducible exact presW_of_pres (pres_pure _)
      | with_reducible exact presW_record _ _ _
      | intro a

/-- The statement parser preserves input and tokens, moves the cursor only
forward, and only ever appends to the recorded errors. -/
theorem stStep_presW : ∀ (f : Nat) (c : StCall), PresW (stStep f c) := by
  intro f
  induction f with
  | zero =>
    intro c st st' r h
    simp only [stStep] at h
    exact Option.noConfusion h
  | succ n ih =>
    intro c
    cases c
    case statement =>
      intro st st' r h
      simp only [stStep] at h
      split at h
      · cases h.symm; exact ⟨rfl, rfl, le_refl _, [], by simp⟩
      · rename_i tok heq
        split at h
        · exact Option.noConfusion h
        · rename_i st1 r2 hs
          cases h.symm
          exact ih (.stmtTry tok) hs
        · rename_i st1 e hs
          cases h.symm
          obtain ⟨h1, h2, h3, t1, h4⟩ := ih (.stmtTry tok) hs
          obtain ⟨s1, s2, s3, s4⟩ := skip_frame (addErrorSt st1 e tok.start tok.stop)
          refine ⟨s1.trans h1, s2.trans h2, le_trans h3 s4, t1 ++ [⟨e, tok.start, tok.stop⟩], ?_⟩
          rw [s3]
          simp only [addErrorSt, h4, List.append_assoc]
    all_goals
      simp only [stStep]
      repeat
        first
          | with_reducible refine presW_bind ?_ ?_
          | split
          | with_reducible exact presW_of_pres pres_peek
          | with_reducible exact presW_of_pres pres_advance
          | with_reducible exact presW_of_pres pres_currentTokOrValueThrow
          | with_reducible exact presW_of_pres pres_getInput
          | with_reducible exact presW_of_pres pres_hasMore
          | with_reducible exact presW_of_pres (pres_pure _)
          | with_reducible exact presW_of_pres (pres_throw _)
          | with_reducible exact presW_of_pres (pres_expect _ _)
          | with_reducible exact presW_of_pres (expStep_pres _ _)
          | with_reducible exact presW_of_pres (paramsAux_pres _ _)
          | with_reducible exact presW_record _ _ _
          | with_reducible exact presW_skip
          | with_reducible exact exprStmtFinish_presW _
          | with_reducible exact ih _
          | intro a

/-- Well-formedness of a token-list suffix produced from position `pos`
onward: every token starts at or after `pos`, spans forward, and starts are
in order. -/
def TokListWF (pos : Nat) (ts : List Token) : Prop :=
  (∀ t ∈ ts, pos ≤ t.start ∧ t.start ≤ t.stop) ∧
  List.Pairwise (fun a b => a.start ≤ b.start) ts

/-- Well-formedness of a full token list: spans are forward and starts are
ordered. -/
def TokensWF (ts : List Token) : Prop :=
  List.Pairwise (fun a b => a.start ≤ b.start) ts ∧ ∀ t ∈ ts, t.start ≤ t.stop

theorem tokListWF_mono {pos pos' : Nat} {ts : List Token}
    (h : TokListWF pos' ts) (hp : pos ≤ pos') : TokListWF pos ts :=
  ⟨fun t ht => ⟨le_trans hp (h.1 t ht).1, (h.1 t ht).2⟩, h.2⟩

theorem tokListWF_cons {pos : Nat} {t : Token} {ts' : List Token}
    (h : TokListWF t.stop ts') (h1 : pos ≤ t.start) (h2 : t.start ≤ t.stop) :
    TokListWF pos (t :: ts') := by
  refine ⟨?_, ?_⟩
  · intro u hu
    rcases List.mem_cons.mp hu with rfl | hu
    · exact ⟨h1, h2⟩
    · exact ⟨le_trans h1 (le_trans h2 (h.1 u hu).1), (h.1 u hu).2⟩
  · refine List.Pairwise.cons ?_ h.2
    intro u hu
    exact le_trans h2 (h.1 u hu).1

theorem consTok_ok {t : Token} {res : Option (Except String (List Token))}
    {ts : List Token} (h : consTok t res = some (.ok ts)) :
    ∃ ts', res = some (.ok ts') ∧ ts = t :: ts' := by
  unfold consTok at h
  rcases res with _ | r
  · exact Option.noConfusion h
  · rcases r with e | ts'
    · simp at h
    · refine ⟨ts', rfl, ?_⟩
      simpa using h.symm

theorem skipBlockComment_pos : ∀ (r : List Char) (p : Nat),
    p ≤ (skipBlockComment r p).1 := by
  intro r
  induction r with
  | nil => intro p; exact le_refl p
  | cons a r' ih =>
    intro p
    cases r' with
    | nil => exact Nat.le_succ p
    | cons b rest =>
      simp only [skipBlockComment]
      split
      · exact Nat.le_add_right p 2
      · exact le_trans (Nat.le_succ p) (ih (p + 1))

/-- Every successful run of the tokenizer scan from position `pos` produces
a well-formed token-list suffix. -/
theorem tokenizeAux_wf : ∀ (fuel : Nat) (rest : List Char) (pos : Nat)
    (ts : List Token), tokenizeAux fuel rest pos = some (.ok ts) →
    TokListWF pos ts := by
  intro fuel
  induction fuel with
  | zero =>
    intro rest pos ts h
    exact Option.noConfusion h
  | succ n ih =>
    intro rest pos ts h
    match rest with
    | [] =>
      simp only [tokenizeAux] at h
      simp only [Option.some.injEq, Except.ok.injEq] at h
      subst h
      exact ⟨fun t ht => absurd ht (List.not_mem_nil t), List.Pairwise.nil⟩
    | c :: cs =>
      rw [tokenizeAux] at h
      by_cases h1 : isWsChar c = true
      case pos =>
        rw [if_pos h1] at h
        exact tokListWF_mono (ih _ _ _ h) (Nat.le_succ pos)
      rw [if_neg h1] at h
      by_cases h2 : (c = '/' && cs.head? = some '/') = true
      case pos =>
        rw [if_pos h2] at h
        exact tokListWF_mono (ih _ _ _ h) (Nat.le_add_right pos _)
      rw [if_neg h2] at h
      by_cases h3 : (c = '/' && cs.head? = some '*') = true
      case pos =>
        rw [if_pos h3] at h
        exact tokListWF_mono (ih _ _ _ h)
          (le_trans (Nat.le_add_right pos 2) (skipBlockComment_pos _ _))
      rw [if_neg h3] at h
      by_cases h4 : (c = dqChar || c = sqChar) = true
      case pos =>
        rw [if_pos h4] at h
        rcases hsc : scanString c cs with _ | pr <;> rw [hsc] at h
        · simp at h
        · obtain ⟨ts', hres, rfl⟩ := consTok_ok h
          exact tokListWF_cons (ih _ _ _ hres) (le_refl pos)
            (le_trans (Nat.le_add_right pos pr.1.length) (Nat.le_add_right _ 2))
      rw [if_neg h4] at h
      by_cases h5 : isDigitChar c = true
      case pos =>
        rw [if_pos h5] at h
        obtain ⟨ts', hres, rfl⟩ := consTok_ok h
        exact tokListWF_cons (ih _ _ _ hres) (le_refl pos) (Nat.le_add_right _ _)
      rw [if_neg h5] at h
      by_cases h6 : isIdentStartChar c = true
      case pos =>
        rw [if_pos h6] at h
        obtain ⟨ts', hres, rfl⟩ := consTok_ok h
        exact tokListWF_cons (ih _ _ _ hres) (le_refl pos) (Nat.le_add_right _ _)
      rw [if_neg h6] at h
      by_cases h7 : (c = '=' && cs.head? = some '=') = true
      case pos =>
        rw [if_pos h7] at h
        obtain ⟨ts', hres, rfl⟩ := consTok_ok h
        exact tokListWF_cons (ih _ _ _ hres) (le_refl pos) (Nat.le_add_right _ _)
      rw [if_neg h7] at h
      by_cases h8 : (c = '!' && cs.head? = some '=') = true
      case pos =>
        rw [if_pos h8] at h
        obtain ⟨ts', hres, rfl⟩ := consTok_ok h
        exact tokListWF_cons (ih _ _ _ hres) (le_refl pos) (Nat.le_add_right _ _)
      rw [if_neg h8] at h
      by_cases h9 : (c = '>' && cs.head? = some '=') = true
      case pos =>
        rw [if_pos h9] at h
        obtain ⟨ts', hres, rfl⟩ := consTok_ok h
        exact tokListWF_cons (ih _ _ _ hres) (le_refl pos) (Nat.le_add_right _ _)
      rw [if_neg h9] at h
      by_cases h10 : (c = '<' && cs.head? = some '=') = true
      case pos =>
        rw [if_pos h10] at h
        obtain ⟨ts', hres, rfl⟩ := consTok_ok h
        exact tokListWF_cons (ih _ _ _ hres) (le_refl pos) (Nat.le_add_right _ _)
      rw [if_neg h10] at h
      by_cases h11 : (c = '&' && cs.head? = some '&') = true
      case pos =>
        rw [if_pos h11] at h
        obtain ⟨ts', hres, rfl⟩ := consTok_ok h
        exact tokListWF_cons (ih _ _ _ hres) (le_refl pos) (Nat.le_add_right _ _)
      rw [if_neg h11] at h
      by_cases h12 : (c = '|' && cs.head? = some '|') = true
      case pos =>
        rw [if_pos h12] at h
        obtain ⟨ts', hres, rfl⟩ := consTok_ok h
        exact tokListWF_cons (ih _ _ _ hres) (le_refl pos) (Nat.le_add_right _ _)
      rw [if_neg h12] at h
      obtain ⟨ts', hres, rfl⟩ := consTok_ok h
      exact tokListWF_cons (ih _ _ _ hres) (le_refl pos) (Nat.le_add_right _ _)

/-- A successful tokenization yields a well-formed token list. -/
theorem tokenize_wf {input : List Char} {ts : List Token}
    (h : tokenize input = some (.ok ts)) : TokensWF ts := by
  have := tokenizeAux_wf _ _ _ _ h
  exact ⟨this.2, fun t ht => (this.1 t ht).2⟩

theorem tokensWF_get_mono {ts : List Token} (h : TokensWF ts) :
    ∀ {i j : Nat} {a b : Token}, i ≤ j → ts.get? i = some a →
      ts.get? j = some b → a.start ≤ b.start := by
  intro i j a b hij ha hb
  rcases Nat.lt_or_ge i j with hlt | hge
  · obtain ⟨hi, ha'⟩ := List.get?_eq_some.mp ha
    obtain ⟨hj, hb'⟩ := List.get?_eq_some.mp hb
    have := (List.pairwise_iff_get.mp h.1) ⟨i, hi⟩ ⟨j, hj⟩ hlt
    rw [ha', hb'] at this
    exact this
  · have : i = j := le_antisymm hij hge
    subst this
    rw [ha] at hb
    cases Option.some_injective _ hb
    exact le_refl _

theorem tokensWF_start_le_stop {ts : List Token} (h : TokensWF ts) :
    ∀ {i : Nat} {t : Token}, ts.get? i = some t → t.start ≤ t.stop := by
  intro i t ht
  exact h.2 t (List.get?_mem ht)

/-! The claim's per-node property, recursively: the node carries both
offsets, they are ordered, and so on for every descendant. -/
mutual

def nodeOffsetsClaimB : Node → Bool
  | .varDecl _ _ init s e => decide (s ≤ e) && nodeOffsetsClaimOptB init
  | .ifStmt t c a s e =>
    decide (s ≤ e) && nodeOffsetsClaimB t && nodeOffsetsClaimB c && nodeOffsetsClaimOptB a
  | .whileStmt t b s e => decide (s ≤ e) && nodeOffsetsClaimB t && nodeOffsetsClaimB b
  | .forStmt i t u b s e =>
    decide (s ≤ e) && nodeOffsetsClaimOptB i && nodeOffsetsClaimOptB t &&
      nodeOffsetsClaimOptB u && nodeOffsetsClaimB b
  | .block _ => false
  | .funDecl id _ b s e => decide (s ≤ e) && nodeOffsetsClaimB id && nodeOffsetsClaimB b
  | .classDecl id b s e => decide (s ≤ e) && nodeOffsetsClaimB id && nodeOffsetsClaimB b
  | .returnStmt a s e => decide (s ≤ e) && nodeOffsetsClaimOptB a
  | .exprStmt x s e => decide (s ≤ e) && nodeOffsetsClaimB x
  | .assign l r s e => decide (s ≤ e) && nodeOffsetsClaimB l && nodeOffsetsClaimB r
  | .binary _ l r s e => decide (s ≤ e) && nodeOffsetsClaimB l && nodeOffsetsClaimB r
  | .logical _ l r s e => decide (s ≤ e) && nodeOffsetsClaimB l && nodeOffsetsClaimB r
  | .unary _ a s e => decide (s ≤ e) && nodeOffsetsClaimB a
  | .ident _ s e => decide (s ≤ e)
  | .lit _ _ s e => decide (s ≤ e)
  | .call cal args s e => decide (s ≤ e) && nodeOffsetsClaimB cal && nodeOffsetsClaimListB args
  | .member o p s e => decide (s ≤ e) && nodeOffsetsClaimB o && nodeOffsetsClaimB p
  | .arrayLit els s e => decide (s ≤ e) && nodeOffsetsClaimListB els
  | .objectLit ps s e => decide (s ≤ e) && nodeOffsetsClaimListB ps
  | .property _ v s e => decide (s ≤ e) && nodeOffsetsClaimB v

def nodeOffsetsClaimOptB : Option Node → Bool
  | none => true
  | some n => nodeOffsetsClaimB n

def nodeOffsetsClaimListB : List Node → Bool
  | [] => true
  | n :: ns => nodeOffsetsClaimB n && nodeOffsetsClaimListB ns

end

/-! The amended per-node property: every node that carries offsets has them
ordered (`BlockStatement` carries none and is exempt), recursively. -/
mutual

def spannedB : Node → Bool
  | .varDecl _ _ init s e => decide (s ≤ e) && spannedOptB init
  | .ifStmt t c a s e => decide (s ≤ e) && spannedB t && spannedB c && spannedOptB a
  | .whileStmt t b s e => decide (s ≤ e) && spannedB t && spannedB b
  | .forStmt i t u b s e =>
    decide (s ≤ e) && spannedOptB i && spannedOptB t && spannedOptB u && spannedB b
  | .block body => spannedOptsB body
  | .funDecl id _ b s e => decide (s ≤ e) && spannedB id && spannedB b
  | .classDecl id b s e => decide (s ≤ e) && spannedB id && spannedB b
  | .returnStmt a s e => decide (s ≤ e) && spannedOptB a
  | .exprStmt x s e => decide (s ≤ e) && spannedB x
  | .assign l r s e => decide (s ≤ e) && spannedB l && spannedB r
  | .binary _ l r s e => decide (s ≤ e) && spannedB l && spannedB r
  | .logical _ l r s e => decide (s ≤ e) && spannedB l && spannedB r
  | .unary _ a s e => decide (s ≤ e) && spannedB a
  | .ident _ s e => decide (s ≤ e)
  | .lit _ _ s e => decide (s ≤ e)
  | .call cal args s e => decide (s ≤ e) && spannedB cal && spannedListB args
  | .member o p s e => decide (s ≤ e) && spannedB o && spannedB p
  | .arrayLit els s e => decide (s ≤ e) && spannedListB els
  | .objectLit ps s e => decide (s ≤ e) && spannedListB ps
  | .property _ v s e => decide (s ≤ e) && spannedB v

def spannedOptB : Option Node → Bool
  | none => true
  | some n => spannedB n

def spannedListB : List Node → Bool
  | [] => true
  | n :: ns => spannedB n && spannedListB ns

def spannedOptsB : List (Option Node) → Bool
  | [] => true
  | n :: ns => spannedOptB n && spannedOptsB ns

end

/-- `x` is a lower bound on the start of every token not yet consumed. -/
def TokUB (st : PSt) (x : Nat) : Prop :=
  ∀ j t, st.position ≤ j → st.tokens.get? j = some t → x ≤ t.start

theorem tokUB_of_le_val {st : PSt} {s s' : Nat} (h : TokUB st s') (hss : s ≤ s') :
    TokUB st s := fun j t hj ht => le_trans hss (h j t hj ht)

theorem tokUB_transport {st st' : PSt} {x : Nat} (h : TokUB st x)
    (ht : st'.tokens = st.tokens) (hp : st.position ≤ st'.position) :
    TokUB st' x := fun j t hj hjt => h j t (le_trans hp hj) (ht ▸ hjt)

theorem tokUB_of_current {st : PSt} {t : Token} (hwf : TokensWF st.tokens)
    (hc : currentToken st = some t) : TokUB st t.start :=
  fun _ _ hj hu => tokensWF_get_mono hwf hj hc hu

theorem startOf_eq {n : Node} {s : Nat} (h : nodeStart n = some s) :
    startOf n = s := by simp [startOf, h]

theorem stopOf_eq {n : Node} {e : Nat} (h : nodeStop n = some e) :
    stopOf n = e := by simp [stopOf, h]

theorem M_bind_ok {α β : Type} {x : M α} {f : α → M β} {st st' : PSt}
    {b : β} (h : (x >>= f) st = some (st', .ok b)) :
    ∃ st1 a, x st = some (st1, .ok a) ∧ f a st1 = some (st', .ok b) := by
  rcases M_bind_cases h with ⟨st1, e, _, hp⟩ | ok
  · exact absurd (congrArg Prod.snd hp) (by simp)
  · exact ok

theorem peek_inv {st st1 : PSt} {r : Except String (Option Token)}
    (h : peekTok st = some (st1, r)) : st1 = st ∧ r = .ok (currentToken st) := by
  cases h.symm; exact ⟨rfl, rfl⟩

theorem advance_inv {st st1 : PSt} {r : Except String Unit}
    (h : advanceTok st = some (st1, r)) : st1 = nextTokSt st ∧ r = .ok () := by
  cases h.symm; exact ⟨rfl, rfl⟩

theorem pure_inv {α : Type} {a : α} {st st1 : PSt} {r : Except String α}
    (h : (pure a : M α) st = some (st1, r)) : st1 = st ∧ r = .ok a := by
  cases h.symm; exact ⟨rfl, rfl⟩

theorem throw_not_ok {α : Type} {m : String} {st st1 : PSt} {a : α}
    (h : (throwErr m : M α) st = some (st1, .ok a)) : False := by
  have : (st, (.error m : Except String α)) = (st1, .ok a) := Option.some_injective _ h
  exact absurd (congrArg Prod.snd this) (by simp)

theorem expect_ok {p : Token → Bool} {mk : Nat → String} {st st1 : PSt} {t : Token}
    (h : expectOrThrow p mk st = some (st1, .ok t)) :
    st1 = st ∧ currentToken st = some t ∧ p t = true := by
  unfold expectOrThrow at h
  rcases hc : currentToken st with _ | u <;> rw [hc] at h
  · have : (st, (.error nullStartMsg : Except String Token)) = (st1, .ok t) :=
      Option.some_injective _ h
    exact absurd (congrArg Prod.snd this) (by simp)
  · by_cases hp : p u = true <;> simp only [hp, if_true, if_false] at h
    · have := Option.some_injective _ h
      have h1 : st = st1 := congrArg Prod.fst this
      have h2 : (.ok u : Except String Token) = .ok t := congrArg Prod.snd this
      simp only [Except.ok.injEq] at h2
      subst h2
      exact ⟨h1.symm, rfl, hp⟩
    · have : (st, (.error (mk u.start) : Except String Token)) = (st1, .ok t) :=
        Option.some_injective _ h
      exact absurd (congrArg Prod.snd this) (by simp)

theorem currentTokOrValueThrow_ok {st st1 : PSt} {t : Token}
    (h : currentTokOrValueThrow st = some (st1, .ok t)) :
    st1 = st ∧ currentToken st = some t := by
  unfold currentTokOrValueThrow at h
  rcases hc : currentToken st with _ | u <;> rw [hc] at h
  · have : (st, (.error nullValueMsg : Except String Token)) = (st1, .ok t) :=
      Option.some_injective _ h
    exact absurd (congrArg Prod.snd this) (by simp)
  · have := Option.some_injective _ h
    have h1 : st = st1 := congrArg Prod.fst this
    have h2 : (.ok u : Except String Token) = .ok t := congrArg Prod.snd this
    simp only [Except.ok.injEq] at h2
    subst h2
    exact ⟨h1.symm, rfl⟩

theorem getInput_inv {st st1 : PSt} {r : Except String (List Char)}
    (h : getInputM st = some (st1, r)) : st1 = st ∧ r = .ok st.input := by
  cases h.symm; exact ⟨rfl, rfl⟩

theorem hasMore_inv {st st1 : PSt} {r : Except String Bool}
    (h : hasMore st = some (st1, r)) :
    st1 = st ∧ r = .ok (decide (st.position < st.tokens.length)) := by
  cases h.symm; exact ⟨rfl, rfl⟩

theorem recordErr_inv {m : String} {a b : Nat} {st st1 : PSt} {r : Except String Unit}
    (h : recordErr m a b st = some (st1, r)) :
    st1 = addErrorSt st m a b ∧ r = .ok () := by
  cases h.symm; exact ⟨rfl, rfl⟩

theorem nextTokSt_tokens (st : PSt) : (nextTokSt st).tokens = st.tokens := by
  unfold nextTokSt; split <;> rfl

theorem nextTokSt_input (st : PSt) : (nextTokSt st).input = st.input := by
  unfold nextTokSt; split <;> rfl

theorem nextTokSt_pos_ge (st : PSt) : st.position ≤ (nextTokSt st).position := by
  unfold nextTokSt; split
  · exact Nat.le_succ _
  · exact le_refl _

theorem peek_ok {st st1 : PSt} {a : Option Token}
    (h : peekTok st = some (st1, .ok a)) : st1 = st ∧ a = currentToken st := by
  cases h.symm; exact ⟨rfl, rfl⟩

theorem advance_ok {st st1 : PSt} {a : Unit}
    (h : advanceTok st = some (st1, .ok a)) : st1 = nextTokSt st := by
  cases h.symm; rfl

theorem pure_ok_inv {α : Type} {a b : α} {st st1 : PSt}
    (h : (pure a : M α) st = some (st1, .ok b)) : st1 = st ∧ b = a := by
  cases h.symm; exact ⟨rfl, rfl⟩

theorem spannedListB_append (xs : List Node) (x : Node) :
    spannedListB (xs ++ [x]) = (spannedListB xs && spannedB x) := by
  induction xs with
  | nil => simp [spannedListB]
  | cons y ys ih => simp [spannedListB, ih, Bool.and_assoc]

/-- Carried-node precondition of the expression-span invariant: the node is
well-spanned, has a start `s`, a stop at or after `s`, and every unconsumed
token starts at or after `s`. -/
def ExpNodePre (st : PSt) (e : Node) : Prop :=
  spannedB e = true ∧ ∃ s, nodeStart e = some s ∧
    (∃ en, nodeStop e = some en ∧ s ≤ en) ∧ TokUB st s

/-- Core conclusion of the expression-span invariant for a result node whose
start is `s`. -/
def ExpCore (st' : PSt) (nd : Node) (s : Nat) : Prop :=
  spannedB nd = true ∧ nodeStart nd = some s ∧
    (∃ en, nodeStop nd = some en ∧ s ≤ en) ∧ TokUB st' s

/-- Conclusion for the entry points of the expression parser: there was a
current token at entry, and its start bounds the result's start from below. -/
def ExpEntryPost (st st' : PSt) (nd : Node) : Prop :=
  (∃ tk, currentToken st = some tk) ∧
    ∃ s, ExpCore st' nd s ∧ ∀ tk, currentToken st = some tk → tk.start ≤ s

/-- Conclusion for the calls that carry a partially built node: the result
keeps that node's start. -/
def ExpCarryPost (e : Node) (st' : PSt) (nd : Node) : Prop :=
  ∃ s, nodeStart e = some s ∧ ExpCore st' nd s

theorem expNodePre_transport {st st2 : PSt} {e : Node} (h : ExpNodePre st e)
    (ht : st2.tokens = st.tokens) (hp : st.position ≤ st2.position) :
    ExpNodePre st2 e := by
  obtain ⟨h1, s, h2, h3, h4⟩ := h
  exact ⟨h1, s, h2, h3, tokUB_transport h4 ht hp⟩

/-- Precondition of the span invariant, per call tag. -/
def ExpPre : ExpCall → PSt → Prop
  | .orLoop e, st => ExpNodePre st e
  | .andLoop e, st => ExpNodePre st e
  | .eqLoop e, st => ExpNodePre st e
  | .relLoop e, st => ExpNodePre st e
  | .addLoop e, st => ExpNodePre st e
  | .mulLoop e, st => ExpNodePre st e
  | .callExpr callee, st => ExpNodePre st callee
  | .callArgs callee args, st => ExpNodePre st callee ∧ spannedListB args = true
  | .callFinish callee args, st => ExpNodePre st callee ∧ spannedListB args = true
  | .memberExpr obj, st => ExpNodePre st obj
  | .arrayExpr startTok, st => currentToken st = some startTok
  | .arrayElems startTok elems, st => TokUB st startTok.start ∧ spannedListB elems = true
  | .arrayFinish startTok elems, st => TokUB st startTok.start ∧ spannedListB elems = true
  | .objectExpr startTok, st => currentToken st = some startTok
  | .objectProps startTok props, st => TokUB st startTok.start ∧ spannedListB props = true
  | .objectFinish startTok props, st => TokUB st startTok.start ∧ spannedListB props = true
  | _, _ => True

/-- Conclusion of the span invariant, per call tag. -/
def ExpPost : ExpCall → PSt → PSt → Node → Prop
  | .orLoop e, _, st', nd => ExpCarryPost e st' nd
  | .andLoop e, _, st', nd => ExpCarryPost e st' nd
  | .eqLoop e, _, st', nd => ExpCarryPost e st' nd
  | .relLoop e, _, st', nd => ExpCarryPost e st' nd
  | .addLoop e, _, st', nd => ExpCarryPost e st' nd
  | .mulLoop e, _, st', nd => ExpCarryPost e st' nd
  | .callExpr callee, _, st', nd => ExpCarryPost callee st' nd
  | .callArgs callee _, _, st', nd => ExpCarryPost callee st' nd
  | .callFinish callee _, _, st', nd => ExpCarryPost callee st' nd
  | .memberExpr obj, _, st', nd => ExpCarryPost obj st' nd
  | .arrayExpr startTok, _, st', nd => ExpCore st' nd startTok.start
  | .arrayElems startTok _, _, st', nd => ExpCore st' nd startTok.start
  | .arrayFinish startTok _, _, st', nd => ExpCore st' nd startTok.start
  | .objectExpr startTok, _, st', nd => ExpCore st' nd startTok.start
  | .objectProps startTok _, _, st', nd => ExpCore st' nd startTok.start
  | .objectFinish startTok _, _, st', nd => ExpCore st' nd startTok.start
  | _, st, st', nd => ExpEntryPost st st' nd

/-- The span invariant of the expression parser: a successful parse yields a
well-spanned node whose start is bounded below by the entry token's start and
below every token still to be consumed. -/
theorem expStep_span : ∀ (f : Nat) (c : ExpCall) (st st' : PSt) (nd : Node),
    TokensWF st.tokens → ExpPre c st →
    expStep f c st = some (st', .ok nd) → ExpPost c st st' nd := by
  intro f
  induction f with
  | zero =>
    intro c st st' nd _ _ h
    simp only [expStep] at h
    exact Option.noConfusion h
  | succ n ih =>
    intro c
    cases c
    case logicalOr =>
      intro st st' nd hwf _ h
      simp only [expStep] at h
      obtain ⟨st1, e1, hA, hB⟩ := M_bind_ok h
      obtain ⟨⟨tk0, htk0⟩, s, coreA, lbA⟩ := ih .logicalAnd st st1 e1 hwf trivial hA
      have frA := expStep_pres n .logicalAnd hA
      have hwf1 : TokensWF st1.tokens := by rw [frA.2.1]; exact hwf
      have preB : ExpPre (.orLoop e1) st1 :=
        ⟨coreA.1, s, coreA.2.1, coreA.2.2.1, coreA.2.2.2⟩
      obtain ⟨s2, hs2, coreB⟩ := ih (.orLoop e1) st1 st' nd hwf1 preB hB
      rw [coreA.2.1] at hs2
      cases hs2
      exact ⟨⟨tk0, htk0⟩, s, coreB, lbA⟩
    case logicalAnd =>
      intro st st' nd hwf _ h
      simp only [expStep] at h
      obtain ⟨st1, e1, hA, hB⟩ := M_bind_ok h
      obtain ⟨⟨tk0, htk0⟩, s, coreA, lbA⟩ := ih .equality st st1 e1 hwf trivial hA
      have frA := expStep_pres n .equality hA
      have hwf1 : TokensWF st1.tokens := by rw [frA.2.1]; exact hwf
      have preB : ExpPre (.andLoop e1) st1 :=
        ⟨coreA.1, s, coreA.2.1, coreA.2.2.1, coreA.2.2.2⟩
      obtain ⟨s2, hs2, coreB⟩ := ih (.andLoop e1) st1 st' nd hwf1 preB hB
      rw [coreA.2.1] at hs2
      cases hs2
      exact ⟨⟨tk0, htk0⟩, s, coreB, lbA⟩
    case equality =>
      intro st st' nd hwf _ h
      simp only [expStep] at h
      obtain ⟨st1, e1, hA, hB⟩ := M_bind_ok h
      obtain ⟨⟨tk0, htk0⟩, s, coreA, lbA⟩ := ih .relational st st1 e1 hwf trivial hA
      have frA := expStep_pres n .relational hA
      have hwf1 : TokensWF st1.tokens := by rw [frA.2.1]; exact hwf
      have preB : ExpPre (.eqLoop e1) st1 :=
        ⟨coreA.1, s, coreA.2.1, coreA.2.2.1, coreA.2.2.2⟩
      obtain ⟨s2, hs2, coreB⟩ := ih (.eqLoop e1) st1 st' nd hwf1 preB hB
      rw [coreA.2.1] at hs2
      cases hs2
      exact ⟨⟨tk0, htk0⟩, s, coreB, lbA⟩
    case relational =>
      intro st st' nd hwf _ h
      simp only [expStep] at h
      obtain ⟨st1, e1, hA, hB⟩ := M_bind_ok h
      obtain ⟨⟨tk0, htk0⟩, s, coreA, lbA⟩ := ih .additive st st1 e1 hwf trivial hA
      have frA := expStep_pres n .additive hA
      have hwf1 : TokensWF st1.tokens := by rw [frA.2.1]; exact hwf
      have preB : ExpPre (.relLoop e1) st1 :=
        ⟨coreA.1, s, coreA.2.1, coreA.2.2.1, coreA.2.2.2⟩
      obtain ⟨s2, hs2, coreB⟩ := ih (.relLoop e1) st1 st' nd hwf1 preB hB
      rw [coreA.2.1] at hs2
      cases hs2
      exact ⟨⟨tk0, htk0⟩, s, coreB, lbA⟩
    case additive =>
      intro st st' nd hwf _ h
      simp only [expStep] at h
      obtain ⟨st1, e1, hA, hB⟩ := M_bind_ok h
      obtain ⟨⟨tk0, htk0⟩, s, coreA, lbA⟩ := ih .multiplicative st st1 e1 hwf trivial hA
      have frA := expStep_pres n .multiplicative hA
      have hwf1 : TokensWF st1.tokens := by rw [frA.2.1]; exact hwf
      have preB : ExpPre (.addLoop e1) st1 :=
        ⟨coreA.1, s, coreA.2.1, coreA.2.2.1, coreA.2.2.2⟩
      obtain ⟨s2, hs2, coreB⟩ := ih (.addLoop e1) st1 st' nd hwf1 preB hB
      rw [coreA.2.1] at hs2
      cases hs2
      exact ⟨⟨tk0, htk0⟩, s, coreB, lbA⟩
    case multiplicative =>
      intro st st' nd hwf _ h
      simp only [expStep] at h
      obtain ⟨st1, e1, hA, hB⟩ := M_bind_ok h
      obtain ⟨⟨tk0, htk0⟩, s, coreA, lbA⟩ := ih .unaryExp st st1 e1 hwf trivial hA
      have frA := expStep_pres n .unaryExp hA
      have hwf1 : TokensWF st1.tokens := by rw [frA.2.1]; exact hwf
      have preB : ExpPre (.mulLoop e1) st1 :=
        ⟨coreA.1, s, coreA.2.1, coreA.2.2.1, coreA.2.2.2⟩
      obtain ⟨s2, hs2, coreB⟩ := ih (.mulLoop e1) st1 st' nd hwf1 preB hB
      rw [coreA.2.1] at hs2
      cases hs2
      exact ⟨⟨tk0, htk0⟩, s, coreB, lbA⟩
    case orLoop e =>
      intro st st' nd hwf hpre h
      simp only [expStep] at h
      obtain ⟨st1, a, hP, h2⟩ := M_bind_ok h
      obtain ⟨h1eq, ha⟩ := peek_ok hP
      subst st1
      obtain ⟨hsp, s, hstart, ⟨en, hstop, hsen⟩, hub⟩ := hpre
      rcases a with _ | t
      · obtain ⟨rfl2, hr⟩ := pure_ok_inv h2
        subst rfl2
        subst hr
        exact ⟨s, hstart, hsp, hstart, ⟨en, hstop, hsen⟩, hub⟩
      · dsimp only at h2
        by_cases htv : t.value = "or"
        · rw [if_pos htv] at h2
          obtain ⟨st2, u2, hAdv, h3⟩ := M_bind_ok h2
          have hst2 : st2 = nextTokSt st := advance_ok hAdv
          obtain ⟨st3, right, hR, h4⟩ := M_bind_ok h3
          have hwf2 : TokensWF st2.tokens := by
            rw [hst2, nextTokSt_tokens]; exact hwf
          obtain ⟨⟨tk2, htk2⟩, sr, coreR, lbR⟩ := ih .logicalAnd st2 st3 right hwf2 trivial hR
          obtain ⟨spR, hstartR, ⟨enR, hstopR, hsrR⟩, hubR⟩ := coreR
          have hs_tk2 : s ≤ tk2.start := by
            refine hub st2.position tk2 ?_ ?_
            · rw [hst2]; exact nextTokSt_pos_ge st
            · have ht : st2.tokens = st.tokens := by rw [hst2, nextTokSt_tokens]
              rw [← ht]; exact htk2
          have hs_sr : s ≤ sr := le_trans hs_tk2 (lbR tk2 htk2)
          have frR := expStep_pres n .logicalAnd hR
          have hwf3 : TokensWF st3.tokens := by rw [frR.2.1]; exact hwf2
          have hpre2 : ExpPre (.orLoop (.logical "or" e right (startOf e) (stopOf right))) st3 := by
            refine ⟨?_, s, ?_, ⟨stopOf right, rfl, ?_⟩, tokUB_of_le_val hubR hs_sr⟩
            · simp only [spannedB]
              rw [startOf_eq hstart, stopOf_eq hstopR]
              have hse : s ≤ enR := le_trans hs_sr hsrR
              simp [hsp, spR, hse]
            · simp only [nodeStart, startOf_eq hstart]
            · rw [stopOf_eq hstopR]; exact le_trans hs_sr hsrR
          obtain ⟨s4, hstart4, core4⟩ := ih (.orLoop _) st3 st' nd hwf3 hpre2 h4
          have hs4 : s4 = s := by
            simp only [nodeStart, startOf_eq hstart, Option.some.injEq] at hstart4
            exact hstart4.symm
          subst hs4
          exact ⟨s4, hstart, core4⟩
        · rw [if_neg htv] at h2
          obtain ⟨rfl2, hr⟩ := pure_ok_inv h2
          subst rfl2
          subst hr
          exact ⟨s, hstart, hsp, hstart, ⟨en, hstop, hsen⟩, hub⟩
    case andLoop e =>
      intro st st' nd hwf hpre h
      simp only [expStep] at h
      obtain ⟨st1, a, hP, h2⟩ := M_bind_ok h
      obtain ⟨h1eq, ha⟩ := peek_ok hP
      subst st1
      obtain ⟨hsp, s, hstart, ⟨en, hstop, hsen⟩, hub⟩ := hpre
      rcases a with _ | t
      · obtain ⟨rfl2, hr⟩ := pure_ok_inv h2
        subst rfl2
        subst hr
        exact ⟨s, hstart, hsp, hstart, ⟨en, hstop, hsen⟩, hub⟩
      · dsimp only at h2
        by_cases htv : t.value = "and"
        · rw [if_pos htv] at h2
          obtain ⟨st2, u2, hAdv, h3⟩ := M_bind_ok h2
          have hst2 : st2 = nextTokSt st := advance_ok hAdv
          obtain ⟨st3, right, hR, h4⟩ := M_bind_ok h3
          have hwf2 : TokensWF st2.tokens := by
            rw [hst2, nextTokSt_tokens]; exact hwf
          obtain ⟨⟨tk2, htk2⟩, sr, coreR, lbR⟩ := ih .equality st2 st3 right hwf2 trivial hR
          obtain ⟨spR, hstartR, ⟨enR, hstopR, hsrR⟩, hubR⟩ := coreR
          have hs_tk2 : s ≤ tk2.start := by
            refine hub st2.position tk2 ?_ ?_
            · rw [hst2]; exact nextTokSt_pos_ge st
            · have ht : st2.tokens = st.tokens := by rw [hst2, nextTokSt_tokens]
              rw [← ht]; exact htk2
          have hs_sr : s ≤ sr := le_trans hs_tk2 (lbR tk2 htk2)
          have frR := expStep_pres n .equality hR
          have hwf3 : TokensWF st3.tokens := by rw [frR.2.1]; exact hwf2
          have hpre2 : ExpPre (.andLoop (.logical "and" e right (startOf e) (stopOf right))) st3 := by
            refine ⟨?_, s, ?_, ⟨stopOf right, rfl, ?_⟩, tokUB_of_le_val hubR hs_sr⟩
            · simp only [spannedB]
              rw [startOf_eq hstart, stopOf_eq hstopR]
              have hse : s ≤ enR := le_trans hs_sr hsrR
              simp [hsp, spR, hse]
            · simp only [nodeStart, startOf_eq hstart]
            · rw [stopOf_eq hstopR]; exact le_trans hs_sr hsrR
          obtain ⟨s4, hstart4, core4⟩ := ih (.andLoop _) st3 st' nd hwf3 hpre2 h4
          have hs4 : s4 = s := by
            simp only [nodeStart, startOf_eq hstart, Option.some.injEq] at hstart4
            exact hstart4.symm
          subst hs4
          exact ⟨s4, hstart, core4⟩
        · rw [if_neg htv] at h2
          obtain ⟨rfl2, hr⟩ := pure_ok_inv h2
          subst rfl2
          subst hr
          exact ⟨s, hstart, hsp, hstart, ⟨en, hstop, hsen⟩, hub⟩
    case eqLoop e =>
      intro st st' nd hwf hpre h
      simp only [expStep] at h
      obtain ⟨st1, a, hP, h2⟩ := M_bind_ok h
      obtain ⟨h1eq, ha⟩ := peek_ok hP
      subst st1
      obtain ⟨hsp, s, hstart, ⟨en, hstop, hsen⟩, hub⟩ := hpre
      rcases a with _ | t
      · obtain ⟨rfl2, hr⟩ := pure_ok_inv h2
        subst rfl2
        subst hr
        exact ⟨s, hstart, hsp, hstart, ⟨en, hstop, hsen⟩, hub⟩
      · dsimp only at h2
        by_cases htv : (t.value = "==" || t.value = "!=") = true
        · rw [if_pos htv] at h2
          obtain ⟨st2, u2, hAdv, h3⟩ := M_bind_ok h2
          have hst2 : st2 = nextTokSt st := advance_ok hAdv
          obtain ⟨st3, right, hR, h4⟩ := M_bind_ok h3
          have hwf2 : TokensWF st2.tokens := by
            rw [hst2, nextTokSt_tokens]; exact hwf
          obtain ⟨⟨tk2, htk2⟩, sr, coreR, lbR⟩ := ih .relational st2 st3 right hwf2 trivial hR
          obtain ⟨spR, hstartR, ⟨enR, hstopR, hsrR⟩, hubR⟩ := coreR
          have hs_tk2 : s ≤ tk2.start := by
            refine hub st2.position tk2 ?_ ?_
            · rw [hst2]; exact nextTokSt_pos_ge st
            · have ht : st2.tokens = st.tokens := by rw [hst2, nextTokSt_tokens]
              rw [← ht]; exact htk2
          have hs_sr : s ≤ sr := le_trans hs_tk2 (lbR tk2 htk2)
          have frR := expStep_pres n .relational hR
          have hwf3 : TokensWF st3.tokens := by rw [frR.2.1]; exact hwf2
          have hpre2 : ExpPre (.eqLoop (.binary t.value e right (startOf e) (stopOf right))) st3 := by
            refine ⟨?_, s, ?_, ⟨stopOf right, rfl, ?_⟩, tokUB_of_le_val hubR hs_sr⟩
            · simp only [spannedB]
              rw [startOf_eq hstart, stopOf_eq hstopR]
              have hse : s ≤ enR := le_trans hs_sr hsrR
              simp [hsp, spR, hse]
            · simp only [nodeStart, startOf_eq hstart]
            · rw [stopOf_eq hstopR]; exact le_trans hs_sr hsrR
          obtain ⟨s4, hstart4, core4⟩ := ih (.eqLoop _) st3 st' nd hwf3 hpre2 h4
          have hs4 : s4 = s := by
            simp only [nodeStart, startOf_eq hstart, Option.some.injEq] at hstart4
            exact hstart4.symm
          subst hs4
          exact ⟨s4, hstart, core4⟩
        · rw [if_neg htv] at h2
          obtain ⟨rfl2, hr⟩ := pure_ok_inv h2
          subst rfl2
          subst hr
          exact ⟨s, hstart, hsp, hstart, ⟨en, hstop, hsen⟩, hub⟩
    case relLoop e =>
      intro st st' nd hwf hpre h
      simp only [expStep] at h
      obtain ⟨st1, a, hP, h2⟩ := M_bind_ok h
      obtain ⟨h1eq, ha⟩ := peek_ok hP
      subst st1
      obtain ⟨hsp, s, hstart, ⟨en, hstop, hsen⟩, hub⟩ := hpre
      rcases a with _ | t
      · obtain ⟨rfl2, hr⟩ := pure_ok_inv h2
        subst rfl2
        subst hr
        exact ⟨s, hstart, hsp, hstart, ⟨en, hstop, hsen⟩, hub⟩
      · dsimp only at h2
        by_cases htv : (["<", "<=", ">", ">="].contains t.value) = true
        · rw [if_pos htv] at h2
          obtain ⟨st2, u2, hAdv, h3⟩ := M_bind_ok h2
          have hst2 : st2 = nextTokSt st := advance_ok hAdv
          obtain ⟨st3, right, hR, h4⟩ := M_bind_ok h3
          have hwf2 : TokensWF st2.tokens := by
            rw [hst2, nextTokSt_tokens]; exact hwf
          obtain ⟨⟨tk2, htk2⟩, sr, coreR, lbR⟩ := ih .additive st2 st3 right hwf2 trivial hR
          obtain ⟨spR, hstartR, ⟨enR, hstopR, hsrR⟩, hubR⟩ := coreR
          have hs_tk2 : s ≤ tk2.start := by
            refine hub st2.position tk2 ?_ ?_
            · rw [hst2]; exact nextTokSt_pos_ge st
            · have ht : st2.tokens = st.tokens := by rw [hst2, nextTokSt_tokens]
              rw [← ht]; exact htk2
          have hs_sr : s ≤ sr := le_trans hs_tk2 (lbR tk2 htk2)
          have frR := expStep_pres n .additive hR
          have hwf3 : TokensWF st3.tokens := by rw [frR.2.1]; exact hwf2
          have hpre2 : ExpPre (.relLoop (.binary t.value e right (startOf e) (stopOf right))) st3 := by
            refine ⟨?_, s, ?_, ⟨stopOf right, rfl, ?_⟩, tokUB_of_le_val hubR hs_sr⟩
            · simp only [spannedB]
              rw [startOf_eq hstart, stopOf_eq hstopR]
              have hse : s ≤ enR := le_trans hs_sr hsrR
              simp [hsp, spR, hse]
            · simp only [nodeStart, startOf_eq hstart]
            · rw [stopOf_eq hstopR]; exact le_trans hs_sr hsrR
          obtain ⟨s4, hstart4, core4⟩ := ih (.relLoop _) st3 st' nd hwf3 hpre2 h4
          have hs4 : s4 = s := by
            simp only [nodeStart, startOf_eq hstart, Option.some.injEq] at hstart4
            exact hstart4.symm
          subst hs4
          exact ⟨s4, hstart, core4⟩
        · rw [if_neg htv] at h2
          obtain ⟨rfl2, hr⟩ := pure_ok_inv h2
          subst rfl2
          subst hr
          exact ⟨s, hstart, hsp, hstart, ⟨en, hstop, hsen⟩, hub⟩
    case addLoop e =>
      intro st st' nd hwf hpre h
      simp only [expStep] at h
      obtain ⟨st1, a, hP, h2⟩ := M_bind_ok h
      obtain ⟨h1eq, ha⟩ := peek_ok hP
      subst st1
      obtain ⟨hsp, s, hstart, ⟨en, hstop, hsen⟩, hub⟩ := hpre
      rcases a with _ | t
      · obtain ⟨rfl2, hr⟩ := pure_ok_inv h2
        subst rfl2
        subst hr
        exact ⟨s, hstart, hsp, hstart, ⟨en, hstop, hsen⟩, hub⟩
      · dsimp only at h2
        by_cases htv : (t.value = "+" || t.value = "-") = true
        · rw [if_pos htv] at h2
          obtain ⟨st2, u2, hAdv, h3⟩ := M_bind_ok h2
          have hst2 : st2 = nextTokSt st := advance_ok hAdv
          obtain ⟨st3, right, hR, h4⟩ := M_bind_ok h3
          have hwf2 : TokensWF st2.tokens := by
            rw [hst2, nextTokSt_tokens]; exact hwf
          obtain ⟨⟨tk2, htk2⟩, sr, coreR, lbR⟩ := ih .multiplicative st2 st3 right hwf2 trivial hR
          obtain ⟨spR, hstartR, ⟨enR, hstopR, hsrR⟩, hubR⟩ := coreR
          have hs_tk2 : s ≤ tk2.start := by
            refine hub st2.position tk2 ?_ ?_
            · rw [hst2]; exact nextTokSt_pos_ge st
            · have ht : st2.tokens = st.tokens := by rw [hst2, nextTokSt_tokens]
              rw [← ht]; exact htk2
          have hs_sr : s ≤ sr := le_trans hs_tk2 (lbR tk2 htk2)
          have frR := expStep_pres n .multiplicative hR
          have hwf3 : TokensWF st3.tokens := by rw [frR.2.1]; exact hwf2
          have hpre2 : ExpPre (.addLoop (.binary t.value e right (startOf e) (stopOf right))) st3 := by
            refine ⟨?_, s, ?_, ⟨stopOf right, rfl, ?_⟩, tokUB_of_le_val hubR hs_sr⟩
            · simp only [spannedB]
              rw [startOf_eq hstart, stopOf_eq hstopR]
              have hse : s ≤ enR := le_trans hs_sr hsrR
              simp [hsp, spR, hse]
            · simp only [nodeStart, startOf_eq hstart]
            · rw [stopOf_eq hstopR]; exact le_trans hs_sr hsrR
          obtain ⟨s4, hstart4, core4⟩ := ih (.addLoop _) st3 st' nd hwf3 hpre2 h4
          have hs4 : s4 = s := by
            simp only [nodeStart, startOf_eq hstart, Option.some.injEq] at hstart4
            exact hstart4.symm
          subst hs4
          exact ⟨s4, hstart, core4⟩
        · rw [if_neg htv] at h2
          obtain ⟨rfl2, hr⟩ := pure_ok_inv h2
          subst rfl2
          subst hr
          exact ⟨s, hstart, hsp, hstart, ⟨en, hstop, hsen⟩, hub⟩
    case mulLoop e =>
      intro st st' nd hwf hpre h
      simp only [expStep] at h
      obtain ⟨st1, a, hP, h2⟩ := M_bind_ok h
      obtain ⟨h1eq, ha⟩ := peek_ok hP
      subst st1
      obtain ⟨hsp, s, hstart, ⟨en, hstop, hsen⟩, hub⟩ := hpre
      rcases a with _ | t
      · obtain ⟨rfl2, hr⟩ := pure_ok_inv h2
        subst rfl2
        subst hr
        exact ⟨s, hstart, hsp, hstart, ⟨en, hstop, hsen⟩, hub⟩
      · dsimp only at h2
        by_cases htv : (["*", "/", "%"].contains t.value) = true
        · rw [if_pos htv] at h2
          obtain ⟨st2, u2, hAdv, h3⟩ := M_bind_ok h2
          have hst2 : st2 = nextTokSt st := advance_ok hAdv
          obtain ⟨st3, right, hR, h4⟩ := M_bind_ok h3
          have hwf2 : TokensWF st2.tokens := by
            rw [hst2, nextTokSt_tokens]; exact hwf
          obtain ⟨⟨tk2, htk2⟩, sr, coreR, lbR⟩ := ih .unaryExp st2 st3 right hwf2 trivial hR
          obtain ⟨spR, hstartR, ⟨enR, hstopR, hsrR⟩, hubR⟩ := coreR
          have hs_tk2 : s ≤ tk2.start := by
            refine hub st2.position tk2 ?_ ?_
            · rw [hst2]; exact nextTokSt_pos_ge st
            · have ht : st2.tokens = st.tokens := by rw [hst2, nextTokSt_tokens]
              rw [← ht]; exact htk2
          have hs_sr : s ≤ sr := le_trans hs_tk2 (lbR tk2 htk2)
          have frR := expStep_pres n .unaryExp hR
          have hwf3 : TokensWF st3.tokens := by rw [frR.2.1]; exact hwf2
          have hpre2 : ExpPre (.mulLoop (.binary t.value e right (startOf e) (stopOf right))) st3 := by
            refine ⟨?_, s, ?_, ⟨stopOf right, rfl, ?_⟩, tokUB_of_le_val hubR hs_sr⟩
            · simp only [spannedB]
              rw [startOf_eq hstart, stopOf_eq hstopR]
              have hse : s ≤ enR := le_trans hs_sr hsrR
              simp [hsp, spR, hse]
            · simp only [nodeStart, startOf_eq hstart]
            · rw [stopOf_eq hstopR]; exact le_trans hs_sr hsrR
          obtain ⟨s4, hstart4, core4⟩ := ih (.mulLoop _) st3 st' nd hwf3 hpre2 h4
          have hs4 : s4 = s := by
            simp only [nodeStart, startOf_eq hstart, Option.some.injEq] at hstart4
            exact hstart4.symm
          subst hs4
          exact ⟨s4, hstart, core4⟩
        · rw [if_neg htv] at h2
          obtain ⟨rfl2, hr⟩ := pure_ok_inv h2
          subst rfl2
          subst hr
          exact ⟨s, hstart, hsp, hstart, ⟨en, hstop, hsen⟩, hub⟩
    case unaryExp =>
      intro st st' nd hwf _ h
      simp only [expStep] at h
      obtain ⟨st1, a, hP, h2⟩ := M_bind_ok h
      obtain ⟨h1eq, ha⟩ := peek_ok hP
      subst st1
      rcases a with _ | t
      · exact ih .primary st st' nd hwf trivial h2
      · dsimp only at h2
        by_cases htv : t.value = "not"
        · rw [if_pos htv] at h2
          obtain ⟨st2, u2, hAdv, h3⟩ := M_bind_ok h2
          have hst2 : st2 = nextTokSt st := advance_ok hAdv
          have htr2 : st2.tokens = st.tokens := by rw [hst2]; exact nextTokSt_tokens st
          have hpos2 : st.position ≤ st2.position := by rw [hst2]; exact nextTokSt_pos_ge st
          obtain ⟨st3, arg, hR, h4⟩ := M_bind_ok h3
          have hwf2 : TokensWF st2.tokens := by rw [htr2]; exact hwf
          obtain ⟨⟨tk2, htk2⟩, sA, coreA, lbA⟩ := ih .unaryExp st2 st3 arg hwf2 trivial hR
          obtain ⟨spA, hstartA, ⟨enA, hstopA, hsenA⟩, hubA⟩ := coreA
          obtain ⟨rfl4, hnd⟩ := pure_ok_inv h4
          subst rfl4
          subst hnd
          have htk2' : st.tokens.get? st2.position = some tk2 := by
            rw [← htr2]; exact htk2
          have h_t_tk2 : t.start ≤ tk2.start :=
            tokensWF_get_mono hwf hpos2 ha.symm htk2'
          have h_t_sA : t.start ≤ sA := le_trans h_t_tk2 (lbA tk2 htk2)
          have h_t_stop : t.start ≤ stopOf arg := by
            rw [stopOf_eq hstopA]; exact le_trans h_t_sA hsenA
          refine ⟨⟨t, ha.symm⟩, t.start,
            ⟨?_, rfl, ⟨stopOf arg, rfl, h_t_stop⟩, tokUB_of_le_val hubA h_t_sA⟩, ?_⟩
          · simp only [spannedB]
            simp [spA, h_t_stop]
          · intro tk htkc
            rw [← ha] at htkc
            cases htkc
            exact le_refl _
        · rw [if_neg htv] at h2
          exact ih .primary st st' nd hwf trivial h2
    case primary =>
      intro st st' nd hwf _ h
      simp only [expStep] at h
      obtain ⟨st1, a, hP, h2⟩ := M_bind_ok h
      obtain ⟨h1eq, ha⟩ := peek_ok hP
      subst st1
      rcases a with _ | token
      · exact (throw_not_ok h2).elim
      · dsimp only at h2
        have hcur : currentToken st = some token := ha.symm
        have hwfcur : token.start ≤ token.stop := tokensWF_start_le_stop hwf hcur
        have hubcur : TokUB st token.start := tokUB_of_current hwf hcur
        have hlb : ∀ tk, currentToken st = some tk → tk.start ≤ token.start := by
          intro tk htkc
          rw [hcur] at htkc
          cases htkc
          exact le_refl _
        by_cases c1 : token.type = TokType.NUMBER
        · rw [if_pos c1] at h2
          obtain ⟨st2, u2, hAdv, h3⟩ := M_bind_ok h2
          have hst2 : st2 = nextTokSt st := advance_ok hAdv
          obtain ⟨rfl3, hnd⟩ := pure_ok_inv h3
          subst rfl3
          subst hnd
          refine ⟨⟨token, hcur⟩, token.start,
            ⟨by simp [spannedB, hwfcur], rfl, ⟨token.stop, rfl, hwfcur⟩, ?_⟩, hlb⟩
          rw [hst2]
          exact tokUB_transport hubcur (nextTokSt_tokens st) (nextTokSt_pos_ge st)
        rw [if_neg c1] at h2
        by_cases c2 : token.type = TokType.STRING
        · rw [if_pos c2] at h2
          obtain ⟨st2, u2, hAdv, h3⟩ := M_bind_ok h2
          have hst2 : st2 = nextTokSt st := advance_ok hAdv
          obtain ⟨rfl3, hnd⟩ := pure_ok_inv h3
          subst rfl3
          subst hnd
          refine ⟨⟨token, hcur⟩, token.start,
            ⟨by simp [spannedB, hwfcur], rfl, ⟨token.stop, rfl, hwfcur⟩, ?_⟩, hlb⟩
          rw [hst2]
          exact tokUB_transport hubcur (nextTokSt_tokens st) (nextTokSt_pos_ge st)
        rw [if_neg c2] at h2
        by_cases c3 : (token.value = "true" || token.value = "false") = true
        · rw [if_pos c3] at h2
          obtain ⟨st2, u2, hAdv, h3⟩ := M_bind_ok h2
          have hst2 : st2 = nextTokSt st := advance_ok hAdv
          obtain ⟨rfl3, hnd⟩ := pure_ok_inv h3
          subst rfl3
          subst hnd
          refine ⟨⟨token, hcur⟩, token.start,
            ⟨by simp [spannedB, hwfcur], rfl, ⟨token.stop, rfl, hwfcur⟩, ?_⟩, hlb⟩
          rw [hst2]
          exact tokUB_transport hubcur (nextTokSt_tokens st) (nextTokSt_pos_ge st)
        rw [if_neg c3] at h2
        by_cases c4 : token.value = "nil"
        · rw [if_pos c4] at h2
          obtain ⟨st2, u2, hAdv, h3⟩ := M_bind_ok h2
          have hst2 : st2 = nextTokSt st := advance_ok hAdv
          obtain ⟨rfl3, hnd⟩ := pure_ok_inv h3
          subst rfl3
          subst hnd
          refine ⟨⟨token, hcur⟩, token.start,
            ⟨by simp [spannedB, hwfcur], rfl, ⟨token.stop, rfl, hwfcur⟩, ?_⟩, hlb⟩
          rw [hst2]
          exact tokUB_transport hubcur (nextTokSt_tokens st) (nextTokSt_pos_ge st)
        rw [if_neg c4] at h2
        by_cases c5 : token.type = TokType.IDENTIFIER
        · rw [if_pos c5] at h2
          obtain ⟨st2, u2, hAdv, h3⟩ := M_bind_ok h2
          have hst2 : st2 = nextTokSt st := advance_ok hAdv
          have htr2 : st2.tokens = st.tokens := by rw [hst2]; exact nextTokSt_tokens st
          have hwf2 : TokensWF st2.tokens := by rw [htr2]; exact hwf
          have hub2 : TokUB st2 token.start := by
            rw [hst2]
            exact tokUB_transport hubcur (nextTokSt_tokens st) (nextTokSt_pos_ge st)
          have hsp_id : spannedB (.ident token.value token.start token.stop) = true := by
            simp [spannedB, hwfcur]
          have hpre_id : ExpNodePre st2 (.ident token.value token.start token.stop) :=
            ⟨hsp_id, token.start, rfl, ⟨token.stop, rfl, hwfcur⟩, hub2⟩
          obtain ⟨st3, a2, hP2, h4⟩ := M_bind_ok h3
          obtain ⟨h3eq, ha2⟩ := peek_ok hP2
          subst st3
          rcases a2 with _ | t2
          · obtain ⟨rfl5, hnd⟩ := pure_ok_inv h4
            subst rfl5
            subst hnd
            exact ⟨⟨token, hcur⟩, token.start,
              ⟨hsp_id, rfl, ⟨token.stop, rfl, hwfcur⟩, hub2⟩, hlb⟩
          · dsimp only at h4
            by_cases d1 : t2.value = "("
            · rw [if_pos d1] at h4
              obtain ⟨sC, hstC, coreC⟩ :=
                ih (.callExpr (.ident token.value token.start token.stop)) st2 st' nd
                  hwf2 hpre_id h4
              simp only [nodeStart, Option.some.injEq] at hstC
              subst hstC
              exact ⟨⟨token, hcur⟩, token.start, coreC, hlb⟩
            · rw [if_neg d1] at h4
              by_cases d2 : t2.value = "."
              · rw [if_pos d2] at h4
                obtain ⟨sC, hstC, coreC⟩ :=
                  ih (.memberExpr (.ident token.value token.start token.stop)) st2 st' nd
                    hwf2 hpre_id h4
                simp only [nodeStart, Option.some.injEq] at hstC
                subst hstC
                exact ⟨⟨token, hcur⟩, token.start, coreC, hlb⟩
              · rw [if_neg d2] at h4
                obtain ⟨rfl5, hnd⟩ := pure_ok_inv h4
                subst rfl5
                subst hnd
                exact ⟨⟨token, hcur⟩, token.start,
                  ⟨hsp_id, rfl, ⟨token.stop, rfl, hwfcur⟩, hub2⟩, hlb⟩
        rw [if_neg c5] at h2
        by_cases c6 : token.value = "("
        · rw [if_pos c6] at h2
          obtain ⟨st2, u2, hAdv, h3⟩ := M_bind_ok h2
          have hst2 : st2 = nextTokSt st := advance_ok hAdv
          have htr2 : st2.tokens = st.tokens := by rw [hst2]; exact nextTokSt_tokens st
          have hpos2 : st.position ≤ st2.position := by rw [hst2]; exact nextTokSt_pos_ge st
          have hwf2 : TokensWF st2.tokens := by rw [htr2]; exact hwf
          obtain ⟨st3, e1, hE, h4⟩ := M_bind_ok h3
          obtain ⟨⟨tk2, htk2⟩, sE, coreE, lbE⟩ := ih .logicalOr st2 st3 e1 hwf2 trivial hE
          obtain ⟨spE, hstE, ⟨enE, hstoE, hseE⟩, hubE⟩ := coreE
          obtain ⟨st4, uct, hX, h5⟩ := M_bind_ok h4
          obtain ⟨h4eq, hcur4, hpv⟩ := expect_ok hX
          subst st4
          obtain ⟨st5, u5, hAdv2, h6⟩ := M_bind_ok h5
          have hst5 : st5 = nextTokSt st3 := advance_ok hAdv2
          obtain ⟨rfl6, hnd⟩ := pure_ok_inv h6
          subst rfl6
          subst hnd
          have htk2' : st.tokens.get? st2.position = some tk2 := by
            rw [← htr2]; exact htk2
          have htok_tk2 : token.start ≤ tk2.start :=
            tokensWF_get_mono hwf hpos2 hcur htk2'
          refine ⟨⟨token, hcur⟩, sE, ⟨spE, hstE, ⟨enE, hstoE, hseE⟩, ?_⟩, ?_⟩
          · rw [hst5]
            exact tokUB_transport hubE (nextTokSt_tokens st3) (nextTokSt_pos_ge st3)
          · intro tk htkc
            rw [hcur] at htkc
            cases htkc
            exact le_trans htok_tk2 (lbE tk2 htk2)
        rw [if_neg c6] at h2
        by_cases c7 : token.value = "["
        · rw [if_pos c7] at h2
          have post := ih (.arrayExpr token) st st' nd hwf hcur h2
          exact ⟨⟨token, hcur⟩, token.start, post, hlb⟩
        rw [if_neg c7] at h2
        by_cases c8 : token.value = "\x7b"
        · rw [if_pos c8] at h2
          have post := ih (.objectExpr token) st st' nd hwf hcur h2
          exact ⟨⟨token, hcur⟩, token.start, post, hlb⟩
        rw [if_neg c8] at h2
        exact (throw_not_ok h2).elim
    case callExpr callee =>
      intro st st' nd hwf hpre h
      simp only [expStep] at h
      obtain ⟨st1, tok1, hX, h2⟩ := M_bind_ok h
      obtain ⟨h1eq, hcur1, hp1⟩ := expect_ok hX
      subst st1
      obtain ⟨st2, u2, hAdv, h3⟩ := M_bind_ok h2
      have hst2 : st2 = nextTokSt st := advance_ok hAdv
      have htr : st2.tokens = st.tokens := by rw [hst2]; exact nextTokSt_tokens st
      have hpos2 : st.position ≤ st2.position := by rw [hst2]; exact nextTokSt_pos_ge st
      have hwf2 : TokensWF st2.tokens := by rw [htr]; exact hwf
      have hpre2 : ExpNodePre st2 callee := expNodePre_transport hpre htr hpos2
      obtain ⟨st3, a2, hP2, h4⟩ := M_bind_ok h3
      obtain ⟨h3eq, ha2⟩ := peek_ok hP2
      subst st3
      rcases a2 with _ | t
      · exact ih (.callFinish callee []) st2 st' nd hwf2 ⟨hpre2, rfl⟩ h4
      · dsimp only at h4
        by_cases hne : t.value ≠ ")"
        · rw [if_pos hne] at h4
          obtain ⟨st3, first, hF, h5⟩ := M_bind_ok h4
          obtain ⟨⟨tk3, htk3⟩, sF, coreF, lbF⟩ := ih .logicalOr st2 st3 first hwf2 trivial hF
          have frF := expStep_pres n .logicalOr hF
          have hwf3 : TokensWF st3.tokens := by rw [frF.2.1]; exact hwf2
          have hpre3 : ExpNodePre st3 callee := expNodePre_transport hpre2 frF.2.1 frF.2.2.2
          have hlist : spannedListB [first] = true := by simp [spannedListB, coreF.1]
          exact ih (.callArgs callee [first]) st3 st' nd hwf3 ⟨hpre3, hlist⟩ h5
        · rw [if_neg hne] at h4
          exact ih (.callFinish callee []) st2 st' nd hwf2 ⟨hpre2, rfl⟩ h4
    case callArgs callee args =>
      intro st st' nd hwf hpre h
      obtain ⟨hpreC, hargs⟩ := hpre
      simp only [expStep] at h
      obtain ⟨st1, a, hP, h2⟩ := M_bind_ok h
      obtain ⟨h1eq, ha⟩ := peek_ok hP
      subst st1
      rcases a with _ | t
      · exact ih (.callFinish callee args) st st' nd hwf ⟨hpreC, hargs⟩ h2
      · dsimp only at h2
        by_cases htv : t.value = ","
        · rw [if_pos htv] at h2
          obtain ⟨st2, u2, hAdv, h3⟩ := M_bind_ok h2
          have hst2 : st2 = nextTokSt st := advance_ok hAdv
          have htr : st2.tokens = st.tokens := by rw [hst2]; exact nextTokSt_tokens st
          have hpos2 : st.position ≤ st2.position := by rw [hst2]; exact nextTokSt_pos_ge st
          have hwf2 : TokensWF st2.tokens := by rw [htr]; exact hwf
          obtain ⟨st3, e1, hE, h4⟩ := M_bind_ok h3
          obtain ⟨⟨tk3, htk3⟩, sE, coreE, lbE⟩ := ih .logicalOr st2 st3 e1 hwf2 trivial hE
          have frE := expStep_pres n .logicalOr hE
          have hwf3 : TokensWF st3.tokens := by rw [frE.2.1]; exact hwf2
          have hpre3 : ExpNodePre st3 callee :=
            expNodePre_transport (expNodePre_transport hpreC htr hpos2) frE.2.1 frE.2.2.2
          have hargs3 : spannedListB (args ++ [e1]) = true := by
            rw [spannedListB_append]
            simp [hargs, coreE.1]
          exact ih (.callArgs callee (args ++ [e1])) st3 st' nd hwf3 ⟨hpre3, hargs3⟩ h4
        · rw [if_neg htv] at h2
          exact ih (.callFinish callee args) st st' nd hwf ⟨hpreC, hargs⟩ h2
    case callFinish callee args =>
      intro st st' nd hwf hpre h
      obtain ⟨⟨spC, s, hstC, ⟨enC, hstoC, hseC⟩, hubC⟩, hargs⟩ := hpre
      simp only [expStep] at h
      obtain ⟨st1, endTok, hX, h2⟩ := M_bind_ok h
      obtain ⟨h1eq, hcur1, hp1⟩ := expect_ok hX
      subst st1
      obtain ⟨st2, u2, hAdv, h3⟩ := M_bind_ok h2
      have hst2 : st2 = nextTokSt st := advance_ok hAdv
      obtain ⟨rfl3, hnd⟩ := pure_ok_inv h3
      subst rfl3
      subst hnd
      have hsend : s ≤ endTok.start := hubC st.position endTok (le_refl _) hcur1
      have hsstop : s ≤ endTok.stop := le_trans hsend (tokensWF_start_le_stop hwf hcur1)
      refine ⟨s, hstC, ?_, ?_, ⟨endTok.stop, rfl, hsstop⟩, ?_⟩
      · simp only [spannedB]
        rw [startOf_eq hstC]
        simp [spC, hargs, hsstop]
      · simp only [nodeStart, startOf_eq hstC]
      · rw [hst2]
        exact tokUB_transport hubC (nextTokSt_tokens st) (nextTokSt_pos_ge st)
    case memberExpr obj =>
      intro st st' nd hwf hpre h
      obtain ⟨spO, s, hstO, ⟨enO, hstoO, hseO⟩, hubO⟩ := hpre
      simp only [expStep] at h
      obtain ⟨st1, dotTok, hX, h2⟩ := M_bind_ok h
      obtain ⟨h1eq, hcur1, hdot⟩ := expect_ok hX
      subst st1
      obtain ⟨st2, u2, hAdv, h3⟩ := M_bind_ok h2
      have hst2 : st2 = nextTokSt st := advance_ok hAdv
      have htr2 : st2.tokens = st.tokens := by rw [hst2]; exact nextTokSt_tokens st
      have hpos2 : st.position ≤ st2.position := by rw [hst2]; exact nextTokSt_pos_ge st
      have hwf2 : TokensWF st2.tokens := by rw [htr2]; exact hwf
      obtain ⟨st3, ptok, hX2, h4⟩ := M_bind_ok h3
      obtain ⟨h3eq, hcur2, hp2⟩ := expect_ok hX2
      subst st3
      obtain ⟨st4, u4, hAdv2, h5⟩ := M_bind_ok h4
      have hst4 : st4 = nextTokSt st2 := advance_ok hAdv2
      have hs_pt : s ≤ ptok.start := by
        refine hubO st2.position ptok hpos2 ?_
        rw [← htr2]
        exact hcur2
      have hpt_wf : ptok.start ≤ ptok.stop := tokensWF_start_le_stop hwf2 hcur2
      have hs_pstop : s ≤ ptok.stop := le_trans hs_pt hpt_wf
      have hub4 : TokUB st4 s := by
        rw [hst4]
        exact tokUB_transport (tokUB_transport hubO htr2 hpos2)
          (nextTokSt_tokens st2) (nextTokSt_pos_ge st2)
      have hsp_mem : spannedB (.member obj (.ident ptok.value ptok.start ptok.stop)
          (startOf obj) ptok.stop) = true := by
        simp only [spannedB]
        rw [startOf_eq hstO]
        simp [spO, hs_pstop, hpt_wf]
      have hst_mem : nodeStart (.member obj (.ident ptok.value ptok.start ptok.stop)
          (startOf obj) ptok.stop) = some s := by
        simp only [nodeStart, startOf_eq hstO]
      have hwf4 : TokensWF st4.tokens := by
        rw [hst4, nextTokSt_tokens, htr2]; exact hwf
      obtain ⟨st5, a2, hP2, h6⟩ := M_bind_ok h5
      obtain ⟨h5eq, ha2⟩ := peek_ok hP2
      subst st5
      rcases a2 with _ | t2
      · obtain ⟨rfl6, hnd⟩ := pure_ok_inv h6
        subst rfl6
        subst hnd
        exact ⟨s, hstO, hsp_mem, hst_mem, ⟨ptok.stop, rfl, hs_pstop⟩, hub4⟩
      · dsimp only at h6
        by_cases d1 : t2.value = "("
        · rw [if_pos d1] at h6
          have hpre6 : ExpNodePre st4 (.member obj (.ident ptok.value ptok.start ptok.stop)
              (startOf obj) ptok.stop) :=
            ⟨hsp_mem, s, hst_mem, ⟨ptok.stop, rfl, hs_pstop⟩, hub4⟩
          obtain ⟨s6, hst6, core6⟩ :=
            ih (.callExpr (.member obj (.ident ptok.value ptok.start ptok.stop)
              (startOf obj) ptok.stop)) st4 st' nd hwf4 hpre6 h6
          rw [hst_mem] at hst6
          cases hst6
          exact ⟨s, hstO, core6⟩
        · rw [if_neg d1] at h6
          obtain ⟨rfl6, hnd⟩ := pure_ok_inv h6
          subst rfl6
          subst hnd
          exact ⟨s, hstO, hsp_mem, hst_mem, ⟨ptok.stop, rfl, hs_pstop⟩, hub4⟩
    case arrayExpr startTok =>
      intro st st' nd hwf hpre h
      simp only [expStep] at h
      obtain ⟨st1, u1, hAdv, h2⟩ := M_bind_ok h
      have hst1 : st1 = nextTokSt st := advance_ok hAdv
      have htr : st1.tokens = st.tokens := by rw [hst1]; exact nextTokSt_tokens st
      have hpos1 : st.position ≤ st1.position := by rw [hst1]; exact nextTokSt_pos_ge st
      have hub1 : TokUB st1 startTok.start :=
        tokUB_transport (tokUB_of_current hwf hpre) htr hpos1
      have hwf1 : TokensWF st1.tokens := by rw [htr]; exact hwf
      obtain ⟨st2, a, hP, h3⟩ := M_bind_ok h2
      obtain ⟨h2eq, ha⟩ := peek_ok hP
      subst st2
      rcases a with _ | t
      · exact ih (.arrayFinish startTok []) st1 st' nd hwf1 ⟨hub1, rfl⟩ h3
      · dsimp only at h3
        by_cases hne : t.value ≠ "]"
        · rw [if_pos hne] at h3
          obtain ⟨st2, first, hF, h4⟩ := M_bind_ok h3
          obtain ⟨⟨tk2, htk2⟩, sF, coreF, lbF⟩ := ih .logicalOr st1 st2 first hwf1 trivial hF
          have frF := expStep_pres n .logicalOr hF
          have hwf2 : TokensWF st2.tokens := by rw [frF.2.1]; exact hwf1
          have hub2 : TokUB st2 startTok.start := tokUB_transport hub1 frF.2.1 frF.2.2.2
          have hl : spannedListB [first] = true := by simp [spannedListB, coreF.1]
          exact ih (.arrayElems startTok [first]) st2 st' nd hwf2 ⟨hub2, hl⟩ h4
        · rw [if_neg hne] at h3
          exact ih (.arrayFinish startTok []) st1 st' nd hwf1 ⟨hub1, rfl⟩ h3
    case arrayElems startTok elems =>
      intro st st' nd hwf hpre h
      obtain ⟨hub, hels⟩ := hpre
      simp only [expStep] at h
      obtain ⟨st1, a, hP, h2⟩ := M_bind_ok h
      obtain ⟨h1eq, ha⟩ := peek_ok hP
      subst st1
      rcases a with _ | t
      · exact ih (.arrayFinish startTok elems) st st' nd hwf ⟨hub, hels⟩ h2
      · dsimp only at h2
        by_cases htv : t.value = ","
        · rw [if_pos htv] at h2
          obtain ⟨st2, u2, hAdv, h3⟩ := M_bind_ok h2
          have hst2 : st2 = nextTokSt st := advance_ok hAdv
          have htr : st2.tokens = st.tokens := by rw [hst2]; exact nextTokSt_tokens st
          have hpos2 : st.position ≤ st2.position := by rw [hst2]; exact nextTokSt_pos_ge st
          have hwf2 : TokensWF st2.tokens := by rw [htr]; exact hwf
          obtain ⟨st3, e1, hE, h4⟩ := M_bind_ok h3
          obtain ⟨⟨tk3, htk3⟩, sE, coreE, lbE⟩ := ih .logicalOr st2 st3 e1 hwf2 trivial hE
          have frE := expStep_pres n .logicalOr hE
          have hwf3 : TokensWF st3.tokens := by rw [frE.2.1]; exact hwf2
          have hub3 : TokUB st3 startTok.start :=
            tokUB_transport (tokUB_transport hub htr hpos2) frE.2.1 frE.2.2.2
          have hels3 : spannedListB (elems ++ [e1]) = true := by
            rw [spannedListB_append]
            simp [hels, coreE.1]
          exact ih (.arrayElems startTok (elems ++ [e1])) st3 st' nd hwf3 ⟨hub3, hels3⟩ h4
        · rw [if_neg htv] at h2
          exact ih (.arrayFinish startTok elems) st st' nd hwf ⟨hub, hels⟩ h2
    case arrayFinish startTok elems =>
      intro st st' nd hwf hpre h
      obtain ⟨hub, hels⟩ := hpre
      simp only [expStep] at h
      obtain ⟨st1, endTok, hX, h2⟩ := M_bind_ok h
      obtain ⟨h1eq, hcur1, hp1⟩ := expect_ok hX
      subst st1
      obtain ⟨st2, u2, hAdv, h3⟩ := M_bind_ok h2
      have hst2 : st2 = nextTokSt st := advance_ok hAdv
      obtain ⟨rfl3, hnd⟩ := pure_ok_inv h3
      subst rfl3
      subst hnd
      have h1 : startTok.start ≤ endTok.start := hub st.position endTok (le_refl _) hcur1
      have h2s : startTok.start ≤ endTok.stop :=
        le_trans h1 (tokensWF_start_le_stop hwf hcur1)
      refine ⟨?_, rfl, ⟨endTok.stop, rfl, h2s⟩, ?_⟩
      · simp [spannedB, h2s, hels]
      · rw [hst2]
        exact tokUB_transport hub (nextTokSt_tokens st) (nextTokSt_pos_ge st)
    case objectExpr startTok =>
      intro st st' nd hwf hpre h
      simp only [expStep] at h
      obtain ⟨st1, u1, hAdv, h2⟩ := M_bind_ok h
      have hst1 : st1 = nextTokSt st := advance_ok hAdv
      have htr : st1.tokens = st.tokens := by rw [hst1]; exact nextTokSt_tokens st
      have hpos1 : st.position ≤ st1.position := by rw [hst1]; exact nextTokSt_pos_ge st
      have hub1 : TokUB st1 startTok.start :=
        tokUB_transport (tokUB_of_current hwf hpre) htr hpos1
      have hwf1 : TokensWF st1.tokens := by rw [htr]; exact hwf
      obtain ⟨st2, a, hP, h3⟩ := M_bind_ok h2
      obtain ⟨h2eq, ha⟩ := peek_ok hP
      subst st2
      rcases a with _ | t
      · exact ih (.objectFinish startTok []) st1 st' nd hwf1 ⟨hub1, rfl⟩ h3
      · dsimp only at h3
        by_cases hne : t.value ≠ "\x7d"
        · rw [if_pos hne] at h3
          obtain ⟨st2, first, hF, h4⟩ := M_bind_ok h3
          obtain ⟨⟨tk2, htk2⟩, sF, coreF, lbF⟩ := ih .objectProp st1 st2 first hwf1 trivial hF
          have frF := expStep_pres n .objectProp hF
          have hwf2 : TokensWF st2.tokens := by rw [frF.2.1]; exact hwf1
          have hub2 : TokUB st2 startTok.start := tokUB_transport hub1 frF.2.1 frF.2.2.2
          have hl : spannedListB [first] = true := by simp [spannedListB, coreF.1]
          exact ih (.objectProps startTok [first]) st2 st' nd hwf2 ⟨hub2, hl⟩ h4
        · rw [if_neg hne] at h3
          exact ih (.objectFinish startTok []) st1 st' nd hwf1 ⟨hub1, rfl⟩ h3
    case objectProps startTok props =>
      intro st st' nd hwf hpre h
      obtain ⟨hub, hprops⟩ := hpre
      simp only [expStep] at h
      obtain ⟨st1, a, hP, h2⟩ := M_bind_ok h
      obtain ⟨h1eq, ha⟩ := peek_ok hP
      subst st1
      rcases a with _ | t
      · exact ih (.objectFinish startTok props) st st' nd hwf ⟨hub, hprops⟩ h2
      · dsimp only at h2
        by_cases htv : t.value = ","
        · rw [if_pos htv] at h2
          obtain ⟨st2, u2, hAdv, h3⟩ := M_bind_ok h2
          have hst2 : st2 = nextTokSt st := advance_ok hAdv
          have htr : st2.tokens = st.tokens := by rw [hst2]; exact nextTokSt_tokens st
          have hpos2 : st.position ≤ st2.position := by rw [hst2]; exact nextTokSt_pos_ge st
          have hwf2 : TokensWF st2.tokens := by rw [htr]; exact hwf
          obtain ⟨st3, p1, hE, h4⟩ := M_bind_ok h3
          obtain ⟨⟨tk3, htk3⟩, sE, coreE, lbE⟩ := ih .objectProp st2 st3 p1 hwf2 trivial hE
          have frE := expStep_pres n .objectProp hE
          have hwf3 : TokensWF st3.tokens := by rw [frE.2.1]; exact hwf2
          have hub3 : TokUB st3 startTok.start :=
            tokUB_transport (tokUB_transport hub htr hpos2) frE.2.1 frE.2.2.2
          have hprops3 : spannedListB (props ++ [p1]) = true := by
            rw [spannedListB_append]
            simp [hprops, coreE.1]
          exact ih (.objectProps startTok (props ++ [p1])) st3 st' nd hwf3 ⟨hub3, hprops3⟩ h4
        · rw [if_neg htv] at h2
          exact ih (.objectFinish startTok props) st st' nd hwf ⟨hub, hprops⟩ h2
    case objectFinish startTok props =>
      intro st st' nd hwf hpre h
      obtain ⟨hub, hprops⟩ := hpre
      simp only [expStep] at h
      obtain ⟨st1, endTok, hX, h2⟩ := M_bind_ok h
      obtain ⟨h1eq, hcur1, hp1⟩ := expect_ok hX
      subst st1
      obtain ⟨st2, u2, hAdv, h3⟩ := M_bind_ok h2
      have hst2 : st2 = nextTokSt st := advance_ok hAdv
      obtain ⟨rfl3, hnd⟩ := pure_ok_inv h3
      subst rfl3
      subst hnd
      have h1 : startTok.start ≤ endTok.start := hub st.position endTok (le_refl _) hcur1
      have h2s : startTok.start ≤ endTok.stop :=
        le_trans h1 (tokensWF_start_le_stop hwf hcur1)
      refine ⟨?_, rfl, ⟨endTok.stop, rfl, h2s⟩, ?_⟩
      · simp [spannedB, h2s, hprops]
      · rw [hst2]
        exact tokUB_transport hub (nextTokSt_tokens st) (nextTokSt_pos_ge st)
    case objectProp =>
      intro st st' nd hwf _ h
      simp only [expStep] at h
      obtain ⟨st1, key, hX, h2⟩ := M_bind_ok h
      obtain ⟨h1eq, hcurK, hpK⟩ := expect_ok hX
      subst st1
      obtain ⟨st2, u2, hAdv, h3⟩ := M_bind_ok h2
      have hst2 : st2 = nextTokSt st := advance_ok hAdv
      have htr2 : st2.tokens = st.tokens := by rw [hst2]; exact nextTokSt_tokens st
      have hpos2 : st.position ≤ st2.position := by rw [hst2]; exact nextTokSt_pos_ge st
      obtain ⟨st3, colonTok, hX2, h4⟩ := M_bind_ok h3
      obtain ⟨h3eq, hcurC, hpC⟩ := expect_ok hX2
      subst st3
      obtain ⟨st4, u4, hAdv2, h5⟩ := M_bind_ok h4
      have hst4 : st4 = nextTokSt st2 := advance_ok hAdv2
      have htr4 : st4.tokens = st.tokens := by
        rw [hst4, nextTokSt_tokens]
        exact htr2
      have hpos4 : st.position ≤ st4.position := by
        rw [hst4]
        exact le_trans hpos2 (nextTokSt_pos_ge st2)
      have hwf4 : TokensWF st4.tokens := by rw [htr4]; exact hwf
      obtain ⟨st5, value, hV, h6⟩ := M_bind_ok h5
      obtain ⟨⟨tk4, htk4⟩, sV, coreV, lbV⟩ := ih .logicalOr st4 st5 value hwf4 trivial hV
      obtain ⟨spV, hstV, ⟨enV, hstoV, hseV⟩, hubV⟩ := coreV
      obtain ⟨rfl6, hnd⟩ := pure_ok_inv h6
      subst rfl6
      subst hnd
      have htk4' : st.tokens.get? st4.position = some tk4 := by
        rw [← htr4]; exact htk4
      have hk_tk4 : key.start ≤ tk4.start := tokensWF_get_mono hwf hpos4 hcurK htk4'
      have hk_sV : key.start ≤ sV := le_trans hk_tk4 (lbV tk4 htk4)
      have hk_stop : key.start ≤ stopOf value := by
        rw [stopOf_eq hstoV]
        exact le_trans hk_sV hseV
      refine ⟨⟨key, hcurK⟩, key.start,
        ⟨?_, rfl, ⟨stopOf value, rfl, hk_stop⟩, tokUB_of_le_val hubV hk_sV⟩, ?_⟩
      · simp only [spannedB]
        simp [spV, hk_stop]
      · intro tk htkc
        rw [hcurK] at htkc
        cases htkc
        exact le_refl _

/-- Span property of a statement-level result. -/
def StRetSpanned : StRet → Prop
  | .one none => True
  | .one (some nd) => spannedB nd = true
  | .many l => spannedListB l = true

theorem stRetNode_spanned {r : StRet} (h : StRetSpanned r) :
    spannedB (stRetNode r) = true := by
  cases r with
  | one s =>
    cases s with
    | none => simp [stRetNode, spannedB, spannedOptsB]
    | some nd => exact h
  | many l => simp [stRetNode, spannedB, spannedOptsB]

theorem stRetOpt_spanned {r : StRet} (h : StRetSpanned r) :
    spannedOptB (stRetOpt r) = true := by
  cases r with
  | one s =>
    cases s with
    | none => simp [stRetOpt, spannedOptB]
    | some nd => exact h
  | many l => simp [stRetOpt, spannedOptB]

theorem stRetPush_spanned {r : StRet} {acc : List Node}
    (hacc : spannedListB acc = true) (h : StRetSpanned r) :
    spannedListB (acc ++ stRetPush r) = true := by
  cases r with
  | one s =>
    cases s with
    | none => simpa [stRetPush] using hacc
    | some nd =>
      have h' : spannedB nd = true := h
      rw [show stRetPush (.one (some nd)) = [nd] from rfl, spannedListB_append]
      simp [hacc, h']
  | many l => simpa [stRetPush] using hacc

theorem spannedOptsB_map_some {l : List Node} (h : spannedListB l = true) :
    spannedOptsB (l.map some) = true := by
  induction l with
  | nil => simp [spannedOptsB]
  | cons x xs ih =>
    simp only [spannedListB, Bool.and_eq_true] at h
    simp only [List.map, spannedOptsB, spannedOptB, Bool.and_eq_true]
    exact ⟨h.1, ih h.2⟩

theorem expEntryPost_toNodePre {st st' : PSt} {nd : Node}
    (h : ExpEntryPost st st' nd) : ExpNodePre st' nd := by
  obtain ⟨_, s, ⟨hsp, hstart, hstop, hub⟩, _⟩ := h
  exact ⟨hsp, s, hstart, hstop, hub⟩

/-- Span property of the shared semicolon tail of
`parseExpressionStatement`. -/
theorem exprStmtFinish_span {expr : Node} {st st' : PSt} {r : StRet}
    (hpre : ExpNodePre st expr)
    (h : exprStmtFinish expr st = some (st', .ok r)) : StRetSpanned r := by
  obtain ⟨hsp, s, hstart, ⟨en, hstop, hsen⟩, hub⟩ := hpre
  simp only [exprStmtFinish] at h
  obtain ⟨st1, a, hP, h2⟩ := M_bind_ok h
  obtain ⟨h1eq, ha⟩ := peek_ok hP
  subst st1
  rcases a with _ | t
  · obtain ⟨st2, inp, hI, h3⟩ := M_bind_ok h2
    obtain ⟨h2eq, hinp⟩ := getInput_inv hI
    subst st2
    obtain ⟨st3, u3, hRec, h4⟩ := M_bind_ok h3
    obtain ⟨h4eq, hnd⟩ := pure_ok_inv h4
    subst hnd
    show spannedB (.exprStmt expr (startOf expr) (stopOf expr)) = true
    simp only [spannedB]
    rw [startOf_eq hstart, stopOf_eq hstop]
    simp [hsp, hsen]
  · dsimp only at h2
    by_cases htv : t.value = ";"
    · rw [if_pos htv] at h2
      obtain ⟨st2, u2, hAdv, h3⟩ := M_bind_ok h2
      have hst2 : st2 = nextTokSt st := advance_ok hAdv
      obtain ⟨st3, after, hP2, h4⟩ := M_bind_ok h3
      obtain ⟨h3eq, hafter⟩ := peek_ok hP2
      subst st3
      obtain ⟨h4eq, hnd⟩ := pure_ok_inv h4
      subst hnd
      revert hafter
      rcases after with _ | u <;> intro hafter
      · show spannedB (.exprStmt expr (startOf expr) (stopOf expr + 1)) = true
        simp only [spannedB]
        rw [startOf_eq hstart, stopOf_eq hstop]
        simp only [Bool.and_eq_true, decide_eq_true_eq]
        exact ⟨le_trans hsen (Nat.le_succ en), hsp⟩
      · have hsu : s ≤ u.start := by
          refine hub st2.position u ?_ ?_
          · rw [hst2]; exact nextTokSt_pos_ge st
          · have htr : st2.tokens = st.tokens := by
              rw [hst2]; exact nextTokSt_tokens st
            rw [← htr]
            exact hafter.symm
        show spannedB (.exprStmt expr (startOf expr) u.start) = true
        simp only [spannedB]
        rw [startOf_eq hstart]
        simp [hsp, hsu]
    · rw [if_neg htv] at h2
      obtain ⟨st2, inp, hI, h3⟩ := M_bind_ok h2
      obtain ⟨h2eq, hinp⟩ := getInput_inv hI
      subst st2
      obtain ⟨st3, u3, hRec, h4⟩ := M_bind_ok h3
      obtain ⟨h4eq, hnd⟩ := pure_ok_inv h4
      subst hnd
      show spannedB (.exprStmt expr (startOf expr) (stopOf expr)) = true
      simp only [spannedB]
      rw [startOf_eq hstart, stopOf_eq hstop]
      simp [hsp, hsen]

/-- Precondition of the statement-level span invariant. -/
def StPre : StCall → PSt → Prop
  | .program acc, _ => spannedListB acc = true
  | .blockLoop acc, _ => spannedListB acc = true
  | .assignStmt left, st => ExpNodePre st left
  | _, _ => True

theorem hasMore_ok {st st1 : PSt} {b : Bool}
    (h : hasMore st = some (st1, .ok b)) :
    st1 = st ∧ b = decide (st.position < st.tokens.length) := by
  cases h.symm; exact ⟨rfl, rfl⟩

theorem doSkip_ok {st st1 : PSt} {a : Unit}
    (h : doSkip st = some (st1, .ok a)) : st1 = skipToNextStatement st := by
  cases h.symm; rfl

theorem recordErr_ok {m : String} {x y : Nat} {st st1 : PSt} {a : Unit}
    (h : recordErr m x y st = some (st1, .ok a)) : st1 = addErrorSt st m x y := by
  cases h.symm; rfl


/-- The span invariant of the statement parser: every statement (or statement
list) a successful call returns is well-spanned. -/
theorem stStep_span : ∀ (f : Nat) (c : StCall) (st st' : PSt) (r : StRet),
    TokensWF st.tokens → StPre c st →
    stStep f c st = some (st', .ok r) → StRetSpanned r := by
  intro f
  induction f with
  | zero =>
    intro c st st' r _ _ h
    simp only [stStep] at h
    exact Option.noConfusion h
  | succ n ih =>
    intro c
    cases c
    case program acc =>
      intro st st' r hwf hpre h
      have hacc : spannedListB acc = true := hpre
      simp only [stStep] at h
      obtain ⟨st1, b, hH, h2⟩ := M_bind_ok h
      obtain ⟨h1eq, hb⟩ := hasMore_ok hH
      subst st1
      cases b
      · rw [if_neg Bool.false_ne_true] at h2
        obtain ⟨h2eq, hnd⟩ := pure_ok_inv h2
        subst hnd
        exact hacc
      · rw [if_pos rfl] at h2
        obtain ⟨st2, r1, hS, h3⟩ := M_bind_ok h2
        have hsp1 := ih .statement st st2 r1 hwf trivial hS
        have frS := stStep_presW n .statement hS
        have hwf2 : TokensWF st2.tokens := by rw [frS.2.1]; exact hwf
        exact ih (.program (acc ++ stRetPush r1)) st2 st' r hwf2
          (stRetPush_spanned hacc hsp1) h3
    case statement =>
      intro st st' r hwf _ h
      simp only [stStep] at h
      split at h
      · cases h.symm
        trivial
      · rename_i tok heq
        split at h
        · exact Option.noConfusion h
        · rename_i st1 r2 hs
          cases h.symm
          exact ih (.stmtTry tok) _ _ _ hwf trivial hs
        · rename_i st1 e hs
          cases h.symm
          trivial
    case stmtTry tok =>
      intro st st' r hwf _ h
      simp only [stStep] at h
      by_cases c1 : tok.value = "var"
      · rw [if_pos c1] at h
        exact ih .varDecl st st' r hwf trivial h
      rw [if_neg c1] at h
      by_cases c2 : tok.value = "if"
      · rw [if_pos c2] at h
        exact ih .ifStmt st st' r hwf trivial h
      rw [if_neg c2] at h
      by_cases c3 : tok.value = "while"
      · rw [if_pos c3] at h
        exact ih .whileStmt st st' r hwf trivial h
      rw [if_neg c3] at h
      by_cases c4 : tok.value = "for"
      · rw [if_pos c4] at h
        exact ih .forStmt st st' r hwf trivial h
      rw [if_neg c4] at h
      by_cases c5 : tok.value = "fun"
      · rw [if_pos c5] at h
        exact ih .funDecl st st' r hwf trivial h
      rw [if_neg c5] at h
      by_cases c6 : tok.value = "class"
      · rw [if_pos c6] at h
        exact ih .classDecl st st' r hwf trivial h
      rw [if_neg c6] at h
      by_cases c7 : tok.value = "return"
      · rw [if_pos c7] at h
        exact ih .returnStmt st st' r hwf trivial h
      rw [if_neg c7] at h
      by_cases c8 : tok.type = TokType.IDENTIFIER
      · rw [if_pos c8] at h
        exact ih .exprStmt st st' r hwf trivial h
      rw [if_neg c8] at h
      obtain ⟨st1, u1, hSk, h2⟩ := M_bind_ok h
      obtain ⟨h2eq, hnd⟩ := pure_ok_inv h2
      subst hnd
      trivial
    case varDecl =>
      intro st st' r hwf _ h
      have frAll := stStep_presW (n + 1) .varDecl h
      simp only [stStep] at h
      obtain ⟨st0, a0, hP0, h1⟩ := M_bind_ok h
      obtain ⟨h0eq, ha0⟩ := peek_ok hP0
      subst st0
      rcases a0 with _ | startToken
      · dsimp only at h1
        exact (throw_not_ok h1).elim
      · dsimp only at h1
        have hcur0 : currentToken st = some startToken := ha0.symm
        obtain ⟨stA, u1, hAdv1, h2⟩ := M_bind_ok h1
        have hstA : stA = nextTokSt st := advance_ok hAdv1
        have htokA : stA.tokens = st.tokens := by rw [hstA]; exact nextTokSt_tokens st
        have hposA : st.position ≤ stA.position := by rw [hstA]; exact nextTokSt_pos_ge st
        obtain ⟨stB, dtOpt, hDt, h3⟩ := M_bind_ok h2
        have hdtFacts : stB.tokens = stA.tokens ∧ stA.position ≤ stB.position := by
          obtain ⟨stA1, aD, hPd, hDt2⟩ := M_bind_ok hDt
          obtain ⟨hA1eq, haD⟩ := peek_ok hPd
          subst stA1
          rcases aD with _ | tD
          · dsimp only at hDt2
            obtain ⟨hBeq, _⟩ := pure_ok_inv hDt2
            rw [hBeq]
            exact ⟨rfl, le_refl _⟩
          · dsimp only at hDt2
            by_cases hk : isTypeKeyword tD.value = true
            · rw [if_pos hk] at hDt2
              obtain ⟨stA2, uD, hAdvD, hDt3⟩ := M_bind_ok hDt2
              have hA2 : stA2 = nextTokSt stA := advance_ok hAdvD
              obtain ⟨hBeq, _⟩ := pure_ok_inv hDt3
              rw [hBeq, hA2]
              exact ⟨nextTokSt_tokens stA, nextTokSt_pos_ge stA⟩
            · rw [if_neg hk] at hDt2
              obtain ⟨hBeq, _⟩ := pure_ok_inv hDt2
              rw [hBeq]
              exact ⟨rfl, le_refl _⟩
        have htokB : stB.tokens = st.tokens := hdtFacts.1.trans htokA
        have hposB : st.position ≤ stB.position := le_trans hposA hdtFacts.2
        obtain ⟨stB1, nameTok, hXN, h4⟩ := M_bind_ok h3
        obtain ⟨hB1eq, hcurN, _⟩ := expect_ok hXN
        subst stB1
        have hsn : startToken.start ≤ nameTok.start := by
          refine tokensWF_get_mono hwf hposB hcur0 ?_
          rw [← htokB]
          exact hcurN
        have hnn : nameTok.start ≤ nameTok.stop := by
          have hwfB : TokensWF stB.tokens := by rw [htokB]; exact hwf
          exact tokensWF_start_le_stop hwfB hcurN
        have hsstop : startToken.start ≤ nameTok.stop := le_trans hsn hnn
        obtain ⟨stC, u2, hAdv2, h5⟩ := M_bind_ok h4
        have hstC : stC = nextTokSt stB := advance_ok hAdv2
        have htokC : stC.tokens = st.tokens := by
          rw [hstC, nextTokSt_tokens]
          exact htokB
        obtain ⟨stD, init, hInit, h6⟩ := M_bind_ok h5
        have hinitSp : spannedOptB init = true := by
          obtain ⟨stC1, aI, hPi, hIn2⟩ := M_bind_ok hInit
          obtain ⟨hC1eq, haI⟩ := peek_ok hPi
          subst stC1
          rcases aI with _ | tI
          · dsimp only at hIn2
            obtain ⟨_, hval⟩ := pure_ok_inv hIn2
            subst hval
            rfl
          · dsimp only at hIn2
            by_cases he : tI.value = "="
            · rw [if_pos he] at hIn2
              obtain ⟨stC2, uI, hAdvI, hIn3⟩ := M_bind_ok hIn2
              have hC2 : stC2 = nextTokSt stC := advance_ok hAdvI
              have hwfC2 : TokensWF stC2.tokens := by
                rw [hC2, nextTokSt_tokens, htokC]
                exact hwf
              obtain ⟨stC3, e1, hE1, hIn4⟩ := M_bind_ok hIn3
              have postE := expStep_span n .logicalOr stC2 stC3 e1 hwfC2 trivial hE1
              obtain ⟨_, sE, coreE, _⟩ := postE
              obtain ⟨_, hval⟩ := pure_ok_inv hIn4
              subst hval
              simpa [spannedOptB] using coreE.1
            · rw [if_neg he] at hIn2
              obtain ⟨_, hval⟩ := pure_ok_inv hIn2
              subst hval
              rfl
        obtain ⟨stD1, aF, hPf, h7⟩ := M_bind_ok h6
        obtain ⟨hD1eq, haF⟩ := peek_ok hPf
        subst stD1
        rcases aF with _ | tF
        · dsimp only at h7
          obtain ⟨stE, inp, hI2, h8⟩ := M_bind_ok h7
          obtain ⟨hEeq, _⟩ := getInput_inv hI2
          subst stE
          obtain ⟨stF, u8, hRec, h9⟩ := M_bind_ok h8
          obtain ⟨hFeq, hnd⟩ := pure_ok_inv h9
          subst hnd
          show spannedB (.varDecl dtOpt nameTok.value init startToken.start
            nameTok.stop) = true
          simp [spannedB, hsstop, hinitSp]
        · dsimp only at h7
          by_cases hsemi : tF.value = ";"
          · rw [if_pos hsemi] at h7
            obtain ⟨stE, u5, hAdv3, h8⟩ := M_bind_ok h7
            have hstE : stE = nextTokSt stD := advance_ok hAdv3
            obtain ⟨stF, after, hPA, h9⟩ := M_bind_ok h8
            obtain ⟨hFeq, hafter⟩ := peek_ok hPA
            subst stF
            obtain ⟨hGeq, hnd⟩ := pure_ok_inv h9
            subst hnd
            subst hGeq
            revert hafter
            rcases after with _ | u <;> intro hafter
            · show spannedB (.varDecl dtOpt nameTok.value init startToken.start
                (nameTok.stop + 1)) = true
              simp [spannedB, le_trans hsstop (Nat.le_succ _), hinitSp]
            · have hcurU : currentToken st' = some u := hafter.symm
              have hsu : startToken.start ≤ u.start := by
                refine tokensWF_get_mono hwf frAll.2.2.1 hcur0 ?_
                rw [← frAll.2.1]
                exact hcurU
              show spannedB (.varDecl dtOpt nameTok.value init startToken.start
                u.start) = true
              simp [spannedB, hsu, hinitSp]
          · rw [if_neg hsemi] at h7
            obtain ⟨stE, inp, hI2, h8⟩ := M_bind_ok h7
            obtain ⟨hEeq, _⟩ := getInput_inv hI2
            subst stE
            obtain ⟨stF, u8, hRec, h9⟩ := M_bind_ok h8
            obtain ⟨hFeq, hnd⟩ := pure_ok_inv h9
            subst hnd
            show spannedB (.varDecl dtOpt nameTok.value init startToken.start
              nameTok.stop) = true
            simp [spannedB, hsstop, hinitSp]
    case ifStmt =>
      intro st st' r hwf _ h
      have frAll := stStep_presW (n + 1) .ifStmt h
      simp only [stStep] at h
      obtain ⟨st0, a0, hP0, h1⟩ := M_bind_ok h
      obtain ⟨h0eq, ha0⟩ := peek_ok hP0
      subst st0
      rcases a0 with _ | startToken
      · dsimp only at h1
        exact (throw_not_ok h1).elim
      · dsimp only at h1
        have hcur0 : currentToken st = some startToken := ha0.symm
        obtain ⟨stA, u1, hAdv1, h2⟩ := M_bind_ok h1
        have hstA : stA = nextTokSt st := advance_ok hAdv1
        obtain ⟨stA2, tokO, hX1, h3⟩ := M_bind_ok h2
        obtain ⟨hA2eq, _, _⟩ := expect_ok hX1
        subst stA2
        obtain ⟨stB, u2, hAdv2, h4⟩ := M_bind_ok h3
        have hstB : stB = nextTokSt stA := advance_ok hAdv2
        have htokB : stB.tokens = st.tokens := by
          rw [hstB, nextTokSt_tokens, hstA]
          exact nextTokSt_tokens st
        have hwfB : TokensWF stB.tokens := by rw [htokB]; exact hwf
        obtain ⟨stC, test, hT, h5⟩ := M_bind_ok h4
        have postT := expStep_span n .logicalOr stB stC test hwfB trivial hT
        obtain ⟨_, sT, coreT, _⟩ := postT
        have spT : spannedB test = true := coreT.1
        have frT := expStep_pres n .logicalOr hT
        have htokC : stC.tokens = st.tokens := frT.2.1.trans htokB
        obtain ⟨stC2, tokC, hX2, h6⟩ := M_bind_ok h5
        obtain ⟨hC2eq, _, _⟩ := expect_ok hX2
        subst stC2
        obtain ⟨stD, u3, hAdv3, h7⟩ := M_bind_ok h6
        have hstD : stD = nextTokSt stC := advance_ok hAdv3
        have htokD : stD.tokens = st.tokens := by
          rw [hstD, nextTokSt_tokens]
          exact htokC
        have hwfD : TokensWF stD.tokens := by rw [htokD]; exact hwf
        obtain ⟨stE, consequentR, hC, h8⟩ := M_bind_ok h7
        have spC := ih .blockStmt stD stE consequentR hwfD trivial hC
        have htokE : stE.tokens = st.tokens :=
          (stStep_presW n .blockStmt hC).2.1.trans htokD
        obtain ⟨stF, alternate, hA, h9⟩ := M_bind_ok h8
        have haltSp : spannedOptB alternate = true := by
          obtain ⟨stE1, a5, hP5, hA2⟩ := M_bind_ok hA
          obtain ⟨hE1eq, ha5⟩ := peek_ok hP5
          subst stE1
          rcases a5 with _ | t5
          · dsimp only at hA2
            obtain ⟨_, hnone⟩ := pure_ok_inv hA2
            subst hnone
            rfl
          · dsimp only at hA2
            by_cases hel : t5.value = "else"
            · rw [if_pos hel] at hA2
              obtain ⟨stE2, ub, hAdvb, hA3⟩ := M_bind_ok hA2
              have hstE2 : stE2 = nextTokSt stE := advance_ok hAdvb
              have hwfE2 : TokensWF stE2.tokens := by
                rw [hstE2, nextTokSt_tokens, htokE]
                exact hwf
              obtain ⟨stE3, a5c, hP5c, hA4⟩ := M_bind_ok hA3
              obtain ⟨hE3eq, ha5c⟩ := peek_ok hP5c
              subst stE3
              rcases a5c with _ | t5c
              · dsimp only at hA4
                obtain ⟨stE4, ra, hSa, hA5⟩ := M_bind_ok hA4
                have spA := ih .blockStmt stE2 stE4 ra hwfE2 trivial hSa
                obtain ⟨_, hsomeEq⟩ := pure_ok_inv hA5
                subst hsomeEq
                simpa [spannedOptB] using stRetNode_spanned spA
              · dsimp only at hA4
                by_cases hifk : t5c.value = "if"
                · rw [if_pos hifk] at hA4
                  obtain ⟨stE4, ra, hSa, hA5⟩ := M_bind_ok hA4
                  have spA := ih .ifStmt stE2 stE4 ra hwfE2 trivial hSa
                  obtain ⟨_, hsomeEq⟩ := pure_ok_inv hA5
                  subst hsomeEq
                  simpa [spannedOptB] using stRetNode_spanned spA
                · rw [if_neg hifk] at hA4
                  obtain ⟨stE4, ra, hSa, hA5⟩ := M_bind_ok hA4
                  have spA := ih .blockStmt stE2 stE4 ra hwfE2 trivial hSa
                  obtain ⟨_, hsomeEq⟩ := pure_ok_inv hA5
                  subst hsomeEq
                  simpa [spannedOptB] using stRetNode_spanned spA
            · rw [if_neg hel] at hA2
              obtain ⟨_, hnone⟩ := pure_ok_inv hA2
              subst hnone
              rfl
        obtain ⟨stG, after, hPA, h10⟩ := M_bind_ok h9
        obtain ⟨hGeq, hafter⟩ := peek_ok hPA
        subst stG
        obtain ⟨hHeq, hnd⟩ := pure_ok_inv h10
        subst hnd
        subst hHeq
        revert hafter
        rcases after with _ | u <;> intro hafter
        · show spannedB (.ifStmt test (stRetNode consequentR) alternate
            startToken.start startToken.stop) = true
          have hss : startToken.start ≤ startToken.stop :=
            tokensWF_start_le_stop hwf hcur0
          simp [spannedB, hss, spT, stRetNode_spanned spC, haltSp]
        · have hcurU : currentToken st' = some u := hafter.symm
          have hsu : startToken.start ≤ u.stop := by
            have h1 : startToken.start ≤ u.start := by
              refine tokensWF_get_mono hwf frAll.2.2.1 hcur0 ?_
              rw [← frAll.2.1]
              exact hcurU
            have hwfF : TokensWF st'.tokens := by rw [frAll.2.1]; exact hwf
            exact le_trans h1 (tokensWF_start_le_stop hwfF hcurU)
          show spannedB (.ifStmt test (stRetNode consequentR) alternate
            startToken.start u.stop) = true
          simp [spannedB, hsu, spT, stRetNode_spanned spC, haltSp]
    case whileStmt =>
      intro st st' r hwf _ h
      have frAll := stStep_presW (n + 1) .whileStmt h
      simp only [stStep] at h
      obtain ⟨st0, a0, hP0, h1⟩ := M_bind_ok h
      obtain ⟨h0eq, ha0⟩ := peek_ok hP0
      subst st0
      rcases a0 with _ | startToken
      · dsimp only at h1
        exact (throw_not_ok h1).elim
      · dsimp only at h1
        have hcur0 : currentToken st = some startToken := ha0.symm
        obtain ⟨stA, u1, hAdv1, h2⟩ := M_bind_ok h1
        have hstA : stA = nextTokSt st := advance_ok hAdv1
        obtain ⟨stA2, tokO, hX1, h3⟩ := M_bind_ok h2
        obtain ⟨hA2eq, _, _⟩ := expect_ok hX1
        subst stA2
        obtain ⟨stB, u2, hAdv2, h4⟩ := M_bind_ok h3
        have hstB : stB = nextTokSt stA := advance_ok hAdv2
        have htokB : stB.tokens = st.tokens := by
          rw [hstB, nextTokSt_tokens, hstA]
          exact nextTokSt_tokens st
        have hwfB : TokensWF stB.tokens := by rw [htokB]; exact hwf
        obtain ⟨stC, test, hT, h5⟩ := M_bind_ok h4
        have postT := expStep_span n .logicalOr stB stC test hwfB trivial hT
        obtain ⟨_, sT, coreT, _⟩ := postT
        have spT : spannedB test = true := coreT.1
        have frT := expStep_pres n .logicalOr hT
        have htokC : stC.tokens = st.tokens := frT.2.1.trans htokB
        obtain ⟨stC2, tokC, hX2, h6⟩ := M_bind_ok h5
        obtain ⟨hC2eq, _, _⟩ := expect_ok hX2
        subst stC2
        obtain ⟨stD, u3, hAdv3, h7⟩ := M_bind_ok h6
        have hstD : stD = nextTokSt stC := advance_ok hAdv3
        have htokD : stD.tokens = st.tokens := by
          rw [hstD, nextTokSt_tokens]
          exact htokC
        have hwfD : TokensWF stD.tokens := by rw [htokD]; exact hwf
        obtain ⟨stE, bodyR, hB, h8⟩ := M_bind_ok h7
        have spB := ih .blockStmt stD stE bodyR hwfD trivial hB
        obtain ⟨stF, after, hPA, h9⟩ := M_bind_ok h8
        obtain ⟨hFeq, hafter⟩ := peek_ok hPA
        subst stF
        obtain ⟨hGeq, hnd⟩ := pure_ok_inv h9
        subst hnd
        subst hGeq
        revert hafter
        rcases after with _ | u <;> intro hafter
        · show spannedB (.whileStmt test (stRetNode bodyR) startToken.start
            startToken.stop) = true
          have hss : startToken.start ≤ startToken.stop :=
            tokensWF_start_le_stop hwf hcur0
          simp [spannedB, hss, spT, stRetNode_spanned spB]
        · have hcurU : currentToken st' = some u := hafter.symm
          have hsu : startToken.start ≤ u.stop := by
            have h1 : startToken.start ≤ u.start := by
              refine tokensWF_get_mono hwf frAll.2.2.1 hcur0 ?_
              rw [← frAll.2.1]
              exact hcurU
            have hwfE : TokensWF st'.tokens := by rw [frAll.2.1]; exact hwf
            exact le_trans h1 (tokensWF_start_le_stop hwfE hcurU)
          show spannedB (.whileStmt test (stRetNode bodyR) startToken.start
            u.stop) = true
          simp [spannedB, hsu, spT, stRetNode_spanned spB]
    case forStmt =>
      intro st st' r hwf _ h
      have frAll := stStep_presW (n + 1) .forStmt h
      simp only [stStep] at h
      obtain ⟨st0, a0, hP0, h1⟩ := M_bind_ok h
      obtain ⟨h0eq, ha0⟩ := peek_ok hP0
      subst st0
      rcases a0 with _ | startToken
      · dsimp only at h1
        exact (throw_not_ok h1).elim
      · dsimp only at h1
        have hcur0 : currentToken st = some startToken := ha0.symm
        obtain ⟨stA, u1, hAdv1, h2⟩ := M_bind_ok h1
        have hstA : stA = nextTokSt st := advance_ok hAdv1
        obtain ⟨stA2, tokO, hX1, h3⟩ := M_bind_ok h2
        obtain ⟨hA2eq, _, _⟩ := expect_ok hX1
        subst stA2
        obtain ⟨stB, u2, hAdv2, h4⟩ := M_bind_ok h3
        have hstB : stB = nextTokSt stA := advance_ok hAdv2
        have htokB : stB.tokens = st.tokens := by
          rw [hstB, nextTokSt_tokens, hstA]
          exact nextTokSt_tokens st
        have hwfB : TokensWF stB.tokens := by rw [htokB]; exact hwf
        obtain ⟨stB1, t0, hT0, h5⟩ := M_bind_ok h4
        obtain ⟨hB1eq, _⟩ := currentTokOrValueThrow_ok hT0
        subst stB1
        obtain ⟨stC, init, hI, h6⟩ := M_bind_ok h5
        have hinitFacts : spannedOptB init = true ∧ stC.tokens = stB.tokens := by
          by_cases hne : t0.value ≠ ";"
          · rw [if_pos hne] at hI
            by_cases hvar : t0.value = "var"
            · rw [if_pos hvar] at hI
              obtain ⟨stB2, rv, hV, hI2⟩ := M_bind_ok hI
              have spV := ih .varDecl stB stB2 rv hwfB trivial hV
              obtain ⟨hCeq, hival⟩ := pure_ok_inv hI2
              subst hival
              refine ⟨by simpa [spannedOptB] using stRetNode_spanned spV, ?_⟩
              rw [hCeq]
              exact (stStep_presW n .varDecl hV).2.1
            · rw [if_neg hvar] at hI
              obtain ⟨stB2, e1, hE1, hI2⟩ := M_bind_ok hI
              have postE := expStep_span n .logicalOr stB stB2 e1 hwfB trivial hE1
              obtain ⟨_, sE, coreE, _⟩ := postE
              obtain ⟨hCeq, hival⟩ := pure_ok_inv hI2
              subst hival
              refine ⟨by simpa [spannedOptB] using coreE.1, ?_⟩
              rw [hCeq]
              exact (expStep_pres n .logicalOr hE1).2.1
          · rw [if_neg hne] at hI
            obtain ⟨hCeq, hival⟩ := pure_ok_inv hI
            subst hival
            exact ⟨rfl, by rw [hCeq]⟩
        have htokC : stC.tokens = st.tokens := hinitFacts.2.trans htokB
        obtain ⟨stC2, tokS1, hX2, h7⟩ := M_bind_ok h6
        obtain ⟨hC2eq, _, _⟩ := expect_ok hX2
        subst stC2
        obtain ⟨stD, u3, hAdv3, h8⟩ := M_bind_ok h7
        have hstD : stD = nextTokSt stC := advance_ok hAdv3
        have htokD : stD.tokens = st.tokens := by
          rw [hstD, nextTokSt_tokens]
          exact htokC
        have hwfD : TokensWF stD.tokens := by rw [htokD]; exact hwf
        obtain ⟨stD1, t1, hT1, h9⟩ := M_bind_ok h8
        obtain ⟨hD1eq, _⟩ := currentTokOrValueThrow_ok hT1
        subst stD1
        obtain ⟨stE, test, hTe, h10⟩ := M_bind_ok h9
        have htestFacts : spannedOptB test = true ∧ stE.tokens = stD.tokens := by
          by_cases hne1 : t1.value ≠ ";"
          · rw [if_pos hne1] at hTe
            obtain ⟨stD2, e1, hE1, hTe2⟩ := M_bind_ok hTe
            have postE := expStep_span n .logicalOr stD stD2 e1 hwfD trivial hE1
            obtain ⟨_, sE, coreE, _⟩ := postE
            obtain ⟨hEeq, hval⟩ := pure_ok_inv hTe2
            subst hval
            refine ⟨by simpa [spannedOptB] using coreE.1, ?_⟩
            rw [hEeq]
            exact (expStep_pres n .logicalOr hE1).2.1
          · rw [if_neg hne1] at hTe
            obtain ⟨hEeq, hval⟩ := pure_ok_inv hTe
            subst hval
            exact ⟨rfl, by rw [hEeq]⟩
        have htokE : stE.tokens = st.tokens := htestFacts.2.trans htokD
        obtain ⟨stE2, tokS2, hX3, h11⟩ := M_bind_ok h10
        obtain ⟨hE2eq, _, _⟩ := expect_ok hX3
        subst stE2
        obtain ⟨stF, u4, hAdv4, h12⟩ := M_bind_ok h11
        have hstF : stF = nextTokSt stE := advance_ok hAdv4
        have htokF : stF.tokens = st.tokens := by
          rw [hstF, nextTokSt_tokens]
          exact htokE
        have hwfF : TokensWF stF.tokens := by rw [htokF]; exact hwf
        obtain ⟨stF1, t2, hT2, h13⟩ := M_bind_ok h12
        obtain ⟨hF1eq, _⟩ := currentTokOrValueThrow_ok hT2
        subst stF1
        obtain ⟨stG, update, hU, h14⟩ := M_bind_ok h13
        have hupdFacts : spannedOptB update = true ∧ stG.tokens = stF.tokens := by
          by_cases hne2 : t2.value ≠ ")"
          · rw [if_pos hne2] at hU
            obtain ⟨stF2, e1, hE1, hU2⟩ := M_bind_ok hU
            have postE := expStep_span n .logicalOr stF stF2 e1 hwfF trivial hE1
            obtain ⟨_, sE, coreE, _⟩ := postE
            obtain ⟨hGeq, hval⟩ := pure_ok_inv hU2
            subst hval
            refine ⟨by simpa [spannedOptB] using coreE.1, ?_⟩
            rw [hGeq]
            exact (expStep_pres n .logicalOr hE1).2.1
          · rw [if_neg hne2] at hU
            obtain ⟨hGeq, hval⟩ := pure_ok_inv hU
            subst hval
            exact ⟨rfl, by rw [hGeq]⟩
        have htokG : stG.tokens = st.tokens := hupdFacts.2.trans htokF
        obtain ⟨stG2, tokC2, hX4, h15⟩ := M_bind_ok h14
        obtain ⟨hG2eq, _, _⟩ := expect_ok hX4
        subst stG2
        obtain ⟨stH, u5, hAdv5, h16⟩ := M_bind_ok h15
        have hstH : stH = nextTokSt stG := advance_ok hAdv5
        have htokH : stH.tokens = st.tokens := by
          rw [hstH, nextTokSt_tokens]
          exact htokG
        have hwfH : TokensWF stH.tokens := by rw [htokH]; exact hwf
        obtain ⟨stI, bodyR, hB, h17⟩ := M_bind_ok h16
        have spB := ih .blockStmt stH stI bodyR hwfH trivial hB
        obtain ⟨stJ, after, hPA, h18⟩ := M_bind_ok h17
        obtain ⟨hJeq, hafter⟩ := peek_ok hPA
        subst stJ
        obtain ⟨hKeq, hnd⟩ := pure_ok_inv h18
        subst hnd
        subst hKeq
        revert hafter
        rcases after with _ | u <;> intro hafter
        · show spannedB (.forStmt init test update (stRetNode bodyR)
            startToken.start startToken.stop) = true
          have hss : startToken.start ≤ startToken.stop :=
            tokensWF_start_le_stop hwf hcur0
          simp [spannedB, hss, hinitFacts.1, htestFacts.1, hupdFacts.1,
            stRetNode_spanned spB]
        · have hcurU : currentToken st' = some u := hafter.symm
          have hsu : startToken.start ≤ u.stop := by
            have h1 : startToken.start ≤ u.start := by
              refine tokensWF_get_mono hwf frAll.2.2.1 hcur0 ?_
              rw [← frAll.2.1]
              exact hcurU
            have hwfI : TokensWF st'.tokens := by rw [frAll.2.1]; exact hwf
            exact le_trans h1 (tokensWF_start_le_stop hwfI hcurU)
          show spannedB (.forStmt init test update (stRetNode bodyR)
            startToken.start u.stop) = true
          simp [spannedB, hsu, hinitFacts.1, htestFacts.1, hupdFacts.1,
            stRetNode_spanned spB]
    case funDecl =>
      intro st st' r hwf _ h
      have frAll := stStep_presW (n + 1) .funDecl h
      simp only [stStep] at h
      obtain ⟨st0, a0, hP0, h1⟩ := M_bind_ok h
      obtain ⟨h0eq, ha0⟩ := peek_ok hP0
      subst st0
      rcases a0 with _ | startToken
      · dsimp only at h1
        exact (throw_not_ok h1).elim
      · dsimp only at h1
        have hcur0 : currentToken st = some startToken := ha0.symm
        obtain ⟨stA, u1, hAdv1, h2⟩ := M_bind_ok h1
        have hstA : stA = nextTokSt st := advance_ok hAdv1
        have htokA : stA.tokens = st.tokens := by rw [hstA]; exact nextTokSt_tokens st
        obtain ⟨stA1, nameTok, hXN, h3⟩ := M_bind_ok h2
        obtain ⟨hA1eq, hcurN, _⟩ := expect_ok hXN
        subst stA1
        have hIdSp : nameTok.start ≤ nameTok.stop := by
          have hwfA : TokensWF stA.tokens := by rw [htokA]; exact hwf
          exact tokensWF_start_le_stop hwfA hcurN
        obtain ⟨stB, u2, hAdv2, h4⟩ := M_bind_ok h3
        have hstB : stB = nextTokSt stA := advance_ok hAdv2
        obtain ⟨stB1, tokO, hX1, h5⟩ := M_bind_ok h4
        obtain ⟨hB1eq, _, _⟩ := expect_ok hX1
        subst stB1
        obtain ⟨stC, u3, hAdv3, h6⟩ := M_bind_ok h5
        have hstC : stC = nextTokSt stB := advance_ok hAdv3
        have htokC : stC.tokens = st.tokens := by
          rw [hstC, nextTokSt_tokens, hstB, nextTokSt_tokens]
          exact htokA
        obtain ⟨stD, params, hPar, h7⟩ := M_bind_ok h6
        have hparamsTok : stD.tokens = stC.tokens := by
          obtain ⟨stC1, aP, hPp, hPar2⟩ := M_bind_ok hPar
          obtain ⟨hC1eq, haP⟩ := peek_ok hPp
          subst stC1
          rcases aP with _ | tP
          · dsimp only at hPar2
            obtain ⟨hDeq, _⟩ := pure_ok_inv hPar2
            rw [hDeq]
          · dsimp only at hPar2
            by_cases hcl : tP.value ≠ ")"
            · rw [if_pos hcl] at hPar2
              obtain ⟨stC2, p0, hP0b, hPar3⟩ := M_bind_ok hPar2
              have htokC2 : stC2.tokens = stC.tokens := by
                by_cases hid : tP.type = TokType.IDENTIFIER
                · rw [if_pos hid] at hP0b
                  obtain ⟨stC3, u0, hAdv0, hP0c⟩ := M_bind_ok hP0b
                  have h3c : stC3 = nextTokSt stC := advance_ok hAdv0
                  obtain ⟨hC2eq, _⟩ := pure_ok_inv hP0c
                  rw [hC2eq, h3c]
                  exact nextTokSt_tokens stC
                · rw [if_neg hid] at hP0b
                  obtain ⟨hC2eq, _⟩ := pure_ok_inv hP0b
                  rw [hC2eq]
              have hfr := (paramsAux_pres n p0 hPar3).2.1
              rw [hfr, htokC2]
            · rw [if_neg hcl] at hPar2
              obtain ⟨hDeq, _⟩ := pure_ok_inv hPar2
              rw [hDeq]
        obtain ⟨stD1, tokCl, hX2, h8⟩ := M_bind_ok h7
        obtain ⟨hD1eq, _, _⟩ := expect_ok hX2
        subst stD1
        obtain ⟨stE, u4, hAdv4, h9⟩ := M_bind_ok h8
        have hstE : stE = nextTokSt stD := advance_ok hAdv4
        have htokEE : stE.tokens = st.tokens := by
          rw [hstE, nextTokSt_tokens, hparamsTok]
          exact htokC
        have hwfE : TokensWF stE.tokens := by rw [htokEE]; exact hwf
        obtain ⟨stF, bodyR, hB, h10⟩ := M_bind_ok h9
        have spB := ih .blockStmt stE stF bodyR hwfE trivial hB
        obtain ⟨stG, after, hPA, h11⟩ := M_bind_ok h10
        obtain ⟨hGeq, hafter⟩ := peek_ok hPA
        subst stG
        obtain ⟨hHeq, hnd⟩ := pure_ok_inv h11
        subst hnd
        subst hHeq
        revert hafter
        rcases after with _ | u <;> intro hafter
        · show spannedB (.funDecl (.ident nameTok.value nameTok.start nameTok.stop)
            params (stRetNode bodyR) startToken.start startToken.stop) = true
          have hss : startToken.start ≤ startToken.stop :=
            tokensWF_start_le_stop hwf hcur0
          simp [spannedB, hss, hIdSp, stRetNode_spanned spB]
        · have hcurU : currentToken st' = some u := hafter.symm
          have hsu : startToken.start ≤ u.stop := by
            have h1 : startToken.start ≤ u.start := by
              refine tokensWF_get_mono hwf frAll.2.2.1 hcur0 ?_
              rw [← frAll.2.1]
              exact hcurU
            have hwfF : TokensWF st'.tokens := by rw [frAll.2.1]; exact hwf
            exact le_trans h1 (tokensWF_start_le_stop hwfF hcurU)
          show spannedB (.funDecl (.ident nameTok.value nameTok.start nameTok.stop)
            params (stRetNode bodyR) startToken.start u.stop) = true
          simp [spannedB, hsu, hIdSp, stRetNode_spanned spB]
    case classDecl =>
      intro st st' r hwf _ h
      have frAll := stStep_presW (n + 1) .classDecl h
      simp only [stStep] at h
      obtain ⟨st0, a0, hP0, h1⟩ := M_bind_ok h
      obtain ⟨h0eq, ha0⟩ := peek_ok hP0
      subst st0
      rcases a0 with _ | startToken
      · dsimp only at h1
        exact (throw_not_ok h1).elim
      · dsimp only at h1
        have hcur0 : currentToken st = some startToken := ha0.symm
        obtain ⟨stA, u1, hAdv1, h2⟩ := M_bind_ok h1
        have hstA : stA = nextTokSt st := advance_ok hAdv1
        have htokA : stA.tokens = st.tokens := by rw [hstA]; exact nextTokSt_tokens st
        obtain ⟨stA1, nameTok, hXN, h3⟩ := M_bind_ok h2
        obtain ⟨hA1eq, hcurN, _⟩ := expect_ok hXN
        subst stA1
        have hIdSp : nameTok.start ≤ nameTok.stop := by
          have hwfA : TokensWF stA.tokens := by rw [htokA]; exact hwf
          exact tokensWF_start_le_stop hwfA hcurN
        obtain ⟨stB, u2, hAdv2, h4⟩ := M_bind_ok h3
        have hstB : stB = nextTokSt stA := advance_ok hAdv2
        have htokB : stB.tokens = st.tokens := by
          rw [hstB, nextTokSt_tokens]
          exact htokA
        have hwfB : TokensWF stB.tokens := by rw [htokB]; exact hwf
        obtain ⟨stB1, tokO, hX1, h5⟩ := M_bind_ok h4
        obtain ⟨hB1eq, _, _⟩ := expect_ok hX1
        subst stB1
        obtain ⟨stC, bodyR, hB, h6⟩ := M_bind_ok h5
        have spB := ih .blockStmt stB stC bodyR hwfB trivial hB
        obtain ⟨stD, after, hPA, h7⟩ := M_bind_ok h6
        obtain ⟨hDeq, hafter⟩ := peek_ok hPA
        subst stD
        obtain ⟨hEeq, hnd⟩ := pure_ok_inv h7
        subst hnd
        subst hEeq
        revert hafter
        rcases after with _ | u <;> intro hafter
        · show spannedB (.classDecl (.ident nameTok.value nameTok.start nameTok.stop)
            (stRetNode bodyR) startToken.start startToken.stop) = true
          have hss : startToken.start ≤ startToken.stop :=
            tokensWF_start_le_stop hwf hcur0
          simp [spannedB, hss, hIdSp, stRetNode_spanned spB]
        · have hcurU : currentToken st' = some u := hafter.symm
          have hsu : startToken.start ≤ u.stop := by
            have h1 : startToken.start ≤ u.start := by
              refine tokensWF_get_mono hwf frAll.2.2.1 hcur0 ?_
              rw [← frAll.2.1]
              exact hcurU
            have hwfC : TokensWF st'.tokens := by rw [frAll.2.1]; exact hwf
            exact le_trans h1 (tokensWF_start_le_stop hwfC hcurU)
          show spannedB (.classDecl (.ident nameTok.value nameTok.start nameTok.stop)
            (stRetNode bodyR) startToken.start u.stop) = true
          simp [spannedB, hsu, hIdSp, stRetNode_spanned spB]
    case returnStmt =>
      intro st st' r hwf _ h
      simp only [stStep] at h
      obtain ⟨st0, a0, hP0, h1⟩ := M_bind_ok h
      obtain ⟨h0eq, ha0⟩ := peek_ok hP0
      subst st0
      rcases a0 with _ | startToken
      · dsimp only at h1
        exact (throw_not_ok h1).elim
      · dsimp only at h1
        have hcur0 : currentToken st = some startToken := ha0.symm
        obtain ⟨stA, u1, hAdv1, h2⟩ := M_bind_ok h1
        have hstA : stA = nextTokSt st := advance_ok hAdv1
        have htokA : stA.tokens = st.tokens := by rw [hstA]; exact nextTokSt_tokens st
        have hposA : st.position ≤ stA.position := by
          rw [hstA]; exact nextTokSt_pos_ge st
        have hwfA : TokensWF stA.tokens := by rw [htokA]; exact hwf
        obtain ⟨stB, argument, hArg, h3⟩ := M_bind_ok h2
        have hargFacts : spannedOptB argument = true ∧
            ∀ aN, argument = some aN → startToken.start ≤ stopOf aN := by
          obtain ⟨stA1, aT, hPa, hArg2⟩ := M_bind_ok hArg
          obtain ⟨hA1eq, haT⟩ := peek_ok hPa
          subst stA1
          rcases aT with _ | t
          · dsimp only at hArg2
            obtain ⟨_, hval⟩ := pure_ok_inv hArg2
            subst hval
            exact ⟨rfl, fun aN hco => Option.noConfusion hco⟩
          · dsimp only at hArg2
            split at hArg2
            · obtain ⟨stA2, e1, hE1, hArg3⟩ := M_bind_ok hArg2
              have postE := expStep_span n .logicalOr stA stA2 e1 hwfA trivial hE1
              obtain ⟨⟨tk0, htk0⟩, sE, coreE, hlb⟩ := postE
              obtain ⟨hBeq, hval⟩ := pure_ok_inv hArg3
              subst hval
              obtain ⟨spE, hstartE, ⟨enE, hstopE, hsenE⟩, _⟩ := coreE
              refine ⟨by simpa [spannedOptB] using spE, ?_⟩
              intro aN hEq
              cases hEq
              rw [stopOf_eq hstopE]
              have hb1 : startToken.start ≤ t.start := by
                refine tokensWF_get_mono hwf hposA hcur0 ?_
                rw [← htokA]
                exact haT.symm
              have hb2 : t.start ≤ sE := hlb t haT.symm
              exact le_trans hb1 (le_trans hb2 hsenE)
            · obtain ⟨_, hval⟩ := pure_ok_inv hArg2
              subst hval
              exact ⟨rfl, fun aN hco => Option.noConfusion hco⟩
        obtain ⟨stC, uS, hSemi, h4⟩ := M_bind_ok h3
        obtain ⟨hDeq, hnd⟩ := pure_ok_inv h4
        subst hnd
        obtain ⟨hargSp, hargBd⟩ := hargFacts
        rcases argument with _ | aN
        · show spannedB (.returnStmt none startToken.start
            (startToken.stop + 6)) = true
          have hss : startToken.start ≤ startToken.stop + 6 :=
            le_trans (tokensWF_start_le_stop hwf hcur0) (Nat.le_add_right _ 6)
          simp [spannedB, spannedOptB, hss]
        · have hsp : spannedB aN = true := hargSp
          have hbd : startToken.start ≤ stopOf aN := hargBd aN rfl
          show spannedB (.returnStmt (some aN) startToken.start (stopOf aN)) = true
          simp [spannedB, spannedOptB, hsp, hbd]
    case blockStmt =>
      intro st st' r hwf _ h
      simp only [stStep] at h
      obtain ⟨st0, a0, hP0, h1⟩ := M_bind_ok h
      obtain ⟨h0eq, ha0⟩ := peek_ok hP0
      subst st0
      rcases a0 with _ | t
      · dsimp only at h1
        obtain ⟨st1, r1, hS, h2⟩ := M_bind_ok h1
        have hsp1 := ih .statement st st1 r1 hwf trivial hS
        obtain ⟨h2eq, hnd⟩ := pure_ok_inv h2
        subst hnd
        show spannedB (.block [stRetOpt r1]) = true
        simp only [spannedB, spannedOptsB, Bool.and_eq_true]
        exact ⟨stRetOpt_spanned hsp1, trivial⟩
      · dsimp only at h1
        by_cases htv : t.value = "\x7b"
        · rw [if_pos htv] at h1
          obtain ⟨st1, u1, hAdv, h2⟩ := M_bind_ok h1
          have hst1 : st1 = nextTokSt st := advance_ok hAdv
          have hwf1 : TokensWF st1.tokens := by
            rw [hst1, nextTokSt_tokens]
            exact hwf
          exact ih (.blockLoop []) st1 st' r hwf1 rfl h2
        · rw [if_neg htv] at h1
          obtain ⟨st1, r1, hS, h2⟩ := M_bind_ok h1
          have hsp1 := ih .statement st st1 r1 hwf trivial hS
          obtain ⟨h2eq, hnd⟩ := pure_ok_inv h2
          subst hnd
          show spannedB (.block [stRetOpt r1]) = true
          simp only [spannedB, spannedOptsB, Bool.and_eq_true]
          exact ⟨stRetOpt_spanned hsp1, trivial⟩
    case blockLoop acc =>
      intro st st' r hwf hpre h
      have hacc : spannedListB acc = true := hpre
      simp only [stStep] at h
      obtain ⟨st1, b, hH, h2⟩ := M_bind_ok h
      obtain ⟨h1eq, hb⟩ := hasMore_ok hH
      subst st1
      cases b
      · rw [if_neg Bool.false_ne_true] at h2
        obtain ⟨st2, u2, hOpt, h3⟩ := M_bind_ok h2
        obtain ⟨h3eq, hnd⟩ := pure_ok_inv h3
        subst hnd
        show spannedB (.block (acc.map some)) = true
        simp only [spannedB]
        exact spannedOptsB_map_some hacc
      · rw [if_pos rfl] at h2
        obtain ⟨st2, a2, hP2, h3⟩ := M_bind_ok h2
        obtain ⟨h2eq, ha2⟩ := peek_ok hP2
        subst st2
        rcases a2 with _ | t
        · dsimp only at h3
          obtain ⟨h3eq, hnd⟩ := pure_ok_inv h3
          subst hnd
          show spannedB (.block (acc.map some)) = true
          simp only [spannedB]
          exact spannedOptsB_map_some hacc
        · dsimp only at h3
          by_cases htv : t.value ≠ "\x7d"
          · rw [if_pos htv] at h3
            obtain ⟨st2, r1, hS, h4⟩ := M_bind_ok h3
            have hsp1 := ih .statement st st2 r1 hwf trivial hS
            have frS := stStep_presW n .statement hS
            have hwf2 : TokensWF st2.tokens := by rw [frS.2.1]; exact hwf
            exact ih (.blockLoop (acc ++ stRetPush r1)) st2 st' r hwf2
              (stRetPush_spanned hacc hsp1) h4
          · rw [if_neg htv] at h3
            obtain ⟨st2, u2, hAdv, h4⟩ := M_bind_ok h3
            obtain ⟨h4eq, hnd⟩ := pure_ok_inv h4
            subst hnd
            show spannedB (.block (acc.map some)) = true
            simp only [spannedB]
            exact spannedOptsB_map_some hacc
    case exprStmt =>
      intro st st' r hwf _ h
      simp only [stStep] at h
      obtain ⟨st1, expr, hE, h2⟩ := M_bind_ok h
      have postE := expStep_span n .logicalOr st st1 expr hwf trivial hE
      have hpre1 : ExpNodePre st1 expr := expEntryPost_toNodePre postE
      have frE := expStep_pres n .logicalOr hE
      have hwf1 : TokensWF st1.tokens := by rw [frE.2.1]; exact hwf
      obtain ⟨st2, aP, hP, h3⟩ := M_bind_ok h2
      obtain ⟨h2eq, haP⟩ := peek_ok hP
      subst st2
      rcases aP with _ | t
      · dsimp only at h3
        exact exprStmtFinish_span hpre1 h3
      · dsimp only at h3
        split at h3
        · exact ih (.assignStmt expr) st1 st' r hwf1 hpre1 h3
        · exact exprStmtFinish_span hpre1 h3
    case assignStmt left =>
      intro st st' r hwf hpre h
      have frAll := stStep_presW (n + 1) (.assignStmt left) h
      simp only [stStep] at h
      obtain ⟨hsp, s, hstart, ⟨en, hstop, hsen⟩, hub⟩ := hpre
      obtain ⟨st1, tEq, hX, h2⟩ := M_bind_ok h
      obtain ⟨h1eq, hcurEq, hvalEq⟩ := expect_ok hX
      subst st1
      obtain ⟨st2, u2, hAdv, h3⟩ := M_bind_ok h2
      have hst2 : st2 = nextTokSt st := advance_ok hAdv
      have htok2 : st2.tokens = st.tokens := by rw [hst2]; exact nextTokSt_tokens st
      have hwf2 : TokensWF st2.tokens := by rw [htok2]; exact hwf
      obtain ⟨st3, right, hR, h4⟩ := M_bind_ok h3
      have postR := expStep_span n .logicalOr st2 st3 right hwf2 trivial hR
      obtain ⟨⟨tkA, htkA⟩, sR, coreR, hlb⟩ := postR
      obtain ⟨spR, hstartR, ⟨enR, hstopR, hsenR⟩, hubR⟩ := coreR
      have hsleR : s ≤ stopOf right := by
        rw [stopOf_eq hstopR]
        have hb1 : s ≤ tkA.start := by
          refine hub st2.position tkA ?_ ?_
          · rw [hst2]; exact nextTokSt_pos_ge st
          · rw [← htok2]; exact htkA
        exact le_trans hb1 (le_trans (hlb tkA htkA) hsenR)
      obtain ⟨st4, aP, hP, h5⟩ := M_bind_ok h4
      obtain ⟨h4eq, haP⟩ := peek_ok hP
      subst st4
      rcases aP with _ | t
      · dsimp only at h5
        obtain ⟨st5, inp, hI, h6⟩ := M_bind_ok h5
        obtain ⟨h5eq, _⟩ := getInput_inv hI
        subst st5
        obtain ⟨st6, u6, hRec, h7⟩ := M_bind_ok h6
        obtain ⟨h7eq, hnd⟩ := pure_ok_inv h7
        subst hnd
        show spannedB (.assign left right (startOf left) (stopOf right)) = true
        simp only [spannedB]
        rw [startOf_eq hstart]
        simp [hsp, spR, hsleR]
      · dsimp only at h5
        by_cases hsemi : t.value = ";"
        · rw [if_pos hsemi] at h5
          obtain ⟨st5, u5, hAdv2, h6⟩ := M_bind_ok h5
          have hst5 : st5 = nextTokSt st3 := advance_ok hAdv2
          obtain ⟨st6, after, hP2, h7⟩ := M_bind_ok h6
          obtain ⟨h6eq, hafter⟩ := peek_ok hP2
          subst st6
          obtain ⟨h7eq, hnd⟩ := pure_ok_inv h7
          subst hnd
          subst h7eq
          revert hafter
          rcases after with _ | u <;> intro hafter
          · show spannedB (.assign left right (startOf left)
              (stopOf right + 1)) = true
            simp only [spannedB]
            rw [startOf_eq hstart]
            simp [hsp, spR, le_trans hsleR (Nat.le_succ _)]
          · have hcurU : currentToken st' = some u := hafter.symm
            have hsu : s ≤ u.start := by
              refine hub st'.position u frAll.2.2.1 ?_
              rw [← frAll.2.1]
              exact hcurU
            show spannedB (.assign left right (startOf left) u.start) = true
            simp only [spannedB]
            rw [startOf_eq hstart]
            simp [hsp, spR, hsu]
        · rw [if_neg hsemi] at h5
          obtain ⟨st5, inp, hI, h6⟩ := M_bind_ok h5
          obtain ⟨h5eq, _⟩ := getInput_inv hI
          subst st5
          obtain ⟨st6, u6, hRec, h7⟩ := M_bind_ok h6
          obtain ⟨h7eq, hnd⟩ := pure_ok_inv h7
          subst hnd
          show spannedB (.assign left right (startOf left) (stopOf right)) = true
          simp only [spannedB]
          rw [startOf_eq hstart]
          simp [hsp, spR, hsleR]

theorem M_bind_none {α β : Type} {x : M α} {f : α → M β} {st : PSt}
    (h : x st = none) : (x >>= f) st = none := by
  show (match x st with
    | none => none
    | some (st1, .error e) => some (st1, .error e)
    | some (st1, .ok a) => f a st1) = none
  rw [h]

theorem M_bind_some_ok {α β : Type} {x : M α} {f : α → M β} {st st1 : PSt}
    {a : α} (h : x st = some (st1, .ok a)) : (x >>= f) st = f a st1 := by
  show (match x st with
    | none => none
    | some (st1, .error e) => some (st1, .error e)
    | some (st1, .ok a) => f a st1) = f a st1
  rw [h]

/-- The parser state right after tokenizing the single-character input
`{`. -/
def braceSt : PSt := ⟨"\x7b".data, [⟨.SYMBOL, "\x7b", 0, 1⟩], 0, []⟩

theorem stmtTry_brace (p : Nat) :
    stStep p (.stmtTry ⟨.SYMBOL, "\x7b", 0, 1⟩) braceSt = none ∨
    stStep p (.stmtTry ⟨.SYMBOL, "\x7b", 0, 1⟩) braceSt =
      some (braceSt, .ok (.one none)) := by
  match p with
  | 0 => exact Or.inl rfl
  | q + 1 => exact Or.inr rfl

theorem statement_brace (m : Nat) :
    stStep m .statement braceSt = none ∨
    stStep m .statement braceSt = some (braceSt, .ok (.one none)) := by
  match m with
  | 0 => exact Or.inl rfl
  | p + 1 =>
    have hm : stStep (p + 1) .statement braceSt =
        (match stStep p (.stmtTry ⟨.SYMBOL, "\x7b", 0, 1⟩) braceSt with
         | none => none
         | some (st1, .ok r) => some (st1, .ok r)
         | some (st1, .error e) =>
           some (skipToNextStatement (addErrorSt st1 e 0 1), .ok (.one none))) := rfl
    rcases stmtTry_brace p with h | h <;> rw [hm, h]
    · exact Or.inl rfl
    · exact Or.inr rfl

theorem program_brace : ∀ (n : Nat) (acc : List Node),
    stStep n (.program acc) braceSt = none := by
  intro n
  induction n with
  | zero => intro acc; rfl
  | succ m ih =>
    intro acc
    have hm : stStep (m + 1) (.program acc) braceSt =
        ((stStep m .statement) >>= fun r =>
          stStep m (.program (acc ++ stRetPush r))) braceSt := rfl
    rcases statement_brace m with h | h
    · rw [hm]
      exact M_bind_none h
    · rw [hm, M_bind_some_ok h]
      have : acc ++ stRetPush (.one none) = acc := by simp [stRetPush]
      rw [this]
      exact ih acc

/-- Claim C1: refuted.  `parse` never returns on the input `{`:
`parseStatement` hits its default branch and `skipToNextStatement` stops at
the `\x7b` delimiter without consuming it, so the statement loop repeats the
same iteration forever.  In the fuel model the call runs out of any amount of
fuel. -/
theorem parse_diverges_on_lone_brace : ∀ fuel : Nat,
    parse fuel ("\x7b".data) = none := by
  intro fuel
  have hm : parse fuel ("\x7b".data) =
      (match stStep fuel (.program []) braceSt with
       | none => none
       | some (_, .error e) => some (.error e)
       | some (st, .ok (.many body)) => some (.ok ⟨body, some st.errors⟩)
       | some (_, .ok (.one _)) => none) := rfl
  rw [hm, program_brace fuel []]

/-- Claim C3, amended: every node `parse` returns is *well-spanned*: each
node that carries offsets has `start ≤ end`, recursively (a `BlockStatement`
carries no offsets of its own, contrary to the claim's first half). -/
theorem parse_nodes_well_spanned : ∀ (fuel : Nat) (input : List Char)
    (p : Program), parse fuel input = some (.ok p) →
    spannedListB p.body = true := by
  intro fuel input p h
  unfold parse at h
  by_cases hb : isBlankInput input = true
  · rw [if_pos hb] at h
    cases h.symm
    rfl
  · rw [if_neg hb] at h
    split at h
    · exact Option.noConfusion h
    · exact absurd (Option.some_injective _ h) (by simp)
    · rename_i toks htk
      split at h
      · exact Option.noConfusion h
      · exact absurd (Option.some_injective _ h) (by simp)
      · rename_i stf body hst
        have hwf : TokensWF toks := tokenize_wf htk
        have hsp := stStep_span fuel (.program []) ⟨input, toks, 0, []⟩ stf
          (.many body) hwf rfl hst
        have hinj := Option.some_injective _ h
        simp only [Except.ok.injEq] at hinj
        subst hinj
        exact hsp
      · exact Option.noConfusion h

/-- The program `parse` builds for `if(a)b;`: the single-statement branch of
`parseBlock` wraps `b;` in a `BlockStatement` node that has no `start`/`end`
fields. -/
def progIfAB : Program :=
  ⟨[.ifStmt (.ident "a" 3 4) (.block [some (.exprStmt (.ident "b" 5 6) 5 7)])
      none 0 2], some []⟩

/-- Claim C3, counterexample to the literal wording: `parse` succeeds on
`if(a)b;` yet its AST contains a `BlockStatement` without source offsets, so
not every node carries `start`/`end`. -/
theorem parse_block_node_lacks_offsets :
    parse 80 ("if(a)b;".data) = some (.ok progIfAB) ∧
    nodeOffsetsClaimListB progIfAB.body = false := ⟨rfl, rfl⟩

theorem parse_nodes_well_spanned_witness :
    spannedListB progIfAB.body = true :=
  parse_nodes_well_spanned 80 ("if(a)b;".data) progIfAB rfl

/-- What `skipToNextStatement` does, observably: it keeps input, tokens and
errors, moves the cursor forward past tokens that are neither `;` nor a brace
nor a statement start (a trailing `;` being consumed as the last skipped
token), and stops at the end of the tokens, at a brace or statement-start
token (left in place), or right after a consumed `;`. -/
def SkipDesc (st st1 : PSt) : Prop :=
  st1.input = st.input ∧ st1.tokens = st.tokens ∧ st1.errors = st.errors ∧
  st.position ≤ st1.position ∧
  (∀ j t, st.position ≤ j → j < st1.position → st.tokens.get? j = some t →
      (t.value = ";" ∧ j + 1 = st1.position) ∨
      (t.value ≠ ";" ∧ t.value ≠ "\x7d" ∧ t.value ≠ "\x7b" ∧
        isStatementStart t = false)) ∧
  (currentToken st1 = none ∨
   (∃ t, currentToken st1 = some t ∧
      (t.value = "\x7d" ∨ t.value = "\x7b" ∨ isStatementStart t = true)) ∨
   (∃ j t, j + 1 = st1.position ∧ st.tokens.get? j = some t ∧ t.value = ";"))

theorem skipAux_desc : ∀ (fuel : Nat) (st : PSt),
    st.tokens.length ≤ st.position + fuel →
    SkipDesc st (skipToNextStatementAux fuel st) := by
  intro fuel
  induction fuel with
  | zero =>
    intro st hlen
    refine ⟨rfl, rfl, rfl, le_refl _, ?_, Or.inl ?_⟩
    · intro j t hj hjlt _
      exact absurd (lt_of_le_of_lt hj hjlt) (lt_irrefl _)
    · show st.tokens.get? st.position = none
      rw [List.get?_eq_none]
      omega
  | succ n ihf =>
    intro st hlen
    have hm : skipToNextStatementAux (n + 1) st =
        (match currentToken st with
         | none => st
         | some t =>
           if t.value = ";" then nextTokSt st
           else if t.value = "\x7d" || t.value = "\x7b" then st
           else if isStatementStart t then st
           else skipToNextStatementAux n (nextTokSt st)) := rfl
    rw [hm]
    rcases hc : currentToken st with _ | t
    · refine ⟨rfl, rfl, rfl, le_refl _, ?_, Or.inl hc⟩
      intro j t hj hjlt _
      exact absurd (lt_of_le_of_lt hj hjlt) (lt_irrefl _)
    · dsimp only
      have hcg : st.tokens.get? st.position = some t := hc
      have hlt : st.position < st.tokens.length := (List.get?_eq_some.mp hc).1
      have hpos1 : (nextTokSt st).position = st.position + 1 := by
        unfold nextTokSt
        rw [if_pos hlt]
      by_cases h1 : t.value = ";"
      · rw [if_pos h1]
        refine ⟨nextTokSt_input st, nextTokSt_tokens st, (nextTokSt_frame st).2.2.1,
          nextTokSt_pos_ge st, ?_,
          Or.inr (Or.inr ⟨st.position, t, by rw [hpos1], hc, h1⟩)⟩
        intro j u hj hjlt hu
        rw [hpos1] at hjlt
        have hje : j = st.position := le_antisymm (Nat.lt_succ_iff.mp hjlt) hj
        subst hje
        rw [hcg] at hu
        cases hu
        exact Or.inl ⟨h1, by rw [hpos1]⟩
      · rw [if_neg h1]
        by_cases h2 : (t.value = "\x7d" || t.value = "\x7b") = true
        · rw [if_pos h2]
          refine ⟨rfl, rfl, rfl, le_refl _, ?_, Or.inr (Or.inl ⟨t, hc, ?_⟩)⟩
          · intro j u hj hjlt _
            exact absurd (lt_of_le_of_lt hj hjlt) (lt_irrefl _)
          · simp only [Bool.or_eq_true, decide_eq_true_eq] at h2
            rcases h2 with h2 | h2
            · exact Or.inl h2
            · exact Or.inr (Or.inl h2)
        · rw [if_neg h2]
          by_cases h3 : isStatementStart t = true
          · rw [if_pos h3]
            refine ⟨rfl, rfl, rfl, le_refl _, ?_,
              Or.inr (Or.inl ⟨t, hc, Or.inr (Or.inr h3)⟩)⟩
            intro j u hj hjlt _
            exact absurd (lt_of_le_of_lt hj hjlt) (lt_irrefl _)
          · rw [if_neg h3]
            have hlen1 : (nextTokSt st).tokens.length ≤ (nextTokSt st).position + n := by
              rw [nextTokSt_tokens, hpos1]
              omega
            obtain ⟨d1, d2, d3, d4, d5, d6⟩ := ihf (nextTokSt st) hlen1
            have hnb : t.value ≠ ";" ∧ t.value ≠ "\x7d" ∧ t.value ≠ "\x7b" ∧
                isStatementStart t = false := by
              refine ⟨h1, ?_, ?_, Bool.eq_false_iff.mpr h3⟩
              · intro hh
                exact h2 (by simp [hh])
              · intro hh
                exact h2 (by simp [hh])
            refine ⟨d1.trans (nextTokSt_input st), d2.trans (nextTokSt_tokens st),
              d3.trans (nextTokSt_frame st).2.2.1,
              le_trans (nextTokSt_pos_ge st) d4, ?_, ?_⟩
            · intro j u hj hjlt hu
              by_cases hje : j = st.position
              · subst hje
                rw [hcg] at hu
                cases hu
                exact Or.inr hnb
              · have hj1 : (nextTokSt st).position ≤ j := by
                  rw [hpos1]
                  omega
                have hu1 : (nextTokSt st).tokens.get? j = some u := by
                  rw [nextTokSt_tokens]
                  exact hu
                exact d5 j u hj1 hjlt hu1
            · rcases d6 with hnone | hbound | ⟨j, u, hj1, hu, hval⟩
              · exact Or.inl hnone
              · exact Or.inr (Or.inl hbound)
              · refine Or.inr (Or.inr ⟨j, u, hj1, ?_, hval⟩)
                rw [← nextTokSt_tokens st]
                exact hu

theorem skip_desc (st : PSt) : SkipDesc st (skipToNextStatement st) :=
  skipAux_desc _ st (by omega)

/-- Claim C4, amended: a structural failure inside one statement is caught at
the statement boundary; the failure message is recorded with the range of the
*statement's first token* (not the offending token's), the statement
contributes no node, and the parser resumes at the next `;` / brace /
statement start per `SkipDesc`. -/
theorem statement_recovers_on_parse_failure :
    ∀ (n : Nat) (st stE : PSt) (tok : Token) (e : String),
      currentToken st = some tok →
      stStep n (.stmtTry tok) st = some (stE, .error e) →
      stStep (n + 1) .statement st =
        some (skipToNextStatement (addErrorSt stE e tok.start tok.stop),
          .ok (.one none)) ∧
      (skipToNextStatement (addErrorSt stE e tok.start tok.stop)).errors =
        stE.errors ++ [⟨e, tok.start, tok.stop⟩] ∧
      SkipDesc (addErrorSt stE e tok.start tok.stop)
        (skipToNextStatement (addErrorSt stE e tok.start tok.stop)) := by
  intro n st stE tok e hc htry
  refine ⟨?_, ?_, skip_desc _⟩
  · have hm : stStep (n + 1) .statement st =
        (match currentToken st with
         | none => some (st, .ok (.one none))
         | some tok =>
           match stStep n (.stmtTry tok) st with
           | none => none
           | some (st1, .ok r) => some (st1, .ok r)
           | some (st1, .error e) =>
             some (skipToNextStatement (addErrorSt st1 e tok.start tok.stop),
               .ok (.one none))) := rfl
    rw [hm, hc]
    dsimp only
    rw [htry]
  · rw [(skip_frame _).2.2.1]
    rfl

/-- The tokens of the input `if x;`. -/
def ifxToks : List Token :=
  [⟨.KEYWORD, "if", 0, 2⟩, ⟨.IDENTIFIER, "x", 3, 4⟩, ⟨.SYMBOL, ";", 4, 5⟩]

theorem statement_recovers_on_parse_failure_witness :
    stStep 21 .statement ⟨"if x;".data, ifxToks, 0, []⟩ =
      some (skipToNextStatement (addErrorSt ⟨"if x;".data, ifxToks, 1, []⟩
        (msgIfOpen 3) 0 2), .ok (.one none)) :=
  (statement_recovers_on_parse_failure 20 ⟨"if x;".data, ifxToks, 0, []⟩
    ⟨"if x;".data, ifxToks, 1, []⟩ ⟨.KEYWORD, "if", 0, 2⟩ (msgIfOpen 3)
    rfl rfl).1

/-- Claim C4, counterexample to the "offending token's offset range" wording:
on `if x;` the recorded SyntaxError spans `[0, 2)` — the `if` token that
*started* the statement — while the offending token (the `x` found where `(`
was expected, named at position 3 by the message) spans `[3, 4)`. -/
theorem statement_failure_records_first_token_range :
    parse 50 ("if x;".data) = some (.ok ⟨[.exprStmt (.ident "x" 3 4) 3 5],
      some [⟨msgIfOpen 3, 0, 2⟩]⟩) ∧
    tokenize ("if x;".data) = some (.ok ifxToks) ∧
    (⟨msgIfOpen 3, 0, 2⟩ : SErr) ≠ ⟨msgIfOpen 3, 3, 4⟩ := by
  refine ⟨rfl, rfl, ?_⟩
  intro hh
  exact absurd (congrArg SErr.start hh) (by decide)

/-- Claim C10: a statement whose first token is neither a statement keyword
nor an identifier is silently skipped: no error is recorded, no node is
produced, and the cursor moves per `SkipDesc` to the next `;`, brace, or
statement start. -/
theorem statement_skips_unrecognized_silently :
    ∀ (n : Nat) (st : PSt) (tok : Token),
      currentToken st = some tok →
      statementStarters.contains tok.value = false →
      tok.type ≠ TokType.IDENTIFIER →
      stStep (n + 2) .statement st =
        some (skipToNextStatement st, .ok (.one none)) ∧
      (skipToNextStatement st).errors = st.errors ∧
      SkipDesc st (skipToNextStatement st) := by
  intro n st tok hc hns hni
  have h1 : tok.value ≠ "var" := by
    intro hh; rw [hh] at hns; exact absurd hns (by decide)
  have h2 : tok.value ≠ "if" := by
    intro hh; rw [hh] at hns; exact absurd hns (by decide)
  have h3 : tok.value ≠ "while" := by
    intro hh; rw [hh] at hns; exact absurd hns (by decide)
  have h4 : tok.value ≠ "for" := by
    intro hh; rw [hh] at hns; exact absurd hns (by decide)
  have h5 : tok.value ≠ "fun" := by
    intro hh; rw [hh] at hns; exact absurd hns (by decide)
  have h6 : tok.value ≠ "class" := by
    intro hh; rw [hh] at hns; exact absurd hns (by decide)
  have h7 : tok.value ≠ "return" := by
    intro hh; rw [hh] at hns; exact absurd hns (by decide)
  have hTry : stStep (n + 1) (.stmtTry tok) st =
      some (skipToNextStatement st, .ok (.one none)) := by
    simp only [stStep]
    rw [if_neg h1, if_neg h2, if_neg h3, if_neg h4, if_neg h5, if_neg h6,
      if_neg h7, if_neg hni]
    rfl
  refine ⟨?_, (skip_frame st).2.2.1, skip_desc st⟩
  have hm : stStep (n + 2) .statement st =
      (match currentToken st with
       | none => some (st, .ok (.one none))
       | some tok =>
         match stStep (n + 1) (.stmtTry tok) st with
         | none => none
         | some (st1, .ok r) => some (st1, .ok r)
         | some (st1, .error e) =>
           some (skipToNextStatement (addErrorSt st1 e tok.start tok.stop),
             .ok (.one none))) := rfl
  rw [hm, hc]
  dsimp only
  rw [hTry]

/-- The tokens of the input `use x;`. -/
def useToks : List Token :=
  [⟨.KEYWORD, "use", 0, 3⟩, ⟨.IDENTIFIER, "x", 4, 5⟩, ⟨.SYMBOL, ";", 5, 6⟩]

theorem statement_skips_unrecognized_silently_witness :
    stStep 2 .statement ⟨"use x;".data, useToks, 0, []⟩ =
      some (skipToNextStatement ⟨"use x;".data, useToks, 0, []⟩,
        .ok (.one none)) ∧
    (skipToNextStatement ⟨"use x;".data, useToks, 0, []⟩).errors = [] :=
  ⟨(statement_skips_unrecognized_silently 0 ⟨"use x;".data, useToks, 0, []⟩
      ⟨.KEYWORD, "use", 0, 3⟩ rfl rfl (by decide)).1,
   (statement_skips_unrecognized_silently 0 ⟨"use x;".data, useToks, 0, []⟩
      ⟨.KEYWORD, "use", 0, 3⟩ rfl rfl (by decide)).2.1⟩

/-- Claim C2: a variable declaration, plain expression statement, or
assignment that parses successfully still returns its node; if the next token
is a consumed `;` the error list is unchanged, and otherwise exactly one
missing-semicolon error is appended, spanning from the statement's end to the
end of the source line. -/
theorem missing_semicolon_recovery :
    (∀ (n : Nat) (st st' : PSt) (r : StRet),
        stStep n .varDecl st = some (st', .ok r) →
        ∃ nd e, r = .one (some nd) ∧ nodeStop nd = some e ∧
          (((∃ t, st'.tokens.get? (st'.position - 1) = some t ∧ t.value = ";") ∧
              st'.errors = st.errors) ∨
           ((currentToken st' = none ∨
               ∃ t, currentToken st' = some t ∧ t.value ≠ ";") ∧
             st'.errors = st.errors ++
               [⟨msgMissingSemiVar, e, findEndOfLine st.input e⟩]))) ∧
    (∀ (expr : Node) (st st' : PSt) (r : StRet),
        exprStmtFinish expr st = some (st', .ok r) →
        (∃ nd, r = .one (some nd)) ∧
        (∀ t, currentToken st = some t → t.value = ";" →
            st'.errors = st.errors) ∧
        ((currentToken st = none ∨
            ∃ t, currentToken st = some t ∧ t.value ≠ ";") →
          st'.errors = st.errors ++ [⟨msgMissingSemiStmt, stopOf expr,
            findEndOfLine st.input (stopOf expr)⟩] ∧
          r = .one (some (.exprStmt expr (startOf expr) (stopOf expr))))) ∧
    (∀ (n : Nat) (left : Node) (st st' : PSt) (r : StRet),
        stStep n (.assignStmt left) st = some (st', .ok r) →
        ∃ right e, r = .one (some (.assign left right (startOf left) e)) ∧
          (((∃ t, st'.tokens.get? (st'.position - 1) = some t ∧ t.value = ";") ∧
              st'.errors = st.errors) ∨
           ((currentToken st' = none ∨
               ∃ t, currentToken st' = some t ∧ t.value ≠ ";") ∧
             e = stopOf right ∧
             st'.errors = st.errors ++ [⟨msgMissingSemiAssign, stopOf right,
               findEndOfLine st.input (stopOf right)⟩]))) := by
  refine ⟨?_, ?_, ?_⟩
  · intro n st st' r h
    cases n with
    | zero => exact Option.noConfusion h
    | succ m =>
      simp only [stStep] at h
      obtain ⟨st0, a0, hP0, h1⟩ := M_bind_ok h
      obtain ⟨h0eq, ha0⟩ := peek_ok hP0
      subst st0
      rcases a0 with _ | startToken
      · dsimp only at h1
        exact (throw_not_ok h1).elim
      · dsimp only at h1
        obtain ⟨stA, u1, hAdv1, h2⟩ := M_bind_ok h1
        have hstA : stA = nextTokSt st := advance_ok hAdv1
        obtain ⟨stB, dtOpt, hDt, h3⟩ := M_bind_ok h2
        have dtFacts : stB.errors = stA.errors ∧ stB.input = stA.input := by
          obtain ⟨stA1, aD, hPd, hDt2⟩ := M_bind_ok hDt
          obtain ⟨hA1eq, haD⟩ := peek_ok hPd
          subst stA1
          rcases aD with _ | tD
          · dsimp only at hDt2
            obtain ⟨hBeq, _⟩ := pure_ok_inv hDt2
            rw [hBeq]
            exact ⟨rfl, rfl⟩
          · dsimp only at hDt2
            by_cases hk : isTypeKeyword tD.value = true
            · rw [if_pos hk] at hDt2
              obtain ⟨stA2, uD, hAdvD, hDt3⟩ := M_bind_ok hDt2
              have hA2 : stA2 = nextTokSt stA := advance_ok hAdvD
              obtain ⟨hBeq, _⟩ := pure_ok_inv hDt3
              rw [hBeq, hA2]
              exact ⟨(nextTokSt_frame stA).2.2.1, nextTokSt_input stA⟩
            · rw [if_neg hk] at hDt2
              obtain ⟨hBeq, _⟩ := pure_ok_inv hDt2
              rw [hBeq]
              exact ⟨rfl, rfl⟩
        obtain ⟨stB1, nameTok, hXN, h4⟩ := M_bind_ok h3
        obtain ⟨hB1eq, hcurN, _⟩ := expect_ok hXN
        subst stB1
        obtain ⟨stC, u2, hAdv2, h5⟩ := M_bind_ok h4
        have hstC : stC = nextTokSt stB := advance_ok hAdv2
        obtain ⟨stD, init, hInit, h6⟩ := M_bind_ok h5
        have initFacts : stD.errors = stC.errors ∧ stD.input = stC.input := by
          obtain ⟨stC1, aI, hPi, hIn2⟩ := M_bind_ok hInit
          obtain ⟨hC1eq, haI⟩ := peek_ok hPi
          subst stC1
          rcases aI with _ | tI
          · dsimp only at hIn2
            obtain ⟨hDeq, _⟩ := pure_ok_inv hIn2
            rw [hDeq]
            exact ⟨rfl, rfl⟩
          · dsimp only at hIn2
            by_cases he : tI.value = "="
            · rw [if_pos he] at hIn2
              obtain ⟨stC2, uI, hAdvI, hIn3⟩ := M_bind_ok hIn2
              have hC2 : stC2 = nextTokSt stC := advance_ok hAdvI
              obtain ⟨stC3, e1, hE1, hIn4⟩ := M_bind_ok hIn3
              have frE := expStep_pres m .logicalOr hE1
              obtain ⟨hDeq, _⟩ := pure_ok_inv hIn4
              rw [hDeq]
              constructor
              · rw [frE.2.2.1, hC2]
                exact (nextTokSt_frame stC).2.2.1
              · rw [frE.1, hC2]
                exact nextTokSt_input stC
            · rw [if_neg he] at hIn2
              obtain ⟨hDeq, _⟩ := pure_ok_inv hIn2
              rw [hDeq]
              exact ⟨rfl, rfl⟩
        have herrD : stD.errors = st.errors := by
          rw [initFacts.1, hstC, (nextTokSt_frame stB).2.2.1, dtFacts.1, hstA,
            (nextTokSt_frame st).2.2.1]
        have hinpD : stD.input = st.input := by
          rw [initFacts.2, hstC, nextTokSt_input, dtFacts.2, hstA,
            nextTokSt_input]
        obtain ⟨stD1, aF, hPf, h7⟩ := M_bind_ok h6
        obtain ⟨hD1eq, haF⟩ := peek_ok hPf
        subst stD1
        rcases aF with _ | tF
        · dsimp only at h7
          obtain ⟨stE, inp, hI2, h8⟩ := M_bind_ok h7
          obtain ⟨hEeq, hinp⟩ := getInput_inv hI2
          subst stE
          obtain ⟨stF, u8, hRec, h9⟩ := M_bind_ok h8
          have hstF := recordErr_ok hRec
          subst hstF
          obtain ⟨hGeq, hnd⟩ := pure_ok_inv h9
          subst hnd
          subst hGeq
          refine ⟨.varDecl dtOpt nameTok.value init startToken.start nameTok.stop,
            nameTok.stop, rfl, rfl, Or.inr ⟨Or.inl ?_, ?_⟩⟩
          · exact haF.symm
          · show stD.errors ++ [⟨msgMissingSemiVar, nameTok.stop,
              findEndOfLine inp nameTok.stop⟩] = _
            rw [herrD, (Except.ok.inj hinp).trans hinpD]
        · dsimp only at h7
          by_cases hsemi : tF.value = ";"
          · rw [if_pos hsemi] at h7
            obtain ⟨stE, u5, hAdv3, h8⟩ := M_bind_ok h7
            have hstE : stE = nextTokSt stD := advance_ok hAdv3
            subst hstE
            obtain ⟨stF, after, hPA, h9⟩ := M_bind_ok h8
            obtain ⟨hFeq, hafter⟩ := peek_ok hPA
            subst stF
            obtain ⟨hGeq, hnd⟩ := pure_ok_inv h9
            subst hnd
            subst hGeq
            have hcg : stD.tokens.get? stD.position = some tF := haF.symm
            have hlt : stD.position < stD.tokens.length := (List.get?_eq_some.mp hcg).1
            have hp : (nextTokSt stD).position = stD.position + 1 := by
              unfold nextTokSt
              rw [if_pos hlt]
            refine ⟨_, _, rfl, rfl, Or.inl ⟨⟨tF, ?_, hsemi⟩, ?_⟩⟩
            · rw [nextTokSt_tokens, hp]
              simpa using hcg
            · rw [(nextTokSt_frame stD).2.2.1, herrD]
          · rw [if_neg hsemi] at h7
            obtain ⟨stE, inp, hI2, h8⟩ := M_bind_ok h7
            obtain ⟨hEeq, hinp⟩ := getInput_inv hI2
            subst stE
            obtain ⟨stF, u8, hRec, h9⟩ := M_bind_ok h8
            have hstF := recordErr_ok hRec
            subst hstF
            obtain ⟨hGeq, hnd⟩ := pure_ok_inv h9
            subst hnd
            subst hGeq
            refine ⟨.varDecl dtOpt nameTok.value init startToken.start nameTok.stop,
              nameTok.stop, rfl, rfl, Or.inr ⟨Or.inr ⟨tF, ?_, hsemi⟩, ?_⟩⟩
            · exact haF.symm
            · show stD.errors ++ [⟨msgMissingSemiVar, nameTok.stop,
                findEndOfLine inp nameTok.stop⟩] = _
              rw [herrD, (Except.ok.inj hinp).trans hinpD]
  · intro expr st st' r h
    simp only [exprStmtFinish] at h
    obtain ⟨st1, a, hP, h2⟩ := M_bind_ok h
    obtain ⟨h1eq, ha⟩ := peek_ok hP
    subst st1
    rcases a with _ | t
    · dsimp only at h2
      obtain ⟨st2, inp, hI, h3⟩ := M_bind_ok h2
      obtain ⟨h2eq, hinp⟩ := getInput_inv hI
      subst st2
      obtain ⟨st3, u3, hRec, h4⟩ := M_bind_ok h3
      have hst3 := recordErr_ok hRec
      subst hst3
      obtain ⟨h4eq, hnd⟩ := pure_ok_inv h4
      subst hnd
      subst h4eq
      refine ⟨⟨_, rfl⟩, ?_, ?_⟩
      · intro t htc
        rw [← ha] at htc
        exact absurd htc (by simp)
      · intro _
        refine ⟨?_, rfl⟩
        show st.errors ++ [⟨msgMissingSemiStmt, stopOf expr,
          findEndOfLine inp (stopOf expr)⟩] = _
        rw [Except.ok.inj hinp]
    · dsimp only at h2
      by_cases htv : t.value = ";"
      · rw [if_pos htv] at h2
        obtain ⟨st2, u2, hAdv, h3⟩ := M_bind_ok h2
        have hst2 : st2 = nextTokSt st := advance_ok hAdv
        subst hst2
        obtain ⟨st3, after, hP2, h4⟩ := M_bind_ok h3
        obtain ⟨h3eq, hafter⟩ := peek_ok hP2
        subst st3
        obtain ⟨h4eq, hnd⟩ := pure_ok_inv h4
        subst hnd
        subst h4eq
        refine ⟨⟨_, rfl⟩, ?_, ?_⟩
        · intro u huc hus
          rw [(nextTokSt_frame st).2.2.1]
        · intro hcase
          rcases hcase with hnone | ⟨u, huc, hune⟩
          · rw [← ha] at hnone
            exact absurd hnone (by simp)
          · rw [← ha] at huc
            cases Option.some_injective _ huc.symm
            exact absurd htv hune
      · rw [if_neg htv] at h2
        obtain ⟨st2, inp, hI, h3⟩ := M_bind_ok h2
        obtain ⟨h2eq, hinp⟩ := getInput_inv hI
        subst st2
        obtain ⟨st3, u3, hRec, h4⟩ := M_bind_ok h3
        have hst3 := recordErr_ok hRec
        subst hst3
        obtain ⟨h4eq, hnd⟩ := pure_ok_inv h4
        subst hnd
        subst h4eq
        refine ⟨⟨_, rfl⟩, ?_, ?_⟩
        · intro u huc hus
          rw [← ha] at huc
          cases Option.some_injective _ huc.symm
          exact absurd hus htv
        · intro _
          refine ⟨?_, rfl⟩
          show st.errors ++ [⟨msgMissingSemiStmt, stopOf expr,
            findEndOfLine inp (stopOf expr)⟩] = _
          rw [Except.ok.inj hinp]
  · intro n left st st' r h
    cases n with
    | zero => exact Option.noConfusion h
    | succ m =>
      simp only [stStep] at h
      obtain ⟨st0, tEq, hX, h1⟩ := M_bind_ok h
      obtain ⟨h0eq, hcurE, _⟩ := expect_ok hX
      subst st0
      obtain ⟨stA, u1, hAdv, h2⟩ := M_bind_ok h1
      have hstA : stA = nextTokSt st := advance_ok hAdv
      obtain ⟨stB, right, hR, h3⟩ := M_bind_ok h2
      have frR := expStep_pres m .logicalOr hR
      have herrB : stB.errors = st.errors := by
        rw [frR.2.2.1, hstA, (nextTokSt_frame st).2.2.1]
      have hinpB : stB.input = st.input := by
        rw [frR.1, hstA, nextTokSt_input]
      obtain ⟨stB1, aP, hP, h4⟩ := M_bind_ok h3
      obtain ⟨hB1eq, haP⟩ := peek_ok hP
      subst stB1
      rcases aP with _ | t
      · dsimp only at h4
        obtain ⟨stC, inp, hI, h5⟩ := M_bind_ok h4
        obtain ⟨hCeq, hinp⟩ := getInput_inv hI
        subst stC
        obtain ⟨stD, u8, hRec, h6⟩ := M_bind_ok h5
        have hstD := recordErr_ok hRec
        subst hstD
        obtain ⟨hGeq, hnd⟩ := pure_ok_inv h6
        subst hnd
        subst hGeq
        refine ⟨right, stopOf right, rfl, Or.inr ⟨Or.inl haP.symm, rfl, ?_⟩⟩
        show stB.errors ++ [⟨msgMissingSemiAssign, stopOf right,
          findEndOfLine inp (stopOf right)⟩] = _
        rw [herrB, (Except.ok.inj hinp).trans hinpB]
      · dsimp only at h4
        by_cases hsemi : t.value = ";"
        · rw [if_pos hsemi] at h4
          obtain ⟨stC, u5, hAdv3, h5⟩ := M_bind_ok h4
          have hstC : stC = nextTokSt stB := advance_ok hAdv3
          subst hstC
          obtain ⟨stD, after, hPA, h6⟩ := M_bind_ok h5
          obtain ⟨hFeq, hafter⟩ := peek_ok hPA
          subst stD
          obtain ⟨hGeq, hnd⟩ := pure_ok_inv h6
          subst hnd
          subst hGeq
          have hcg : stB.tokens.get? stB.position = some t := haP.symm
          have hlt : stB.position < stB.tokens.length := (List.get?_eq_some.mp hcg).1
          have hp : (nextTokSt stB).position = stB.position + 1 := by
            unfold nextTokSt
            rw [if_pos hlt]
          refine ⟨right, _, rfl, Or.inl ⟨⟨t, ?_, hsemi⟩, ?_⟩⟩
          · rw [nextTokSt_tokens, hp]
            simpa using hcg
          · rw [(nextTokSt_frame stB).2.2.1, herrB]
        · rw [if_neg hsemi] at h4
          obtain ⟨stC, inp, hI, h5⟩ := M_bind_ok h4
          obtain ⟨hCeq, hinp⟩ := getInput_inv hI
          subst stC
          obtain ⟨stD, u8, hRec, h6⟩ := M_bind_ok h5
          have hstD := recordErr_ok hRec
          subst hstD
          obtain ⟨hGeq, hnd⟩ := pure_ok_inv h6
          subst hnd
          subst hGeq
          refine ⟨right, stopOf right, rfl,
            Or.inr ⟨Or.inr ⟨t, haP.symm, hsemi⟩, rfl, ?_⟩⟩
          show stB.errors ++ [⟨msgMissingSemiAssign, stopOf right,
            findEndOfLine inp (stopOf right)⟩] = _
          rw [herrB, (Except.ok.inj hinp).trans hinpB]

/-- The tokens of the input `var x = 5` (no trailing semicolon). -/
def varxToks : List Token :=
  [⟨.KEYWORD, "var", 0, 3⟩, ⟨.IDENTIFIER, "x", 4, 5⟩, ⟨.SYMBOL, "=", 6, 7⟩,
   ⟨.NUMBER, "5", 8, 9⟩]

/-- The parser state at the start of `var x = 5`. -/
def varxSt0 : PSt := ⟨"var x = 5".data, varxToks, 0, []⟩

/-- The parser state after `parseVariableDeclaration` on `var x = 5`: the
missing-semicolon error `[5, 9)` (statement end to line end) was recorded. -/
def varxSt1 : PSt := ⟨"var x = 5".data, varxToks, 4, [⟨msgMissingSemiVar, 5, 9⟩]⟩

/-- The node `parseVariableDeclaration` returns for `var x = 5`. -/
def varxNd : Node := .varDecl none "x" (some (.lit (.num true) "5" 8 9)) 0 5

theorem missing_semicolon_recovery_witness :
    ∃ nd e, (StRet.one (some varxNd)) = .one (some nd) ∧ nodeStop nd = some e ∧
      (((∃ t, varxSt1.tokens.get? (varxSt1.position - 1) = some t ∧
            t.value = ";") ∧ varxSt1.errors = varxSt0.errors) ∨
       ((currentToken varxSt1 = none ∨
           ∃ t, currentToken varxSt1 = some t ∧ t.value ≠ ";") ∧
         varxSt1.errors = varxSt0.errors ++
           [⟨msgMissingSemiVar, e, findEndOfLine varxSt0.input e⟩])) :=
  missing_semicolon_recovery.1 20 varxSt0 varxSt1 (.one (some varxNd)) rfl

/-- Claim C5: a typed declaration with an incompatible initializer emits
exactly one mismatch diagnostic at the initializer's range and leaves the
variable unregistered; a compatible one registers the declared type; an
assignment to an untracked variable adds no diagnostic of its own; and the
two-line pipeline of the claim yields exactly the one declaration
diagnostic. -/
theorem typed_declaration_checking :
    (∀ (input : List Char) (tc : TcState) (dt name : String) (i : Node)
        (s e : Nat),
        isCompatibleType dt (inferType tc.symbolTable i) = false →
        checkNode input tc (.varDecl (some dt) name (some i) s e) =
          { tc with errors := tc.errors ++ [⟨1,
              getPositionFromIndex input (startOf i),
              getPositionFromIndex input (stopOf i),
              mismatchVarMsg dt (inferType tc.symbolTable i) name⟩] }) ∧
    (∀ (input : List Char) (tc : TcState) (dt name : String) (i : Node)
        (s e : Nat),
        isCompatibleType dt (inferType tc.symbolTable i) = true →
        checkNode input tc (.varDecl (some dt) name (some i) s e) =
          { tc with symbolTable := tableSet tc.symbolTable name dt }) ∧
    (∀ (input : List Char) (tc : TcState) (nm : String) (a b : Nat)
        (right : Node) (s e : Nat),
        tableGet tc.symbolTable nm = none →
        checkNode input tc (.assign (.ident nm a b) right s e) =
          checkNode input tc right) ∧
    analyzeTypeSafety 200
        ("var int x = \"hello\";\nx = 5;".data) =
      some [⟨1, ⟨0, 12⟩, ⟨0, 19⟩, mismatchVarMsg "int" "string" "x"⟩] := by
  refine ⟨?_, ?_, ?_, ?_⟩
  · intro input tc dt name i s e h
    simp [checkNode, h]
  · intro input tc dt name i s e h
    simp [checkNode, h]
  · intro input tc nm a b right s e h
    simp [checkNode, h]
  · rfl

theorem typed_declaration_checking_witness :
    checkNode ("var int x = \"hello\";".data) ⟨[], []⟩
      (.varDecl (some "int") "x"
        (some (.lit (.str "\"hello\"") "\"hello\"" 12 19)) 0 10) =
      ⟨[], [⟨1, ⟨0, 12⟩, ⟨0, 19⟩, mismatchVarMsg "int" "string" "x"⟩]⟩ :=
  typed_declaration_checking.1 ("var int x = \"hello\";".data) ⟨[], []⟩
    "int" "x" (.lit (.str "\"hello\"") "\"hello\"" 12 19) 0 10 rfl

/-- Claim C6: comparison and logical operators infer as `bool`; arithmetic
operators infer as `int` exactly when both operands infer as `int` and the
operator is not `/`, and as `float` otherwise. -/
theorem operator_type_inference :
    (∀ (table : List (String × String)) (op : String) (l r : Node) (s e : Nat),
        ["==", "!=", "<", "<=", ">", ">=", "and", "or"].contains op = true →
        inferType table (.binary op l r s e) = "bool" ∧
        inferType table (.logical op l r s e) = "bool") ∧
    (∀ (table : List (String × String)) (op : String) (l r : Node) (s e : Nat),
        ["==", "!=", "<", "<=", ">", ">=", "and", "or"].contains op = false →
        ["+", "-", "*", "/", "%"].contains op = true →
        inferType table l = "int" → inferType table r = "int" → op ≠ "/" →
        inferType table (.binary op l r s e) = "int" ∧
        inferType table (.logical op l r s e) = "int") ∧
    (∀ (table : List (String × String)) (op : String) (l r : Node) (s e : Nat),
        ["==", "!=", "<", "<=", ">", ">=", "and", "or"].contains op = false →
        ["+", "-", "*", "/", "%"].contains op = true →
        (op = "/" ∨ inferType table l ≠ "int" ∨ inferType table r ≠ "int") →
        inferType table (.binary op l r s e) = "float" ∧
        inferType table (.logical op l r s e) = "float") ∧
    (inferType [] (.binary "+" (.lit (.num true) "1" 0 1)
        (.lit (.num true) "1" 4 5) 0 5) = "int" ∧
     inferType [] (.binary "/" (.lit (.num true) "1" 0 1)
        (.lit (.num true) "1" 4 5) 0 5) = "float" ∧
     inferType [] (.binary "==" (.lit (.num true) "1" 0 1)
        (.lit (.num true) "1" 4 5) 0 5) = "bool") := by
  refine ⟨?_, ?_, ?_, rfl, rfl, rfl⟩
  · intro table op l r s e h
    simp only [List.contains_cons, List.contains_nil, Bool.or_eq_true,
      beq_iff_eq] at h
    rcases h with h | h | h | h | h | h | h | h | h
    all_goals first
      | exact absurd h (by simp)
      | (subst h; exact ⟨by simp [inferType], by simp [inferType]⟩)
  · intro table op l r s e hc ha hl hr hop
    simp only [List.contains_cons, List.contains_nil, Bool.or_eq_true,
      beq_iff_eq] at ha
    rcases ha with ha | ha | ha | ha | ha | ha
    all_goals first
      | exact absurd ha (by simp)
      | (subst ha
         first
           | exact absurd rfl hop
           | exact ⟨by simp [inferType, hl, hr], by simp [inferType, hl, hr]⟩)
  · intro table op l r s e hc ha hcase
    simp only [List.contains_cons, List.contains_nil, Bool.or_eq_true,
      beq_iff_eq] at ha
    have hfl : ∀ op2 : String, op2 = "+" ∨ op2 = "-" ∨ op2 = "*" ∨ op2 = "%" →
        (op2 = "/" ∨ inferType table l ≠ "int" ∨ inferType table r ≠ "int") →
        inferType table (.binary op2 l r s e) = "float" ∧
        inferType table (.logical op2 l r s e) = "float" := by
      intro op2 hop2 hcase2
      rcases hcase2 with hop | hl | hr
      · rcases hop2 with h2 | h2 | h2 | h2 <;> rw [h2] at hop <;>
          exact absurd hop (by simp)
      · by_cases hle : inferType table l = ""
        · rcases hop2 with h2 | h2 | h2 | h2 <;> subst h2 <;>
            exact ⟨by simp [inferType, hle], by simp [inferType, hle]⟩
        · rcases hop2 with h2 | h2 | h2 | h2 <;> subst h2 <;>
            exact ⟨by simp [inferType, hle, hl], by simp [inferType, hle, hl]⟩
      · by_cases hre : inferType table r = ""
        · rcases hop2 with h2 | h2 | h2 | h2 <;> subst h2 <;>
            exact ⟨by simp [inferType, hre], by simp [inferType, hre]⟩
        · rcases hop2 with h2 | h2 | h2 | h2 <;> subst h2 <;>
            exact ⟨by simp [inferType, hre, hr], by simp [inferType, hre, hr]⟩
    rcases ha with ha | ha | ha | ha | ha | ha
    · exact hfl op (Or.inl ha) hcase
    · exact hfl op (Or.inr (Or.inl ha)) hcase
    · exact hfl op (Or.inr (Or.inr (Or.inl ha))) hcase
    · subst ha
      exact ⟨by simp [inferType], by simp [inferType]⟩
    · exact hfl op (Or.inr (Or.inr (Or.inr ha))) hcase
    · exact absurd ha (by simp)

theorem operator_type_inference_witness :
    inferType [] (.binary "+" (.lit (.num true) "2" 0 1)
      (.lit (.num true) "3" 4 5) 0 5) = "int" ∧
    inferType [] (.logical "+" (.lit (.num true) "2" 0 1)
      (.lit (.num true) "3" 4 5) 0 5) = "int" :=
  operator_type_inference.2.1 [] "+" (.lit (.num true) "2" 0 1)
    (.lit (.num true) "3" 4 5) 0 5 rfl rfl rfl rfl (by decide)

/-! A node is declaration-free when no `VariableDeclaration` occurs anywhere
inside it — in particular every expression node the expression parser can
build. -/
mutual

def declFreeB : Node → Bool
  | .varDecl _ _ _ _ _ => false
  | .ifStmt t c a _ _ => declFreeB t && declFreeB c && declFreeOptB a
  | .whileStmt t b _ _ => declFreeB t && declFreeB b
  | .forStmt i t u b _ _ =>
    declFreeOptB i && declFreeOptB t && declFreeOptB u && declFreeB b
  | .block body => declFreeOptsB body
  | .funDecl id _ b _ _ => declFreeB id && declFreeB b
  | .classDecl id b _ _ => declFreeB id && declFreeB b
  | .returnStmt a _ _ => declFreeOptB a
  | .exprStmt x _ _ => declFreeB x
  | .assign l r _ _ => declFreeB l && declFreeB r
  | .binary _ l r _ _ => declFreeB l && declFreeB r
  | .logical _ l r _ _ => declFreeB l && declFreeB r
  | .unary _ a _ _ => declFreeB a
  | .ident _ _ _ => true
  | .lit _ _ _ _ => true
  | .call cal args _ _ => declFreeB cal && declFreeListB args
  | .member o p _ _ => declFreeB o && declFreeB p
  | .arrayLit els _ _ => declFreeListB els
  | .objectLit ps _ _ => declFreeListB ps
  | .property _ v _ _ => declFreeB v

def declFreeOptB : Option Node → Bool
  | none => true
  | some n => declFreeB n

def declFreeListB : List Node → Bool
  | [] => true
  | n :: ns => declFreeB n && declFreeListB ns

def declFreeOptsB : List (Option Node) → Bool
  | [] => true
  | n :: ns => declFreeOptB n && declFreeOptsB ns

end

mutual

theorem checkNode_declFree_table : ∀ (input : List Char) (tc : TcState)
    (n : Node), declFreeB n = true →
    (checkNode input tc n).symbolTable = tc.symbolTable
  | input, tc, .varDecl _ _ _ _ _, h => by exact Bool.noConfusion h
  | input, tc, .ifStmt t c a _ _, h => by
    simp only [declFreeB, Bool.and_eq_true] at h
    simp only [checkNode]
    rw [checkNodeOpt_declFree_table _ _ _ h.2,
      checkNode_declFree_table _ _ _ h.1.2, checkNode_declFree_table _ _ _ h.1.1]
  | input, tc, .whileStmt t b _ _, h => by
    simp only [declFreeB, Bool.and_eq_true] at h
    simp only [checkNode]
    rw [checkNode_declFree_table _ _ _ h.2, checkNode_declFree_table _ _ _ h.1]
  | input, tc, .forStmt i t u b _ _, h => by
    simp only [declFreeB, Bool.and_eq_true] at h
    simp only [checkNode]
    rw [checkNode_declFree_table _ _ _ h.2,
      checkNodeOpt_declFree_table _ _ _ h.1.2,
      checkNodeOpt_declFree_table _ _ _ h.1.1.2,
      checkNodeOpt_declFree_table _ _ _ h.1.1.1]
  | input, tc, .block body, h => by
    simp only [checkNode]
    exact checkNodeOpts_declFree_table _ _ _ h
  | input, tc, .funDecl id _ b _ _, h => by
    simp only [declFreeB, Bool.and_eq_true] at h
    simp only [checkNode]
    rw [checkNode_declFree_table _ _ _ h.2, checkNode_declFree_table _ _ _ h.1]
  | input, tc, .classDecl id b _ _, h => by
    simp only [declFreeB, Bool.and_eq_true] at h
    simp only [checkNode]
    rw [checkNode_declFree_table _ _ _ h.2, checkNode_declFree_table _ _ _ h.1]
  | input, tc, .returnStmt a _ _, h => by
    simp only [checkNode]
    exact checkNodeOpt_declFree_table _ _ _ h
  | input, tc, .exprStmt x _ _, h => by
    simp only [checkNode]
    exact checkNode_declFree_table _ _ _ h
  | input, tc, .assign l r _ _, h => by
    simp only [declFreeB, Bool.and_eq_true] at h
    simp only [checkNode]
    cases l with
    | ident nm a b =>
      dsimp only
      rcases htg : tableGet tc.symbolTable nm with _ | dt
      · exact checkNode_declFree_table _ _ _ h.2
      · dsimp only
        rw [checkNode_declFree_table _ _ _ h.2]
        split
        · split
          · rfl
          · rfl
        · rfl
    | varDecl a b c d e => rfl
    | ifStmt a b c d e => rfl
    | whileStmt a b c d => rfl
    | forStmt a b c d e f => rfl
    | block a => rfl
    | funDecl a b c d e => rfl
    | classDecl a b c d => rfl
    | returnStmt a b c => rfl
    | exprStmt a b c => rfl
    | assign a b c d => rfl
    | binary a b c d e => rfl
    | logical a b c d e => rfl
    | unary a b c d => rfl
    | lit a b c d => rfl
    | call a b c d => rfl
    | member a b c d => rfl
    | arrayLit a b c => rfl
    | objectLit a b c => rfl
    | property a b c d => rfl
  | input, tc, .binary _ l r _ _, h => by
    simp only [declFreeB, Bool.and_eq_true] at h
    simp only [checkNode]
    rw [checkNode_declFree_table _ _ _ h.2, checkNode_declFree_table _ _ _ h.1]
  | input, tc, .logical _ l r _ _, h => by
    simp only [declFreeB, Bool.and_eq_true] at h
    simp only [checkNode]
    rw [checkNode_declFree_table _ _ _ h.2, checkNode_declFree_table _ _ _ h.1]
  | input, tc, .unary _ a _ _, h => by
    simp only [checkNode]
    exact checkNode_declFree_table _ _ _ h
  | input, tc, .ident _ _ _, _ => rfl
  | input, tc, .lit _ _ _ _, _ => rfl
  | input, tc, .call cal args _ _, h => by
    simp only [declFreeB, Bool.and_eq_true] at h
    simp only [checkNode]
    rw [checkNodes_declFree_table _ _ _ h.2, checkNode_declFree_table _ _ _ h.1]
  | input, tc, .member o p _ _, h => by
    simp only [declFreeB, Bool.and_eq_true] at h
    simp only [checkNode]
    rw [checkNode_declFree_table _ _ _ h.2, checkNode_declFree_table _ _ _ h.1]
  | input, tc, .arrayLit els _ _, h => by
    simp only [checkNode]
    exact checkNodes_declFree_table _ _ _ h
  | input, tc, .objectLit ps _ _, h => by
    simp only [checkNode]
    exact checkNodes_declFree_table _ _ _ h
  | input, tc, .property _ v _ _, h => by
    simp only [checkNode]
    exact checkNode_declFree_table _ _ _ h

theorem checkNodeOpt_declFree_table : ∀ (input : List Char) (tc : TcState)
    (o : Option Node), declFreeOptB o = true →
    (checkNodeOpt input tc o).symbolTable = tc.symbolTable
  | input, tc, none, _ => rfl
  | input, tc, some n, h => by
    simp only [checkNodeOpt]
    exact checkNode_declFree_table _ _ _ h

theorem checkNodes_declFree_table : ∀ (input : List Char) (tc : TcState)
    (l : List Node), declFreeListB l = true →
    (checkNodes input tc l).symbolTable = tc.symbolTable
  | input, tc, [], _ => rfl
  | input, tc, n :: ns, h => by
    simp only [declFreeListB, Bool.and_eq_true] at h
    simp only [checkNodes]
    rw [checkNodes_declFree_table _ _ _ h.2, checkNode_declFree_table _ _ _ h.1]

theorem checkNodeOpts_declFree_table : ∀ (input : List Char) (tc : TcState)
    (l : List (Option Node)), declFreeOptsB l = true →
    (checkNodeOpts input tc l).symbolTable = tc.symbolTable
  | input, tc, [], _ => rfl
  | input, tc, o :: os, h => by
    simp only [declFreeOptsB, Bool.and_eq_true] at h
    simp only [checkNodeOpts]
    rw [checkNodeOpts_declFree_table _ _ _ h.2,
      checkNodeOpt_declFree_table _ _ _ h.1]

end

/-- Claim C7: checking an assignment never modifies the symbol table (the
declared type is never updated by a reassignment), for any assignment whose
right-hand side is an expression (declaration-free). -/
theorem reassignment_preserves_symbol_table :
    ∀ (input : List Char) (tc : TcState) (left right : Node) (s e : Nat),
      declFreeB right = true →
      (checkNode input tc (.assign left right s e)).symbolTable =
        tc.symbolTable := by
  intro input tc left right s e h
  simp only [checkNode]
  cases left with
  | ident nm a b =>
    dsimp only
    rcases htg : tableGet tc.symbolTable nm with _ | dt
    · exact checkNode_declFree_table _ _ _ h
    · dsimp only
      rw [checkNode_declFree_table _ _ _ h]
      split
      · split
        · rfl
        · rfl
      · rfl
  | varDecl a b c d e2 => rfl
  | ifStmt a b c d e2 => rfl
  | whileStmt a b c d => rfl
  | forStmt a b c d e2 f => rfl
  | block a => rfl
  | funDecl a b c d e2 => rfl
  | classDecl a b c d => rfl
  | returnStmt a b c => rfl
  | exprStmt a b c => rfl
  | assign a b c d => rfl
  | binary a b c d e2 => rfl
  | logical a b c d e2 => rfl
  | unary a b c d => rfl
  | lit a b c d => rfl
  | call a b c d => rfl
  | member a b c d => rfl
  | arrayLit a b c => rfl
  | objectLit a b c => rfl
  | property a b c d => rfl

theorem reassignment_preserves_symbol_table_witness :
    (checkNode ("x = 5".data) ⟨[("x", "int")], []⟩
      (.assign (.ident "x" 0 1) (.lit (.num true) "5" 4 5) 0 5)).symbolTable =
      [("x", "int")] :=
  reassignment_preserves_symbol_table ("x = 5".data) ⟨[("x", "int")], []⟩
    (.ident "x" 0 1) (.lit (.num true) "5" 4 5) 0 5 rfl

theorem tokenizeAux_ws : ∀ (fuel : Nat) (rest : List Char) (pos : Nat),
    rest.length < fuel → rest.all isWsChar = true →
    tokenizeAux fuel rest pos = some (.ok []) := by
  intro fuel
  induction fuel with
  | zero =>
    intro rest pos h _
    exact absurd h (Nat.not_lt_zero _)
  | succ n ih =>
    intro rest pos h hall
    match rest with
    | [] => rfl
    | c :: cs =>
      simp only [List.all_cons, Bool.and_eq_true] at hall
      rw [tokenizeAux, if_pos hall.1]
      refine ih cs (pos + 1) ?_ hall.2
      simp only [List.length_cons] at h
      omega

/-- Whitespace-only input always tokenizes to the empty token list, never to
an error. -/
theorem tokenize_blank_ok {input : List Char}
    (h : isBlankInput input = true) : tokenize input = some (.ok []) :=
  tokenizeAux_ws _ input 0 (Nat.lt_succ_self _) h

/-- Claim C8: a tokenizer error (the unterminated string, the one fatal
lexical error) aborts the whole pass: no token list is produced, `parse`
returns the same error, and `analyzeTypeSafety` catches it and reports no
diagnostics.  An unterminated string does error out; an unterminated block
comment does not. -/
theorem unterminated_string_aborts :
    (∀ (fuel : Nat) (input : List Char) (e : String),
        tokenize input = some (.error e) →
        parse fuel input = some (.error e) ∧
        analyzeTypeSafety fuel input = some []) ∧
    tokenize ((String.mk [dqChar] ++ "abc").data) =
      some (.error "Unterminated string at position 0") ∧
    tokenize ("/* abc".data) = some (.ok []) := by
  refine ⟨?_, rfl, rfl⟩
  intro fuel input e htk
  have hnb : isBlankInput input = false := by
    rcases hb : isBlankInput input with _ | _
    · rfl
    · rw [tokenize_blank_ok hb] at htk
      exact absurd (Option.some_injective _ htk) (by simp)
  have hp : parse fuel input = some (.error e) := by
    unfold parse
    rw [if_neg (by rw [hnb]; exact Bool.false_ne_true), htk]
  refine ⟨hp, ?_⟩
  unfold analyzeTypeSafety
  rw [hp]

theorem unterminated_string_aborts_witness :
    parse 5 ((String.mk [dqChar] ++ "abc").data) =
      some (.error "Unterminated string at position 0") ∧
    analyzeTypeSafety 5 ((String.mk [dqChar] ++ "abc").data) = some [] :=
  unterminated_string_aborts.1 5 ((String.mk [dqChar] ++ "abc").data)
    "Unterminated string at position 0" rfl

/-- The type tags the checker works with. -/
def typeTags : List String :=
  ["int", "float", "string", "bool", "array", "object", "any"]

/-- Every value stored in the symbol table is one of the type tags — true of
every table the checker itself builds (`'any'` or a declared type keyword). -/
def tableOkB (table : List (String × String)) : Bool :=
  table.all (fun kv => typeTags.contains kv.2)

theorem tableGet_tag : ∀ {table : List (String × String)} {k v : String},
    tableOkB table = true → tableGet table k = some v →
    typeTags.contains v = true := by
  intro table
  induction table with
  | nil =>
    intro k v _ h
    exact Option.noConfusion h
  | cons kv rest ih =>
    intro k v hT hg
    rcases kv with ⟨k2, v2⟩
    simp only [tableOkB, List.all_cons, Bool.and_eq_true] at hT
    rw [tableGet] at hg
    by_cases hk : k2 = k
    · rw [if_pos hk] at hg
      cases Option.some_injective _ hg
      exact hT.1
    · rw [if_neg hk] at hg
      exact ih hT.2 hg

theorem inferType_tag : ∀ (table : List (String × String)) (n : Node),
    tableOkB table = true → typeTags.contains (inferType table n) = true
  | table, .lit v raw _ _, _ => by
    cases v <;> simp only [inferType] <;>
      first
        | (split_ifs <;> rfl)
        | rfl
  | table, .ident name _ _, hT => by
    simp only [inferType]
    rcases htg : tableGet table name with _ | v
    · rfl
    · dsimp only
      split
      · rfl
      · exact tableGet_tag hT htg
  | table, .binary op l r _ _, _ => by
    simp only [inferType]
    split_ifs <;> rfl
  | table, .logical op l r _ _, _ => by
    simp only [inferType]
    split_ifs <;> rfl
  | table, .unary op a _ _, hT => by
    simp only [inferType]
    split
    · rfl
    · split
      · rfl
      · exact inferType_tag table a hT
  | table, .arrayLit _ _ _, _ => rfl
  | table, .objectLit _ _ _, _ => rfl
  | table, .call _ _ _ _, _ => rfl
  | table, .member _ _ _ _, _ => rfl
  | table, .varDecl _ _ _ _ _, _ => rfl
  | table, .ifStmt _ _ _ _ _, _ => rfl
  | table, .whileStmt _ _ _ _, _ => rfl
  | table, .forStmt _ _ _ _ _ _, _ => rfl
  | table, .block _, _ => rfl
  | table, .funDecl _ _ _ _ _, _ => rfl
  | table, .classDecl _ _ _ _, _ => rfl
  | table, .returnStmt _ _ _, _ => rfl
  | table, .exprStmt _ _ _, _ => rfl
  | table, .assign _ _ _ _, _ => rfl
  | table, .property _ _ _ _, _ => rfl

/-- Spec-modelled variant of `isCompatibleType`: the compatibility relation
as reachable behaviour, without the dead `actual = 'nil'` branch. -/
def isCompatibleTypeNoNil (expected actual : String) : Bool :=
  if expected = actual then true
  else if expected = "any" || actual = "any" then true
  else if expected = "float" && actual = "int" then true
  else false

theorem compat_agree_of_ne_nil {expected actual : String} (h : actual ≠ "nil") :
    isCompatibleType expected actual = isCompatibleTypeNoNil expected actual := by
  unfold isCompatibleType isCompatibleTypeNoNil
  by_cases h1 : expected = actual
  · rw [if_pos h1, if_pos h1]
  · rw [if_neg h1, if_neg h1]
    by_cases h2 : (expected = "any" || actual = "any") = true
    · rw [if_pos h2, if_pos h2]
    · rw [if_neg h2, if_neg h2]
      by_cases h3 : (expected = "float" && actual = "int") = true
      · rw [if_pos h3, if_pos h3]
      · rw [if_neg h3, if_neg h3, if_neg h]

/-- Claim C9: over any symbol table holding only type tags, `inferType` only
returns one of `int float string bool array object any` and never the string
`nil`; a `nil` literal infers as `any`; consequently `isCompatibleType`
agrees with its nil-branch-free variant on every inferred type — the
`actual = 'nil'` branch is unreachable from `inferType`. -/
theorem inferType_never_nil :
    (∀ (table : List (String × String)) (n : Node), tableOkB table = true →
        typeTags.contains (inferType table n) = true ∧
        inferType table n ≠ "nil") ∧
    (∀ (table : List (String × String)) (raw : String) (s e : Nat),
        inferType table (.lit .nil raw s e) = "any") ∧
    (∀ (expected : String) (table : List (String × String)) (n : Node),
        tableOkB table = true →
        isCompatibleType expected (inferType table n) =
          isCompatibleTypeNoNil expected (inferType table n)) := by
  have hne : ∀ table n, tableOkB table = true → inferType table n ≠ "nil" := by
    intro table n hT hh
    have hmem := inferType_tag table n hT
    rw [hh] at hmem
    exact absurd hmem (by decide)
  refine ⟨fun table n hT => ⟨inferType_tag table n hT, hne table n hT⟩,
    fun _ _ _ _ => rfl, ?_⟩
  intro expected table n hT
  exact compat_agree_of_ne_nil (hne table n hT)

theorem inferType_never_nil_witness :
    typeTags.contains (inferType [("x", "int")] (.ident "x" 0 1)) = true ∧
    inferType [("x", "int")] (.ident "x" 0 1) ≠ "nil" :=
  inferType_never_nil.1 [("x", "int")] (.ident "x" 0 1) rfl
